import Mathlib

/-!
A shallow embedding of the core of the `factory` repository
(`factory-lib/src/domain.rs` together with `entities.rs` and `traits.rs`):
the crafting-graph builder `from_dataset`, the tier assigner `adjust_tiers`
and the crafting-tree enumerator `get_crafting_trees`, plus the lookup
helpers they use.  Rust's `petgraph::DiGraph` is modelled by a node list
(indices are list positions, as petgraph indices are for a graph that never
deletes) and an edge list in insertion order; neighbour iteration in
petgraph walks each node's adjacency list most-recent-first, which is the
reverse of insertion order.  `rust_decimal::Decimal` is modelled by `Rat`
(only equality on amounts matters to the code under study), `Duration` by
its nanosecond count, and the fallible/unbounded loops by explicit fuel.
-/

namespace Factory

/-- `entities.rs`: `Item` — identity is the name plus the `natural` flag
(derived `PartialEq` compares both fields). -/
structure Item where
  name : String
  natural : Bool
deriving DecidableEq, Repr

/-- `entities.rs`: `FactoryKind`. -/
inductive FactoryKind where
  | assembler | oilRefinery | chemicalPlant | centrifuge | smelter | rocketSilo
deriving DecidableEq, Repr

/-- `entities.rs`: `Recipe`.  `time` is the `Duration` in nanoseconds;
amounts (`rust_decimal::Decimal`) are rationals. -/
structure Recipe where
  name : String
  results : List (Rat × Item)
  ingredients : List (Rat × Item)
  time : Nat
  factoryKind : FactoryKind
deriving DecidableEq, Repr

/-- `domain.rs`: `Node<'data>` — a tagged union of an item or a recipe
with a tier.  Derived equality compares the referenced entity by value
and the tier. -/
inductive Node where
  | item : Item → Nat → Node
  | recipe : Recipe → Nat → Node
deriving DecidableEq, Repr

namespace Node

/-- `Node::get_tier`. -/
def tier : Node → Nat
  | .item _ t => t
  | .recipe _ t => t

/-- `Node::set_tier`. -/
def withTier : Node → Nat → Node
  | .item i _, t => .item i t
  | .recipe r _, t => .recipe r t

/-- Whether the node is an `Item` variant. -/
def isItem : Node → Bool
  | .item _ _ => true
  | .recipe _ _ => false

/-- Whether the node is a `Recipe` variant. -/
def isRecipe : Node → Bool
  | .item _ _ => false
  | .recipe _ _ => true

/-- The entity name carried by the node. -/
def name : Node → String
  | .item i _ => i.name
  | .recipe r _ => r.name

end Node

/-- A directed edge of the crafting graph: source index, target index,
amount (the `ItemAmount` edge weight). -/
structure Edge where
  src : Nat
  tgt : Nat
  w : Rat
deriving DecidableEq, Repr

/-- `domain.rs`: `CraftingGraph<'data>` — a `DiGraph<Node, ItemAmount>`
plus the captured list of natural items.  `nodes` is indexed by position
(petgraph node indices), `edges` is kept in insertion order. -/
structure Graph where
  nodes : List Node
  edges : List Edge
  naturals : List Item
deriving DecidableEq, Repr

/-- `traits.rs`: `DataSource` — the iterated items and recipes. -/
structure Dataset where
  items : List Item
  recipes : List Recipe
deriving DecidableEq, Repr

/-- `DataSource::natural_items`: the items flagged natural, in order. -/
def Dataset.naturalItems (d : Dataset) : List Item :=
  d.items.filter (·.natural)

namespace Graph

/-- The placeholder node used to totalise index lookups; all accesses in
the modelled runs are in bounds. -/
def dummy : Node := .item ⟨"", false⟩ 0

/-- `graph.data[idx]` — node weight at an index. -/
def node (g : Graph) (i : Nat) : Node :=
  g.nodes.getD i dummy

/-- `DiGraph::add_node`: appends, returning the new graph and the fresh
index (= old length). -/
def addNode (g : Graph) (n : Node) : Graph × Nat :=
  ({ g with nodes := g.nodes ++ [n] }, g.nodes.length)

/-- `DiGraph::add_edge`: always inserts a new (possibly parallel) edge. -/
def addEdge (g : Graph) (a b : Nat) (w : Rat) : Graph :=
  { g with edges := g.edges ++ [⟨a, b, w⟩] }

/-- Replace the weight of the most recently inserted `a → b` edge
(petgraph's `find_edge` walks the adjacency list most-recent-first). -/
def replaceLastWeight : List Edge → Nat → Nat → Rat → List Edge
  | [], _, _, _ => []
  | e :: es, a, b, w =>
    if es.any fun e2 => e2.src = a ∧ e2.tgt = b then
      e :: replaceLastWeight es a b w
    else if e.src = a ∧ e.tgt = b then ⟨a, b, w⟩ :: es
    else e :: replaceLastWeight es a b w

/-- `DiGraph::update_edge`: update the weight of the existing `a → b`
edge if any, otherwise add the edge. -/
def updateEdge (g : Graph) (a b : Nat) (w : Rat) : Graph :=
  if g.edges.any fun e => e.src = a ∧ e.tgt = b then
    { g with edges := replaceLastWeight g.edges a b w }
  else addEdge g a b w

/-- `neighbors_directed(i, Outgoing)`: targets of edges out of `i`, most
recently inserted first. -/
def outNeighbors (g : Graph) (i : Nat) : List Nat :=
  ((g.edges.filter fun e => e.src = i).reverse).map (·.tgt)

/-- `neighbors_directed(i, Incoming)`: sources of edges into `i`, most
recently inserted first. -/
def inNeighbors (g : Graph) (i : Nat) : List Nat :=
  ((g.edges.filter fun e => e.tgt = i).reverse).map (·.src)

/-- `edges_connecting(a, b).map(weight).next()`: the weight of the most
recently inserted `a → b` edge, if any. -/
def firstConnectingWeight (g : Graph) (a b : Nat) : Option Rat :=
  (((g.edges.filter fun e => e.src = a ∧ e.tgt = b).reverse).map (·.w)).head?

/-- Insert `x` after every already-placed element whose key is `≤` its
own: the insertion step of a stable insertion sort. -/
def insertLe (key : Nat → Nat) (x : Nat) : List Nat → List Nat
  | [] => [x]
  | y :: ys => if key y ≤ key x then y :: insertLe key x ys else x :: y :: ys

/-- A stable ascending insertion sort by `key`; stable sorts by the same
key agree, so this models Rust's stable `sort_by`/`sorted_by`. -/
def insertionSort (key : Nat → Nat) : List Nat → List Nat
  | [] => []
  | x :: xs => insertLe key x (insertionSort key xs)

/-- `itertools::sorted_by` / `sort_by` on tiers: a stable ascending sort
by node tier (Rust's sorts are stable). -/
def sortByTier (g : Graph) (idxs : List Nat) : List Nat :=
  insertionSort (fun i => (g.node i).tier) idxs

/-- `get_node_idx`: position of the first node equal to the target
value — note that equality includes the tier. -/
def getNodeIdx (g : Graph) (n : Node) : Option Nat :=
  (g.nodes.findIdx? (· = n))

/-- `get_item_idx_from_name`. -/
def getItemIdxFromName (g : Graph) (s : String) : Option Nat :=
  g.nodes.findIdx? fun n => n.isItem ∧ n.name = s

/-- `get_recipe_idx_from_name`. -/
def getRecipeIdxFromName (g : Graph) (s : String) : Option Nat :=
  g.nodes.findIdx? fun n => n.isRecipe ∧ n.name = s

/-- `get_ingredients_for_recipe_idx`: for a recipe node value, its
incoming neighbours sorted by tier; `none` for an item or a value not in
the graph. -/
def getIngredientsForRecipeIdx (g : Graph) (n : Node) : Option (List Nat) :=
  match n with
  | .recipe _ _ => (g.getNodeIdx n).map fun i => g.sortByTier (g.inNeighbors i)
  | .item _ _ => none

/-- `get_results_for_recipe_idxs`: for a recipe node value, its outgoing
neighbours sorted by tier. -/
def getResultsForRecipeIdxs (g : Graph) (n : Node) : Option (List Nat) :=
  match n with
  | .recipe _ _ => (g.getNodeIdx n).map fun i => g.sortByTier (g.outNeighbors i)
  | .item _ _ => none

/-- `get_items_as_ingredients_in_recipes_idxs`: for an item node value,
its outgoing neighbours sorted by tier. -/
def getItemsAsIngredientsInRecipesIdxs (g : Graph) (n : Node) : Option (List Nat) :=
  match n with
  | .item _ _ => (g.getNodeIdx n).map fun i => g.sortByTier (g.outNeighbors i)
  | .recipe _ _ => none

/-- `get_recipes_with_item_in_outputs`: for an item node value, its
incoming neighbours sorted by tier. -/
def getRecipesWithItemInOutputs (g : Graph) (n : Node) : Option (List Nat) :=
  match n with
  | .item _ _ => (g.getNodeIdx n).map fun i => g.sortByTier (g.inNeighbors i)
  | .recipe _ _ => none

/-- Overwrite the tier of the node at index `i` (`set_tier` through
`self.data[current_idx]`). -/
def setTier (g : Graph) (i : Nat) (t : Nat) : Graph :=
  { g with nodes := g.nodes.set i ((g.node i).withTier t) }

/-- The sum of all node tiers; this is the score used by the `Ord`
instance of `CraftingGraph` (and by its `PartialEq`). -/
def tierSum (g : Graph) : Nat :=
  (g.nodes.map Node.tier).sum

end Graph

/-! ### `from_dataset`: the worklist graph builder -/

/-- State of the `from_dataset` worklist: the graph under construction,
the `current_indices` stack (head = Rust's `Vec` top) and the visited
set. -/
structure BState where
  g : Graph
  stack : List Nat
  visited : List Nat
deriving DecidableEq, Repr

/-- Item step of `from_dataset`: for every dataset recipe listing the
item among its ingredients, create-or-reuse the recipe node at
`tier + 1`, `update_edge(item → recipe, amount)`, push the recipe.
Returns the new graph and the pushed indices in push order. -/
def buildItemStep (d : Dataset) (i : Nat) (it : Item) (tier : Nat) (g : Graph) :
    Graph × List Nat :=
  (d.recipes.filter fun r => r.ingredients.any fun p => p.2.name = it.name).foldl
    (fun (acc : Graph × List Nat) r =>
      let (g, pushed) := acc
      let (g, rIdx) :=
        match g.getRecipeIdxFromName r.name with
        | some j => (g, j)
        | none => g.addNode (.recipe r (tier + 1))
      let g :=
        match r.ingredients.findSome? fun p =>
            if it.name = p.2.name then some p.1 else none with
        | some w => g.updateEdge i rIdx w
        | none => g
      (g, pushed ++ [rIdx]))
    (g, [])

/-- Recipe step of `from_dataset`: for every result entry, create-or-reuse
the item node at `tier + 1`, `add_edge(recipe → item, amount)`, push the
item.  Returns the new graph and the pushed indices in push order. -/
def buildRecipeStep (i : Nat) (r : Recipe) (tier : Nat) (g : Graph) :
    Graph × List Nat :=
  r.results.foldl
    (fun (acc : Graph × List Nat) p =>
      let (g, pushed) := acc
      let (g, iIdx) :=
        match g.getItemIdxFromName p.2.name with
        | some j => (g, j)
        | none => g.addNode (.item p.2 (tier + 1))
      (g.addEdge i iIdx p.1, pushed ++ [iIdx]))
    (g, [])

/-- One iteration of the `from_dataset` `while let Some(..) = pop` loop.
`none` means the stack is empty and the loop is over. -/
def buildStep (d : Dataset) (st : BState) : Option BState :=
  match st.stack with
  | [] => none
  | i :: rest =>
    if i ∈ st.visited then some { st with stack := rest }
    else
      match st.g.node i with
      | .item it tier =>
        let (g, pushed) := buildItemStep d i it tier st.g
        some { g, stack := pushed.reverse ++ rest, visited := i :: st.visited }
      | .recipe r tier =>
        let (g, pushed) := buildRecipeStep i r tier st.g
        some { g, stack := pushed.reverse ++ rest, visited := i :: st.visited }

/-- The fueled `from_dataset` worklist; `none` when fuel runs out. -/
def buildLoop (d : Dataset) : Nat → BState → Option Graph
  | 0, _ => none
  | fuel + 1, st =>
    match buildStep d st with
    | none => some st.g
    | some st' => buildLoop d fuel st'

/-- Seeding of `from_dataset`: one tier-0 item node per natural item,
pushed in order (so the last natural is popped first). -/
def buildSeed (d : Dataset) : BState :=
  d.naturalItems.foldl
    (fun st it =>
      let (g, idx) := st.g.addNode (.item it 0)
      { st with g, stack := idx :: st.stack })
    ⟨⟨[], [], d.naturalItems⟩, [], []⟩

/-- `from_dataset` up to (but not including) the final `adjust_tiers`
call: the pure graph-construction worklist. -/
def buildGraph (d : Dataset) (fuel : Nat) : Option Graph :=
  buildLoop d fuel (buildSeed d)

/-! ### `adjust_tiers`: the deferred fixed-point tier assigner -/

/-- State of the `adjust_tiers` worklist: graph, `VecDeque` queue
(head = front) and visited set. -/
structure AState where
  g : Graph
  queue : List Nat
  visited : List Nat
deriving DecidableEq, Repr

/-- One iteration of the `adjust_tiers` loop; `none` when the queue is
empty. -/
def adjustStep (st : AState) : Option AState :=
  match st.queue with
  | [] => none
  | i :: rest =>
    if i ∈ st.visited then some { st with queue := rest }
    else
      match st.g.node i with
      | .item it _ =>
        let producers := (st.g.getRecipesWithItemInOutputs (st.g.node i)).getD []
        let recipesTierMin :=
          ((producers.map fun j => (st.g.node j).tier).min?).getD 1
        let g := st.g.setTier i (recipesTierMin + 1)
        let g := if it.natural then g.setTier i 1 else g
        let consumers := (g.getItemsAsIngredientsInRecipesIdxs (g.node i)).getD []
        some { g, queue := rest ++ consumers, visited := i :: st.visited }
      | .recipe _ _ =>
        match st.g.getIngredientsForRecipeIdx (st.g.node i) with
        | some ings =>
          if ings.any fun j => j ∉ st.visited then
            -- defer: requeue at the back, do not mark visited
            some { st with queue := rest ++ [i] }
          else
            let s := (ings.map fun j => (st.g.node j).tier).sum
            let g := st.g.setTier i (s + 1)
            let results := (g.getResultsForRecipeIdxs (g.node i)).getD []
            some { g, queue := rest ++ results, visited := i :: st.visited }
        | none =>
          some { g := st.g.setTier i 0, queue := rest, visited := i :: st.visited }

/-- The fueled `adjust_tiers` worklist. -/
def adjustLoop : Nat → AState → Option Graph
  | 0, _ => none
  | fuel + 1, st =>
    match adjustStep st with
    | none => some st.g
    | some st' => adjustLoop fuel st'

/-- Seeding of `adjust_tiers`: for every natural item, look up the node
`Item(natural, 0)` — adding it afresh when absent — and enqueue it. -/
def adjustSeed (g : Graph) : AState :=
  g.naturals.foldl
    (fun st it =>
      match st.g.getNodeIdx (.item it 0) with
      | some idx => { st with queue := st.queue ++ [idx] }
      | none =>
        let (g, idx) := st.g.addNode (.item it 0)
        { st with g, queue := st.queue ++ [idx] })
    ⟨g, [], []⟩

/-- The fueled `adjust_tiers`. -/
def adjustTiers (g : Graph) (fuel : Nat) : Option Graph :=
  adjustLoop fuel (adjustSeed g)

/-- The full `from_dataset` (construction worklist followed by
`adjust_tiers`). -/
def fromDataset (d : Dataset) (fuel : Nat) : Option Graph :=
  (buildGraph d fuel).bind fun g => adjustTiers g fuel

/-! ### `get_crafting_trees`: the bounded best-first enumerator -/

/-- A frontier entry of the enumerator: a partial solution graph and its
`processing_indices` list of (full-graph index, subgraph index) pairs, in
Rust `Vec` front-to-back order. -/
abbrev Entry := Graph × List (Nat × Nat)

/-- Rust `Vec::pop`: remove the last element. -/
def vecPop {α : Type} (l : List α) : Option (α × List α) :=
  match l.getLast? with
  | none => none
  | some x => some (x, l.dropLast)

/-- The derived `Ord` of `Vec<(NodeIndex, NodeIndex)>`: lexicographic on
pairs, pairs compared lexicographically on the raw indices. -/
def cmpPend : List (Nat × Nat) → List (Nat × Nat) → Ordering
  | [], [] => .eq
  | [], _ :: _ => .lt
  | _ :: _, [] => .gt
  | a :: as, b :: bs => (((compare a.1 b.1).then (compare a.2 b.2)).then (cmpPend as bs))

/-- The `Ord` of the heap element `(CraftingGraph, Vec<..>)`:
`CraftingGraph`'s `cmp` compares tier sums in reverse (a smaller tier sum
is the greater element), then the pending vector lexicographically. -/
def cmpEntry (e1 e2 : Entry) : Ordering :=
  (compare e2.1.tierSum e1.1.tierSum).then (cmpPend e1.2 e2.2)

/-- Index and value of the first maximal element under `cmpEntry`.
`BinaryHeap::pop` returns some maximal element; which one among equals is
unspecified in Rust, and this model fixes the earliest-inserted one. -/
def bestIdx : List Entry → Option (Nat × Entry)
  | [] => none
  | e :: es =>
    match bestIdx es with
    | none => some (0, e)
    | some (i, b) => if cmpEntry b e = .gt then some (i + 1, b) else some (0, e)

/-- `BinaryHeap::pop` on the list model of the frontier. -/
def popMax (l : List Entry) : Option (Entry × List Entry) :=
  (bestIdx l).map fun p => (p.2, l.eraseIdx p.1)

/-- One closure step for reachability along outgoing edges. -/
def reachStep (g : Graph) (s : List Nat) : List Nat :=
  (s ++ (s.map fun i => g.outNeighbors i).flatten).dedup

/-- Iterated closure. -/
def reachIter (g : Graph) : Nat → List Nat → List Nat
  | 0, s => s
  | n + 1, s => reachIter g n (reachStep g s)

/-- The set of indices reachable from `start` along directed edges
(including `start` itself); `g.nodes.length` closure rounds saturate. -/
def reachSet (g : Graph) (start : Nat) : List Nat :=
  reachIter g g.nodes.length [start]

/-- `copy_of_node_is_present_in_ancestors`: a depth-first walk from
`parent` along outgoing edges looking for a node equal to `n`. -/
def copyPresent (g : Graph) (n : Node) (parent : Nat) : Bool :=
  (reachSet g parent).any fun j => g.node j = n

/-- State of the enumerator loop: the frontier (`BinaryHeap`, modelled as
a list with `push` appending) and the completed solutions in discovery
order. -/
structure EState where
  queue : List Entry
  complete : List Graph
deriving Repr

/-- Result of one enumerator iteration: continue, or stop with the Rust
return value (`none` models an early `?` return of `None`). -/
inductive StepRes where
  | cont : EState → StepRes
  | halt : Option (List Graph) → StepRes

/-- Item expansion: one new frontier entry per producing recipe of the
full graph, each a clone of the current partial solution with the recipe
node and its `recipe → item` edge attached and the recipe appended to the
pending list.  `none` models the `?` on the connecting-edge lookup. -/
def itemBranches (G : Graph) (gi si : Nat) (sub : Graph)
    (pend : List (Nat × Nat)) (ridxs : List Nat) : Option (List Entry) :=
  ridxs.mapM fun ri => do
    let rnode := G.node ri
    let (bsub, addedIdx) := sub.addNode rnode
    let w ← G.firstConnectingWeight ri gi
    let bsub := bsub.addEdge addedIdx si w
    pure (bsub, pend ++ [(ri, addedIdx)])

/-- Recipe expansion: add every full-graph ingredient of the recipe (node
plus `item → recipe` edge) into the same partial solution, enqueueing it
for expansion unless an equal node is already present among the
ancestors.  `none` models the `?` on the connecting-edge lookup. -/
def expandIngredients (G : Graph) (gi si : Nat) :
    List Nat → Graph → List (Nat × Nat) → Option (Graph × List (Nat × Nat))
  | [], sub, pend => some (sub, pend)
  | ii :: rest, sub, pend =>
    let itemNode := G.node ii
    let (sub2, addedIdx) := sub.addNode itemNode
    match G.firstConnectingWeight ii gi with
    | none => none
    | some w =>
      let sub3 := sub2.addEdge addedIdx si w
      if copyPresent sub3 itemNode si then
        expandIngredients G gi si rest sub3 pend
      else
        expandIngredients G gi si rest sub3 (pend ++ [(ii, addedIdx)])

/-- One iteration of the `get_crafting_trees` loop over the frontier. -/
def enumStep (G : Graph) (K : Nat) (st : EState) : StepRes :=
  match popMax st.queue with
  | none => .halt (some st.complete)
  | some ((sub, pend), rest) =>
    if pend.isEmpty then
      .cont { queue := rest, complete := st.complete ++ [sub] }
    else if K ≤ st.complete.length then
      .halt (some st.complete)
    else
      match vecPop pend with
      | none => .halt none
      | some ((gi, si), pend') =>
        match sub.node si with
        | .item it _ =>
          let ridxs? := (G.getRecipesWithItemInOutputs (G.node gi)).map
            fun v => G.sortByTier v
          if it.natural then
            .cont { queue := rest ++ [(sub, pend')], complete := st.complete }
          else
            match ridxs? with
            | none => .halt none
            | some ridxs =>
              match itemBranches G gi si sub pend' ridxs with
              | none => .halt none
              | some newEntries =>
                .cont { queue := rest ++ newEntries, complete := st.complete }
        | .recipe _ _ =>
          match G.getIngredientsForRecipeIdx (G.node gi) with
          | none => .halt none
          | some iidxs =>
            match expandIngredients G gi si iidxs sub pend' with
            | none => .halt none
            | some (sub', pend'') =>
              .cont { queue := rest ++ [(sub', pend'')], complete := st.complete }

/-- The fueled enumerator loop. -/
def enumLoop (G : Graph) (K : Nat) : Nat → EState → Option (Option (List Graph))
  | 0, _ => none
  | fuel + 1, st =>
    match enumStep G K st with
    | .halt r => some r
    | .cont st' => enumLoop G K fuel st'

/-- `get_crafting_trees`: outer `none` is fuel exhaustion; the inner
option is the Rust return value (`none` iff the Rust function returned
`None`). -/
def getCraftingTrees (G : Graph) (target : Node) (K : Nat) (fuel : Nat) :
    Option (Option (List Graph)) :=
  match G.getNodeIdx target with
  | none => some none
  | some tIdx =>
    let (first, headIdx) := Graph.addNode ⟨[], [], G.naturals⟩ target
    enumLoop G K fuel ⟨[(first, [(tIdx, headIdx)])], []⟩

/-! ### Specification-level predicates over graphs -/

/-- Whether the node is an Item node whose item is natural. -/
def Node.isNaturalItem : Node → Bool
  | .item it _ => it.natural
  | .recipe _ _ => false

/-- There is an edge `a → b`. -/
def Graph.edgeB (g : Graph) (a b : Nat) : Bool :=
  g.edges.any fun e => e.src = a ∧ e.tgt = b

/-- The graph has no directed cycle: no edge closes a path back to its
source. -/
def Graph.acyclicB (g : Graph) : Bool :=
  g.edges.all fun e => !((reachSet g e.tgt).contains e.src)

/-- Every node is reachable from some natural-item node along directed
edges. -/
def Graph.fullyReachableB (g : Graph) : Bool :=
  (List.range g.nodes.length).all fun i =>
    (List.range g.nodes.length).any fun j =>
      (g.node j).isNaturalItem ∧ i ∈ reachSet g j

/-- Every derived (non-natural) item node has at most one producing
recipe (at most one incoming edge). -/
def Graph.atMostOneProducerB (g : Graph) : Bool :=
  (List.range g.nodes.length).all fun i =>
    match g.node i with
    | .item it _ => it.natural ∨ (g.inNeighbors i).length ≤ 1
    | .recipe _ _ => true

/-- The tier recurrence of the specification, with the code's base tier
of 1: natural items sit at the base tier, a recipe's tier is the sum of
the tiers of its ingredient item nodes (its in-neighbours) plus 1, and a
derived item's tier is the minimum tier among its producing recipe nodes
(its in-neighbours) plus 1. -/
def tierRecurrenceB (g : Graph) : Bool :=
  (List.range g.nodes.length).all fun i =>
    match g.node i with
    | .item it t =>
      if it.natural then t = 1
      else
        match (((g.inNeighbors i).dedup).map fun j => (g.node j).tier).min? with
        | some m => t = m + 1
        | none => false
    | .recipe _ t =>
      t = (((g.inNeighbors i).dedup).map fun j => (g.node j).tier).sum + 1

/-- Bipartiteness: every edge joins an Item node and a Recipe node. -/
def Graph.bipartiteB (g : Graph) : Bool :=
  g.edges.all fun e => (g.node e.src).isItem ≠ (g.node e.tgt).isItem

/-- The (entity name, weight) data of the edges into node `i`. -/
def inEdgePairs (g : Graph) (i : Nat) : List (String × Rat) :=
  (g.edges.filter fun e => e.tgt = i).map fun e => ((g.node e.src).name, e.w)

/-- The (entity name, weight) data of the edges out of node `i`. -/
def outEdgePairs (g : Graph) (i : Nat) : List (String × Rat) :=
  (g.edges.filter fun e => e.src = i).map fun e => ((g.node e.tgt).name, e.w)

/-- The invariant claimed of the full graph: every Recipe node's incoming
edges correspond exactly to its recipe's ingredient list (one edge per
ingredient, weighted by its amount) and its outgoing edges to its result
list.  This follows the claim's wording, for comparison with what
`from_dataset` actually builds. -/
def recipeEdgesMatchDataB (g : Graph) : Bool :=
  (List.range g.nodes.length).all fun i =>
    match g.node i with
    | .recipe r _ =>
      decide ((inEdgePairs g i).Perm (r.ingredients.map fun p => (p.2.name, p.1))) &&
      decide ((outEdgePairs g i).Perm (r.results.map fun p => (p.2.name, p.1)))
    | .item _ _ => true

/-- Every non-natural Item node of a solution has exactly one attached
producing Recipe node (one incoming edge). -/
def oneProducerEachB (s : Graph) : Bool :=
  (List.range s.nodes.length).all fun i =>
    match s.node i with
    | .item it _ => it.natural ∨ (s.inNeighbors i).length = 1
    | .recipe _ _ => true

/-- The (source node value, weight) data of the edges into node `i`. -/
def inEdgeData (g : Graph) (i : Nat) : List (Node × Rat) :=
  (g.edges.filter fun e => e.tgt = i).map fun e => (g.node e.src, e.w)

/-- Every Recipe node of the solution `s` carries ingredient nodes and
weights exactly matching that recipe node's ingredient edges in the full
graph `G` (same item nodes, same weights). -/
def recipeIngredientsMatchB (G s : Graph) : Bool :=
  (List.range s.nodes.length).all fun i =>
    match s.node i with
    | .recipe _ _ =>
      match G.getNodeIdx (s.node i) with
      | some gi => decide ((inEdgeData s i).Perm (inEdgeData G gi))
      | none => false
    | .item _ _ => true

/-! ### Well-formedness and path notions used by the general theorems -/

/-- There is an edge `a → b` (propositional form). -/
def Graph.idxAdj (g : Graph) (a b : Nat) : Prop :=
  ∃ e ∈ g.edges, e.src = a ∧ e.tgt = b

/-- `a` reaches `b` along directed edges. -/
def Graph.reaches (g : Graph) (a b : Nat) : Prop :=
  Relation.ReflTransGen g.idxAdj a b

/-- Every edge endpoint is a valid node index. -/
def Graph.edgesInRange (g : Graph) : Prop :=
  ∀ e ∈ g.edges, e.src < g.nodes.length ∧ e.tgt < g.nodes.length

/-- No two parallel edges into a Recipe node (the builder only ever
`update_edge`s item → recipe edges, so full graphs satisfy this). -/
def Graph.noParallelIntoRecipes (g : Graph) : Prop :=
  ∀ e ∈ g.edges, (g.node e.tgt).isRecipe = true →
    (g.edges.filter fun e2 => e2.src = e.src ∧ e2.tgt = e.tgt).length ≤ 1

/-- Well-formedness of a full graph, as `from_dataset` establishes it:
node values are pairwise distinct, edges stay in range, the graph is
bipartite, and recipe nodes have no parallel incoming edges. -/
def Graph.WF (g : Graph) : Prop :=
  g.nodes.Nodup ∧ g.edgesInRange ∧ g.bipartiteB = true ∧ g.noParallelIntoRecipes

/-- Well-formedness of a dataset: distinct item names, distinct recipe
names, each recipe's ingredient names distinct, and every item value
mentioned inside a recipe is one of the dataset's items. -/
def WFData (d : Dataset) : Prop :=
  (d.items.map Item.name).Nodup ∧
  (d.recipes.map Recipe.name).Nodup ∧
  (∀ r ∈ d.recipes, (r.ingredients.map fun p => p.2.name).Nodup) ∧
  (∀ r ∈ d.recipes, ∀ p ∈ r.ingredients ++ r.results, p.2 ∈ d.items)

instance (g : Graph) : Decidable g.WF := by
  unfold Graph.WF Graph.edgesInRange Graph.noParallelIntoRecipes
  infer_instance

instance (d : Dataset) : Decidable (WFData d) := by
  unfold WFData
  infer_instance

/-- Evidence that node `i` of a partial solution was ancestor-cut: it
feeds a parent from which a node of equal value is reachable. -/
def cutEvidence (s : Graph) (i : Nat) : Prop :=
  ∃ p, (∃ e ∈ s.edges, e.src = i ∧ e.tgt = p) ∧
    ∃ j, Relation.ReflTransGen s.idxAdj p j ∧ s.node j = s.node i

/-- The invariant every frontier entry `(sub, pend)` of the enumerator
maintains relative to the full graph `G`. -/
structure EntryInv (G sub : Graph) (pend : List (Nat × Nat)) : Prop where
  valsMem : ∀ i < sub.nodes.length, sub.node i ∈ G.nodes
  pendOk : ∀ p ∈ pend, p.1 < G.nodes.length ∧ p.2 < sub.nodes.length ∧
    G.node p.1 = sub.node p.2
  pendNodup : (pend.map Prod.snd).Nodup
  pendFresh : ∀ p ∈ pend, sub.inNeighbors p.2 = []
  edgeDesc : ∀ e ∈ sub.edges, e.tgt < e.src ∧ e.src < sub.nodes.length
  edgeLift : ∀ e ∈ sub.edges, ∃ e' ∈ G.edges,
    G.node e'.src = sub.node e.src ∧ G.node e'.tgt = sub.node e.tgt
  edgeBip : ∀ e ∈ sub.edges, (sub.node e.src).isItem ≠ (sub.node e.tgt).isItem
  itemStatus : ∀ i < sub.nodes.length, ∀ it t, sub.node i = .item it t →
    it.natural = false → i ∉ pend.map Prod.snd →
    (sub.inNeighbors i).length = 1 ∨ cutEvidence sub i
  recipeStatus : ∀ i < sub.nodes.length, ∀ r t, sub.node i = .recipe r t →
    i ∉ pend.map Prod.snd →
    ∃ gi < G.nodes.length, G.node gi = sub.node i ∧
      (inEdgeData sub i).Perm (inEdgeData G gi)

/-- What holds of a completed solution: the entry invariant with an empty
pending list. -/
def SolPost (G s : Graph) : Prop := EntryInv G s []

/-- The weight of the connecting edge `ii → gi` the enumerator copies
(default 0 when there is none; in well-formed graphs it always exists). -/
def uweight (G : Graph) (gi ii : Nat) : Rat :=
  (G.firstConnectingWeight ii gi).getD 0

/-! ### Invariants of the `from_dataset` worklists -/

/-- The step function of the `from_dataset` item fold (extracted from
`buildItemStep` for induction): one dataset recipe consuming the item at
index `i`. -/
def buildItemF (i : Nat) (it : Item) (tier : Nat) (acc : Graph × List Nat)
    (r : Recipe) : Graph × List Nat :=
  let (g, pushed) := acc
  let (g, rIdx) :=
    match g.getRecipeIdxFromName r.name with
    | some j => (g, j)
    | none => g.addNode (.recipe r (tier + 1))
  let g :=
    match r.ingredients.findSome? fun p =>
        if it.name = p.2.name then some p.1 else none with
    | some w => g.updateEdge i rIdx w
    | none => g
  (g, pushed ++ [rIdx])

/-- The step function of the `from_dataset` recipe fold (extracted from
`buildRecipeStep` for induction): one result entry of the recipe at
index `i`. -/
def buildRecipeF (i : Nat) (tier : Nat) (acc : Graph × List Nat)
    (p : Rat × Item) : Graph × List Nat :=
  let (g, pushed) := acc
  let (g, iIdx) :=
    match g.getItemIdxFromName p.2.name with
    | some j => (g, j)
    | none => g.addNode (.item p.2 (tier + 1))
  (g.addEdge i iIdx p.1, pushed ++ [iIdx])

/-- The step function of the `from_dataset` seeding fold (extracted from
`buildSeed` for induction): add one natural item node at tier 0 and push
its index. -/
def seedF (st : BState) (it : Item) : BState :=
  ⟨(st.g.addNode (.item it 0)).1, (st.g.addNode (.item it 0)).2 :: st.stack,
    st.visited⟩

/-- Structural well-formedness maintained on the graph under
construction: per-variant name uniqueness, in-range edges, bipartite
edges and no parallel edges into recipe nodes. -/
structure GCore (g : Graph) : Prop where
  uniq : ∀ i, i < g.nodes.length → ∀ j, j < g.nodes.length → i ≠ j →
    (g.node i).isItem = (g.node j).isItem → (g.node i).name ≠ (g.node j).name
  range : g.edgesInRange
  bip : ∀ e ∈ g.edges, (g.node e.src).isItem ≠ (g.node e.tgt).isItem
  nopar : g.noParallelIntoRecipes

/-- Dataset-relative invariants of the graph under construction: node
values come from the dataset and every edge into a recipe node carries
the first ingredient amount whose name matches the source item. -/
structure GInv (d : Dataset) (g : Graph) : Prop where
  core : GCore g
  recipeVals : ∀ i, i < g.nodes.length → ∀ r t, g.node i = .recipe r t → r ∈ d.recipes
  itemVals : ∀ i, i < g.nodes.length → ∀ it t, g.node i = .item it t → it ∈ d.items
  inW : ∀ e ∈ g.edges, ∀ r t, g.node e.tgt = .recipe r t →
    r.ingredients.findSome?
      (fun p => if (g.node e.src).name = p.2.name then some p.1 else none) = some e.w

/-- The loop invariant of the `from_dataset` worklist: the graph
invariants, the seeded naturals, coverage of every node by the stack or
the visited set, and the edge bookkeeping of visited items and visited
or still untouched recipes. -/
structure BInv (d : Dataset) (st : BState) : Prop where
  core : GInv d st.g
  natsEq : st.g.naturals = d.naturalItems
  nats : ∀ n ∈ d.naturalItems, Node.item n 0 ∈ st.g.nodes
  cover : ∀ i, i < st.g.nodes.length → i ∈ st.stack ∨ i ∈ st.visited
  stackRange : ∀ i ∈ st.stack, i < st.g.nodes.length
  visRange : ∀ i ∈ st.visited, i < st.g.nodes.length
  itemDone : ∀ i ∈ st.visited, ∀ it t, st.g.node i = .item it t →
    ∀ r ∈ d.recipes, (r.ingredients.any fun p => p.2.name = it.name) = true →
      ∃ j, j < st.g.nodes.length ∧ (∃ t', st.g.node j = .recipe r t') ∧
        ∃ e ∈ st.g.edges, e.src = i ∧ e.tgt = j
  recipeDone : ∀ j ∈ st.visited, ∀ r t, st.g.node j = .recipe r t →
    ((st.g.edges.filter fun e => e.src = j).map fun e => ((st.g.node e.tgt).name, e.w)) =
      r.results.map fun p => (p.2.name, p.1)
  recipeTodo : ∀ j, j < st.g.nodes.length → j ∉ st.visited →
    ∀ r t, st.g.node j = .recipe r t → st.g.edges.filter (fun e => e.src = j) = []

/-- What holds of the graph when the `from_dataset` construction
worklist terminates with an empty stack. -/
structure BuildPost (d : Dataset) (g : Graph) : Prop where
  core : GInv d g
  natsEq : g.naturals = d.naturalItems
  nats : ∀ n ∈ d.naturalItems, Node.item n 0 ∈ g.nodes
  outs : ∀ j, j < g.nodes.length → ∀ r t, g.node j = .recipe r t →
    ((g.edges.filter fun e => e.src = j).map fun e => ((g.node e.tgt).name, e.w)) =
      r.results.map fun p => (p.2.name, p.1)
  ins : ∀ i, i < g.nodes.length → ∀ it t, g.node i = .item it t →
    ∀ r ∈ d.recipes, (r.ingredients.any fun p => p.2.name = it.name) = true →
      ∃ j, j < g.nodes.length ∧ (∃ t', g.node j = .recipe r t') ∧
        ∃ e ∈ g.edges, e.src = i ∧ e.tgt = j

/-- The step function of the `adjust_tiers` seeding fold (extracted from
`adjustSeed` for induction): look up the tier-0 node of one natural item,
adding it when absent, and enqueue its index. -/
def seedA (st : AState) (it : Item) : AState :=
  match st.g.getNodeIdx (.item it 0) with
  | some idx => { st with queue := st.queue ++ [idx] }
  | none =>
    { g := (st.g.addNode (.item it 0)).1,
      queue := st.queue ++ [(st.g.addNode (.item it 0)).2], visited := st.visited }

/-- `adjust_tiers` only rewrites node tiers: the edges, naturals and node
count are kept and every node value is a retiering of the old one. -/
def Skel (g g' : Graph) : Prop :=
  g'.edges = g.edges ∧ g'.naturals = g.naturals ∧
  g'.nodes.length = g.nodes.length ∧
  ∀ k, k < g.nodes.length → ∃ t, g'.node k = (g.node k).withTier t

/-- The loop invariant of the `adjust_tiers` worklist, for graphs in
which every derived item has at most one producing recipe and at least
one (so the minimum the code takes is never stale or defaulted): visited
nodes satisfy the tier recurrence with all their in-neighbours already
visited, queued derived items have their producer visited, natural-item
nodes are queued or visited, and the out-neighbours of visited nodes are
queued or visited. -/
structure AInv (st : AState) : Prop where
  core : GCore st.g
  oneProd : ∀ k, k < st.g.nodes.length → ∀ it t, st.g.node k = .item it t →
    it.natural = false → (st.g.inNeighbors k).length ≤ 1
  hasProd : ∀ k, k < st.g.nodes.length → ∀ it t, st.g.node k = .item it t →
    it.natural = false → st.g.inNeighbors k ≠ []
  queueRange : ∀ k ∈ st.queue, k < st.g.nodes.length
  visRange : ∀ k ∈ st.visited, k < st.g.nodes.length
  natSeed : ∀ k, k < st.g.nodes.length → (st.g.node k).isNaturalItem = true →
    k ∈ st.queue ∨ k ∈ st.visited
  visOut : ∀ k ∈ st.visited, ∀ x ∈ st.g.outNeighbors k,
    x ∈ st.queue ∨ x ∈ st.visited
  queueProd : ∀ k ∈ st.queue, ∀ it t, st.g.node k = .item it t →
    it.natural = false → ∀ j ∈ st.g.inNeighbors k, j ∈ st.visited
  visDeps : ∀ k ∈ st.visited, (st.g.node k).isNaturalItem = false →
    ∀ j ∈ st.g.inNeighbors k, j ∈ st.visited
  visItem : ∀ k ∈ st.visited, ∀ it t, st.g.node k = .item it t →
    (it.natural = true → t = 1) ∧
    (it.natural = false → ∃ m,
      ((st.g.inNeighbors k).map fun j => (st.g.node j).tier).min? = some m ∧
        t = m + 1)
  visRec : ∀ k ∈ st.visited, ∀ r t, st.g.node k = .recipe r t →
    t = ((st.g.inNeighbors k).map fun j => (st.g.node j).tier).sum + 1

/-- The common shape of one worklist node-processing step's effect on
the graph: the invariants are kept, nodes are only appended, the
naturals list is kept, the pushed indices are in range and include every
new node, existing source → target connections survive, edges out of
nodes other than the processed one are untouched, and every new edge
leaves the processed node. -/
structure StepOut (d : Dataset) (i : Nat) (g g' : Graph) (out : List Nat) : Prop where
  core : GInv d g'
  grow : ∃ ns, g'.nodes = g.nodes ++ ns
  natKeep : g'.naturals = g.naturals
  outRange : ∀ j ∈ out, j < g'.nodes.length
  newPushed : ∀ k, g.nodes.length ≤ k → k < g'.nodes.length → k ∈ out
  pairMono : ∀ s t, (∃ e ∈ g.edges, e.src = s ∧ e.tgt = t) →
    ∃ e ∈ g'.edges, e.src = s ∧ e.tgt = t
  srcKeep : ∀ j, j ≠ i →
    g'.edges.filter (fun e => e.src = j) = g.edges.filter (fun e => e.src = j)
  edgeSrc : ∀ e ∈ g'.edges, e ∈ g.edges ∨ e.src = i

/-! ### Concrete datasets

`mockData` is the literal dataset of the repository's own tests
(`DataSetMock` in `domain.rs`): natural items copper-ore and iron-ore and
the four recipes copper-plate, copper-cable, iron-plate and
electronic-circuit. -/

def ironOre : Item := ⟨"iron-ore", true⟩
def copperOre : Item := ⟨"copper-ore", true⟩
def ironPlate : Item := ⟨"iron-plate", false⟩
def copperPlate : Item := ⟨"copper-plate", false⟩
def copperCable : Item := ⟨"copper-cable", false⟩
def elecCircuit : Item := ⟨"electronic-circuit", false⟩

def recCopperPlate : Recipe :=
  ⟨"copper-plate", [(1, copperPlate)], [(1, copperOre)], 3200000000, .assembler⟩
def recCopperCable : Recipe :=
  ⟨"copper-cable", [(2, copperCable)], [(1, copperPlate)], 500000000, .assembler⟩
def recIronPlate : Recipe :=
  ⟨"iron-plate", [(1, ironPlate)], [(1, ironOre)], 3200000000, .assembler⟩
def recElecCircuit : Recipe :=
  ⟨"electronic-circuit", [(1, elecCircuit)], [(3, copperCable), (1, ironPlate)],
    500000000, .assembler⟩

def mockData : Dataset :=
  ⟨[ironOre, copperOre, ironPlate, copperPlate, copperCable, elecCircuit],
   [recCopperPlate, recCopperCable, recIronPlate, recElecCircuit]⟩

/-- The tiered full graph of the mock dataset. -/
def mockG : Graph := (fromDataset mockData 100).getD ⟨[], [], []⟩

/-- Dataset where the target `t` has two producing recipes from one
natural ingredient: exhibits the enumerator cap overshoot. -/
def itemA : Item := ⟨"a", true⟩
def itemT : Item := ⟨"t", false⟩
def recR1 : Recipe := ⟨"r1", [(1, itemT)], [(1, itemA)], 10, .assembler⟩
def recR2 : Recipe := ⟨"r2", [(1, itemT)], [(1, itemA)], 10, .assembler⟩
def dataTwoRecipes : Dataset := ⟨[itemA, itemT], [recR1, recR2]⟩

/-- Its tiered full graph. -/
def gTwoRecipes : Graph := (fromDataset dataTwoRecipes 100).getD ⟨[], [], []⟩

/-- Dataset with a single natural item and no recipe: exhibits the
`adjust_tiers` rerun adding a duplicate node. -/
def dataLoneNatural : Dataset := ⟨[itemA], []⟩

/-- Its tiered full graph (a single node `Item(a, 1)`). -/
def gLoneNatural : Graph := (fromDataset dataLoneNatural 100).getD ⟨[], [], []⟩

/-- Acyclic, fully reachable dataset where item `c` has two producers
`r1` (3 natural ingredients) and `r2` (via the chain `b → r3 → d`): the
tier pass reads `r2`'s tier before it settles, breaking the minimum
recurrence at `c`. -/
def natA1 : Item := ⟨"a1", true⟩
def natA2 : Item := ⟨"a2", true⟩
def natA3 : Item := ⟨"a3", true⟩
def natB : Item := ⟨"b", true⟩
def itemC : Item := ⟨"c", false⟩
def itemD : Item := ⟨"d", false⟩
def recRB1 : Recipe := ⟨"r1", [(1, itemC)], [(1, natA1), (1, natA2), (1, natA3)], 10, .assembler⟩
def recRB2 : Recipe := ⟨"r2", [(1, itemC)], [(1, natA1), (1, itemD)], 10, .assembler⟩
def recRB3 : Recipe := ⟨"r3", [(1, itemD)], [(1, natB)], 10, .assembler⟩
def dataStaleMin : Dataset := ⟨[natA1, natA2, natA3, natB, itemC, itemD], [recRB1, recRB2, recRB3]⟩

/-- Cyclic dataset (`c → rb → b → rc → c`) with an extra acyclic producer
`rb2 : a → b` so that tiering terminates; enumeration from `c` then emits
a solution whose ancestor-cut duplicate `c` node has no producer. -/
def itemB3 : Item := ⟨"b", false⟩
def itemC3 : Item := ⟨"c", false⟩
def recRc : Recipe := ⟨"rc", [(1, itemC3)], [(1, itemA), (1, itemB3)], 10, .assembler⟩
def recRb : Recipe := ⟨"rb", [(1, itemB3)], [(1, itemC3)], 10, .assembler⟩
def recRb2 : Recipe := ⟨"rb2", [(1, itemB3)], [(1, itemA)], 10, .assembler⟩
def dataCyclic : Dataset := ⟨[itemA, itemB3, itemC3], [recRc, recRb, recRb2]⟩

/-- Its tiered full graph. -/
def gCyclic : Graph := (fromDataset dataCyclic 400).getD ⟨[], [], []⟩

/-- Dataset whose recipe `r` has the unreachable ingredient `b`: the
built graph has no `b` node, so `r`'s incoming edges miss one ingredient. -/
def itemB8 : Item := ⟨"b", false⟩
def itemC8 : Item := ⟨"c", false⟩
def recR8 : Recipe := ⟨"r", [(1, itemC8)], [(1, itemA), (1, itemB8)], 10, .assembler⟩
def dataMissingIngredient : Dataset := ⟨[itemA, itemB8, itemC8], [recR8]⟩

/-- Its tiered full graph: nodes `a`, `r`, `c` only (no `b` node). -/
def gMissing : Graph := (fromDataset dataMissingIngredient 100).getD ⟨[], [], []⟩

/-- The tiered full graph of `dataStaleMin`. -/
def gStale : Graph := (fromDataset dataStaleMin 100).getD ⟨[], [], []⟩

end Factory

set_option maxRecDepth 100000

namespace Factory

/-! ### Basic lemmas about the graph operations -/

theorem Node.withTier_isItem (n : Node) (t : Nat) : (n.withTier t).isItem = n.isItem := by
  cases n <;> rfl

theorem Node.withTier_isRecipe (n : Node) (t : Nat) : (n.withTier t).isRecipe = n.isRecipe := by
  cases n <;> rfl

theorem Node.withTier_name (n : Node) (t : Nat) : (n.withTier t).name = n.name := by
  cases n <;> rfl

namespace Graph

theorem node_eq_getElem (g : Graph) (i : Nat) (h : i < g.nodes.length) :
    g.node i = g.nodes[i] := by
  simp [node, List.getD_eq_getElem?_getD, List.getElem?_eq_getElem h]

theorem node_mem (g : Graph) (i : Nat) (h : i < g.nodes.length) :
    g.node i ∈ g.nodes := by
  rw [g.node_eq_getElem i h]; exact List.getElem_mem h

theorem node_append_lt (ns : List Node) (n : Node) (es : List Edge) (nt : List Item)
    (es' : List Edge) (nt' : List Item) (i : Nat) (h : i < ns.length) :
    (Graph.mk (ns ++ [n]) es nt).node i = (Graph.mk ns es' nt').node i := by
  simp only [node]
  exact List.getD_append ns [n] dummy i h

theorem node_append_self (ns : List Node) (n : Node) (es : List Edge) (nt : List Item) :
    (Graph.mk (ns ++ [n]) es nt).node ns.length = n := by
  simp [node, List.getD_eq_getElem?_getD, List.getElem?_append_right]

theorem addNode_nodes (g : Graph) (n : Node) :
    (g.addNode n).1.nodes = g.nodes ++ [n] := rfl

theorem addNode_edges (g : Graph) (n : Node) : (g.addNode n).1.edges = g.edges := rfl

theorem addNode_idx (g : Graph) (n : Node) : (g.addNode n).2 = g.nodes.length := rfl

theorem addEdge_nodes (g : Graph) (a b : Nat) (w : Rat) :
    (g.addEdge a b w).nodes = g.nodes := rfl

theorem addEdge_edges (g : Graph) (a b : Nat) (w : Rat) :
    (g.addEdge a b w).edges = g.edges ++ [⟨a, b, w⟩] := rfl

theorem setTier_nodesLength (g : Graph) (i t : Nat) :
    (g.setTier i t).nodes.length = g.nodes.length := by
  simp [setTier]

theorem setTier_edges (g : Graph) (i t : Nat) : (g.setTier i t).edges = g.edges := rfl

theorem setTier_naturals (g : Graph) (i t : Nat) : (g.setTier i t).naturals = g.naturals := rfl

theorem node_setTier_self (g : Graph) (i t : Nat) (h : i < g.nodes.length) :
    (g.setTier i t).node i = (g.node i).withTier t := by
  simp [setTier, node, List.getD_eq_getElem?_getD, List.getElem?_set_self',
    List.getElem?_eq_getElem h]

theorem node_setTier_ne (g : Graph) (i j t : Nat) (h : i ≠ j) :
    (g.setTier i t).node j = g.node j := by
  simp [setTier, node, List.getD_eq_getElem?_getD, List.getElem?_set_ne h]

theorem mem_outNeighbors (g : Graph) (i x : Nat) :
    x ∈ g.outNeighbors i ↔ ∃ e ∈ g.edges, e.src = i ∧ e.tgt = x := by
  simp only [outNeighbors, List.mem_map, List.mem_reverse, List.mem_filter]
  constructor
  · rintro ⟨e, ⟨he, hsrc⟩, rfl⟩
    exact ⟨e, he, by simpa using hsrc, rfl⟩
  · rintro ⟨e, he, hsrc, rfl⟩
    exact ⟨e, ⟨he, by simpa using hsrc⟩, rfl⟩

theorem mem_inNeighbors (g : Graph) (i x : Nat) :
    x ∈ g.inNeighbors i ↔ ∃ e ∈ g.edges, e.tgt = i ∧ e.src = x := by
  simp only [inNeighbors, List.mem_map, List.mem_reverse, List.mem_filter]
  constructor
  · rintro ⟨e, ⟨he, htgt⟩, rfl⟩
    exact ⟨e, he, by simpa using htgt, rfl⟩
  · rintro ⟨e, he, htgt, rfl⟩
    exact ⟨e, ⟨he, by simpa using htgt⟩, rfl⟩

theorem insertLe_perm (key : Nat → Nat) (x : Nat) (l : List Nat) :
    (insertLe key x l).Perm (x :: l) := by
  induction l with
  | nil => simp [insertLe]
  | cons y ys ih =>
    simp only [insertLe]
    split
    · exact (ih.cons y).trans (List.Perm.swap x y ys)
    · exact List.Perm.refl _

theorem insertionSort_perm (key : Nat → Nat) (l : List Nat) :
    (insertionSort key l).Perm l := by
  induction l with
  | nil => simp [insertionSort]
  | cons x xs ih =>
    simp only [insertionSort]
    exact (insertLe_perm key x _).trans (List.Perm.cons x ih)

theorem sortByTier_perm (g : Graph) (l : List Nat) : (g.sortByTier l).Perm l :=
  insertionSort_perm _ l

theorem mem_sortByTier (g : Graph) (l : List Nat) (x : Nat) :
    x ∈ g.sortByTier l ↔ x ∈ l :=
  (g.sortByTier_perm l).mem_iff

theorem getNodeIdx_some (g : Graph) (n : Node) (i : Nat)
    (h : g.getNodeIdx n = some i) : i < g.nodes.length ∧ g.node i = n := by
  unfold getNodeIdx at h
  rw [List.findIdx?_eq_some_iff_getElem] at h
  obtain ⟨hlt, hp, _⟩ := h
  refine ⟨hlt, ?_⟩
  rw [g.node_eq_getElem i hlt]
  simpa using hp

theorem getNodeIdx_isSome_of_mem (g : Graph) (n : Node) (h : n ∈ g.nodes) :
    (g.getNodeIdx n).isSome := by
  unfold getNodeIdx
  rw [List.findIdx?_eq_some_of_exists ⟨n, h, by simp⟩]
  rfl

theorem getNodeIdx_self (g : Graph) (hnd : g.nodes.Nodup) (i : Nat)
    (h : i < g.nodes.length) : g.getNodeIdx (g.node i) = some i := by
  have hmem : g.node i ∈ g.nodes := g.node_mem i h
  obtain ⟨j, hj⟩ := Option.isSome_iff_exists.mp (g.getNodeIdx_isSome_of_mem _ hmem)
  obtain ⟨hjl, hjv⟩ := g.getNodeIdx_some _ j hj
  have : j = i := by
    have h1 : g.nodes[j] = g.nodes[i] := by
      rw [← g.node_eq_getElem j hjl, ← g.node_eq_getElem i h, hjv]
    exact (List.Nodup.getElem_inj_iff hnd).mp h1
  rw [hj, this]

end Graph

theorem vecPop_concat {α : Type} (l : List α) (x : α) :
    vecPop (l ++ [x]) = some (x, l) := by
  simp [vecPop, List.getLast?_concat, List.dropLast_concat]

theorem vecPop_eq_some {α : Type} (l : List α) (h : l ≠ []) :
    ∃ x l', vecPop l = some (x, l') ∧ l = l' ++ [x] := by
  rcases List.eq_nil_or_concat l with rfl | ⟨l', a, rfl⟩
  · exact absurd rfl h
  · exact ⟨a, l', by simp [List.concat_eq_append, vecPop_concat], by simp⟩

/-! ### Reachability closure: soundness, saturation, completeness -/

theorem mem_reachStep (g : Graph) (s : List Nat) (x : Nat) :
    x ∈ reachStep g s ↔ x ∈ s ∨ ∃ y ∈ s, x ∈ g.outNeighbors y := by
  simp only [reachStep, List.mem_dedup, List.mem_append, List.mem_flatten, List.mem_map]
  constructor
  · rintro (hx | ⟨l, ⟨y, hy, rfl⟩, hxl⟩)
    · exact Or.inl hx
    · exact Or.inr ⟨y, hy, hxl⟩
  · rintro (hx | ⟨y, hy, hxl⟩)
    · exact Or.inl hx
    · exact Or.inr ⟨g.outNeighbors y, ⟨y, hy, rfl⟩, hxl⟩

theorem subset_reachStep (g : Graph) (s : List Nat) (x : Nat) (h : x ∈ s) :
    x ∈ reachStep g s :=
  (mem_reachStep g s x).mpr (Or.inl h)

theorem reachStep_nodup (g : Graph) (s : List Nat) : (reachStep g s).Nodup :=
  List.nodup_dedup _

theorem reachStep_mono (g : Graph) (s t : List Nat) (h : ∀ x ∈ s, x ∈ t) :
    ∀ x ∈ reachStep g s, x ∈ reachStep g t := by
  intro x hx
  rcases (mem_reachStep g s x).mp hx with hx | ⟨y, hy, hxy⟩
  · exact subset_reachStep g t x (h x hx)
  · exact (mem_reachStep g t x).mpr (Or.inr ⟨y, h y hy, hxy⟩)

theorem subset_reachIter (g : Graph) (n : Nat) (s : List Nat) (x : Nat) (h : x ∈ s) :
    x ∈ reachIter g n s := by
  induction n generalizing s with
  | zero => exact h
  | succ n ih => exact ih (reachStep g s) (subset_reachStep g s x h)

theorem reachIter_mono (g : Graph) (n : Nat) (s t : List Nat) (h : ∀ x ∈ s, x ∈ t) :
    ∀ x ∈ reachIter g n s, x ∈ reachIter g n t := by
  induction n generalizing s t with
  | zero => exact h
  | succ n ih => exact ih _ _ (reachStep_mono g s t h)

theorem reachIter_sound (g : Graph) (n : Nat) (s : List Nat) (x : Nat)
    (h : x ∈ reachIter g n s) : ∃ y ∈ s, g.reaches y x := by
  induction n generalizing s with
  | zero => exact ⟨x, h, Relation.ReflTransGen.refl⟩
  | succ n ih =>
    obtain ⟨y, hy, hreach⟩ := ih (reachStep g s) h
    rcases (mem_reachStep g s y).mp hy with hy | ⟨z, hz, hzy⟩
    · exact ⟨y, hy, hreach⟩
    · refine ⟨z, hz, Relation.ReflTransGen.head ?_ hreach⟩
      obtain ⟨e, he, hsrc, htgt⟩ := (g.mem_outNeighbors z y).mp hzy
      exact ⟨e, he, hsrc, htgt⟩

theorem reachStep_in_range (g : Graph) (hr : g.edgesInRange) (s : List Nat)
    (hs : ∀ x ∈ s, x < g.nodes.length) :
    ∀ x ∈ reachStep g s, x < g.nodes.length := by
  intro x hx
  rcases (mem_reachStep g s x).mp hx with hx | ⟨y, _, hxy⟩
  · exact hs x hx
  · obtain ⟨e, he, _, rfl⟩ := (g.mem_outNeighbors y x).mp hxy
    exact (hr e he).2

theorem reachIter_closed_of_closed (g : Graph) (s : List Nat)
    (hc : ∀ x ∈ reachStep g s, x ∈ s) (n : Nat) :
    (∀ x ∈ reachIter g n s, x ∈ s) ∧ (∀ x ∈ s, x ∈ reachIter g n s) := by
  induction n generalizing s with
  | zero => exact ⟨fun x h => h, fun x h => h⟩
  | succ n ih =>
    have h1 : ∀ x ∈ reachStep g s, x ∈ s := hc
    have hc' : ∀ x ∈ reachStep g (reachStep g s), x ∈ reachStep g s := by
      intro x hx
      exact subset_reachStep g s x (hc x (reachStep_mono g _ s h1 x hx))
    obtain ⟨ha, hb⟩ := ih (reachStep g s) hc'
    exact ⟨fun x h => hc x (ha x h),
      fun x h => hb x (subset_reachStep g s x h)⟩

theorem reachIter_saturated (g : Graph) (hr : g.edgesInRange) :
    ∀ (n : Nat) (s : List Nat), s.Nodup → (∀ x ∈ s, x < g.nodes.length) →
      g.nodes.length ≤ s.length + n →
      ∀ x ∈ reachStep g (reachIter g n s), x ∈ reachIter g n s := by
  intro n
  induction n with
  | zero =>
    intro s hnd hrange hlen x hx
    have hsub : s ⊆ List.range g.nodes.length := fun y hy =>
      List.mem_range.mpr (hrange y hy)
    have hsp := List.subperm_of_subset hnd hsub
    have hperm : s.Perm (List.range g.nodes.length) := by
      refine hsp.perm_of_length_le ?_
      simpa using hlen
    have hall : ∀ y, y < g.nodes.length → y ∈ s := by
      intro y hy
      exact hperm.mem_iff.mpr (List.mem_range.mpr hy)
    exact hall x (reachStep_in_range g hr s hrange x hx)
  | succ n ih =>
    intro s hnd hrange hlen x hx
    by_cases hc : ∀ y ∈ reachStep g s, y ∈ s
    · have := (reachIter_closed_of_closed g s hc (n + 1))
      have hcl : ∀ y ∈ reachStep g (reachIter g (n + 1) s), y ∈ reachIter g (n + 1) s := by
        intro y hy
        have h1 : ∀ z ∈ reachIter g (n + 1) s, z ∈ s := this.1
        have h2 := reachStep_mono g _ s h1 y hy
        exact this.2 y (hc y h2)
      exact hcl x hx
    · push_neg at hc
      obtain ⟨y, hy, hyns⟩ := hc
      have hnd' : (reachStep g s).Nodup := reachStep_nodup g s
      have hrange' : ∀ z ∈ reachStep g s, z < g.nodes.length :=
        reachStep_in_range g hr s hrange
      have hsub : s ⊆ reachStep g s := fun z hz => subset_reachStep g s z hz
      have hlen' : g.nodes.length ≤ (reachStep g s).length + n := by
        have : s.length + 1 ≤ (reachStep g s).length := by
          have hsub2 : (y :: s) ⊆ reachStep g s := by
            intro z hz
            rcases List.mem_cons.mp hz with rfl | hz
            · exact hy
            · exact hsub hz
          have hnd2 : (y :: s).Nodup := List.nodup_cons.mpr ⟨hyns, hnd⟩
          have := (List.subperm_of_subset hnd2 hsub2).length_le
          simpa using this
        omega
      exact ih (reachStep g s) hnd' hrange' hlen' x hx

theorem mem_reachSet_self (g : Graph) (start : Nat) : start ∈ reachSet g start :=
  subset_reachIter g _ [start] start (by simp)

theorem reachSet_sound (g : Graph) (start x : Nat) (h : x ∈ reachSet g start) :
    g.reaches start x := by
  obtain ⟨y, hy, hr⟩ := reachIter_sound g _ [start] x h
  simp only [List.mem_singleton] at hy
  exact hy ▸ hr

theorem reachSet_complete (g : Graph) (hr : g.edgesInRange) (a : Nat)
    (ha : a < g.nodes.length) (b : Nat) (h : g.reaches a b) : b ∈ reachSet g a := by
  induction h with
  | refl => exact mem_reachSet_self g a
  | @tail b' c' hab hbc ih =>
    have hstep : c' ∈ reachStep g (reachSet g a) := by
      refine (mem_reachStep g _ c').mpr (Or.inr ⟨b', ih, ?_⟩)
      obtain ⟨e, he, hs, ht⟩ := hbc
      exact (g.mem_outNeighbors b' c').mpr ⟨e, he, hs, ht⟩
    have := reachIter_saturated g hr g.nodes.length [a] (by simp)
      (by intro x hx; simp only [List.mem_singleton] at hx; exact hx ▸ ha)
      (by omega) c' hstep
    exact this

theorem reaches_le_of_desc (s : Graph) (hdesc : ∀ e ∈ s.edges, e.tgt < e.src)
    (a b : Nat) (h : s.reaches a b) : b ≤ a := by
  induction h with
  | refl => exact Nat.le_refl a
  | tail _ hbc ih =>
    obtain ⟨e, he, hs, ht⟩ := hbc
    have := hdesc e he
    omega

theorem acyclicB_of_desc (s : Graph) (hdesc : ∀ e ∈ s.edges, e.tgt < e.src) :
    s.acyclicB = true := by
  unfold Graph.acyclicB
  rw [List.all_eq_true]
  intro e he
  have hnotmem : e.src ∉ reachSet s e.tgt := by
    intro hmem
    have h1 : s.reaches e.tgt e.src := reachSet_sound s e.tgt e.src hmem
    have h2 := reaches_le_of_desc s hdesc e.tgt e.src h1
    have := hdesc e he
    omega
  simpa using hnotmem

theorem copyPresent_true (s : Graph) (n : Node) (p : Nat)
    (h : copyPresent s n p = true) :
    ∃ j, Relation.ReflTransGen s.idxAdj p j ∧ s.node j = n := by
  unfold copyPresent at h
  obtain ⟨j, hj, hvj⟩ := List.any_eq_true.mp h
  exact ⟨j, reachSet_sound s p j hj, of_decide_eq_true hvj⟩

theorem reaches_mono_edges (s s' : Graph) (hsub : ∀ e ∈ s.edges, e ∈ s'.edges)
    (a b : Nat) (h : s.reaches a b) : s'.reaches a b := by
  refine Relation.ReflTransGen.mono ?_ h
  rintro x y ⟨e, he, hs, ht⟩
  exact ⟨e, hsub e he, hs, ht⟩

/-! ### Helper lemmas for the enumerator invariant -/

theorem Graph.inNeighbors_addEdge (g : Graph) (a b : Nat) (w : Rat) (i : Nat) :
    (g.addEdge a b w).inNeighbors i =
      if b = i then a :: g.inNeighbors i else g.inNeighbors i := by
  unfold Graph.addEdge Graph.inNeighbors
  by_cases h : b = i <;> simp [List.filter_append, h]

theorem Graph.outNeighbors_addEdge (g : Graph) (a b : Nat) (w : Rat) (i : Nat) :
    (g.addEdge a b w).outNeighbors i =
      if a = i then b :: g.outNeighbors i else g.outNeighbors i := by
  unfold Graph.addEdge Graph.outNeighbors
  by_cases h : a = i <;> simp [List.filter_append, h]

theorem Graph.inNeighbors_mk_nodes (ns ns' : List Node) (es : List Edge)
    (nt nt' : List Item) (i : Nat) :
    (Graph.mk ns es nt).inNeighbors i = (Graph.mk ns' es nt').inNeighbors i := rfl

theorem inEdgeData_addEdge (g : Graph) (a b : Nat) (w : Rat) (i : Nat) :
    inEdgeData (g.addEdge a b w) i =
      if b = i then inEdgeData g i ++ [(g.node a, w)] else inEdgeData g i := by
  unfold Graph.addEdge inEdgeData
  by_cases h : b = i <;> simp [List.filter_append, h, Graph.node]

theorem inEdgeData_append_nodes (ns : List Node) (n : Node) (es : List Edge)
    (nt nt' : List Item) (i : Nat)
    (hr : ∀ e ∈ es, e.src < ns.length) :
    inEdgeData (Graph.mk (ns ++ [n]) es nt) i = inEdgeData (Graph.mk ns es nt') i := by
  unfold inEdgeData
  refine List.map_congr_left ?_
  intro e he
  have hes : e ∈ es := (List.mem_filter.mp he).1
  have := hr e hes
  rw [Graph.node_append_lt ns n es nt es nt' e.src this]

theorem firstConnectingWeight_mem (g : Graph) (a b : Nat) (w : Rat)
    (h : g.firstConnectingWeight a b = some w) : (⟨a, b, w⟩ : Edge) ∈ g.edges := by
  unfold Graph.firstConnectingWeight at h
  have hw := List.mem_of_mem_head? h
  obtain ⟨e, he, hew⟩ := List.mem_map.mp hw
  have hmem := List.mem_reverse.mp he
  obtain ⟨hee, hp⟩ := List.mem_filter.mp hmem
  simp only [decide_eq_true_eq] at hp
  obtain ⟨hs, ht⟩ := hp
  have heq : e = ⟨a, b, w⟩ := by
    cases e
    simp_all
  rwa [← heq]

theorem firstConnectingWeight_isSome (g : Graph) (a b : Nat)
    (h : ∃ e ∈ g.edges, e.src = a ∧ e.tgt = b) :
    (g.firstConnectingWeight a b).isSome := by
  obtain ⟨e, he, hs, ht⟩ := h
  unfold Graph.firstConnectingWeight
  have hmem : e ∈ g.edges.filter fun e2 => decide (e2.src = a) && decide (e2.tgt = b) := by
    simp [List.mem_filter, he, hs, ht]
  rcases hfl : g.edges.filter fun e2 => decide (e2.src = a) && decide (e2.tgt = b) with _ | ⟨x, xs⟩
  · rw [hfl] at hmem; simp at hmem
  · simp [hfl]

theorem firstConnectingWeight_eq_of_unique (g : Graph) (e : Edge) (hmem : e ∈ g.edges)
    (huniq : (g.edges.filter fun e2 => e2.src = e.src ∧ e2.tgt = e.tgt).length ≤ 1) :
    g.firstConnectingWeight e.src e.tgt = some e.w := by
  have hf : e ∈ g.edges.filter fun e2 => decide (e2.src = e.src ∧ e2.tgt = e.tgt) := by
    simp [List.mem_filter, hmem]
  unfold Graph.firstConnectingWeight
  rcases hfl : g.edges.filter fun e2 => decide (e2.src = e.src ∧ e2.tgt = e.tgt) with
    _ | ⟨x, xs⟩
  · rw [hfl] at hf; simp at hf
  · rw [hfl] at hf huniq
    have hxs : xs = [] := by
      cases xs with
      | nil => rfl
      | cons y ys => simp at huniq
    subst hxs
    simp only [List.mem_singleton] at hf
    rw [hfl]
    subst hf
    simp

theorem uweight_eq (G : Graph) (gi ii : Nat) (w : Rat)
    (h : G.firstConnectingWeight ii gi = some w) : uweight G gi ii = w := by
  simp [uweight, h]

theorem mapM_some_mem {α β : Type} (f : α → Option β) (l : List α) (out : List β)
    (h : l.mapM f = some out) : ∀ y ∈ out, ∃ x ∈ l, f x = some y := by
  induction l generalizing out with
  | nil =>
    simp only [List.mapM_nil, Option.pure_def, Option.some.injEq] at h
    subst h; intro y hy; simp at hy
  | cons x xs ih =>
    simp only [List.mapM_cons, Option.pure_def, Option.bind_eq_bind, Option.bind_eq_some] at h
    obtain ⟨y0, hy0, rest, hrest, hout⟩ := h
    have heq : y0 :: rest = out := Option.some.inj hout
    subst heq
    intro y hy
    rcases List.mem_cons.mp hy with rfl | hy
    · exact ⟨x, List.mem_cons_self x xs, hy0⟩
    · obtain ⟨x', hx', hfx'⟩ := ih rest hrest y hy
      exact ⟨x', List.mem_cons_of_mem x hx', hfx'⟩

theorem mapM_isSome {α β : Type} (f : α → Option β) (l : List α)
    (h : ∀ x ∈ l, (f x).isSome) : (l.mapM f).isSome := by
  induction l with
  | nil => rw [List.mapM_nil]; rfl
  | cons x xs ih =>
    rw [List.mapM_cons]
    obtain ⟨y, hy⟩ := Option.isSome_iff_exists.mp (h x (List.mem_cons_self x xs))
    rw [hy]
    obtain ⟨out, hout⟩ := Option.isSome_iff_exists.mp
      (ih fun z hz => h z (List.mem_cons_of_mem x hz))
    rw [hout]
    rfl

theorem bestIdx_mem : ∀ (l : List Entry) (i : Nat) (b : Entry),
    bestIdx l = some (i, b) → b ∈ l := by
  intro l
  induction l with
  | nil => intro i b h; simp [bestIdx] at h
  | cons e es ih =>
    intro i b h
    rcases hb : bestIdx es with _ | ⟨j, b'⟩
    · rw [bestIdx, hb] at h
      dsimp only at h
      simp only [Option.some.injEq, Prod.mk.injEq] at h
      exact h.2 ▸ List.mem_cons_self e es
    · rw [bestIdx, hb] at h
      dsimp only at h
      by_cases hc : cmpEntry b' e = .gt
      · rw [if_pos hc] at h
        simp only [Option.some.injEq, Prod.mk.injEq] at h
        exact h.2 ▸ List.mem_cons_of_mem e (ih j b' hb)
      · rw [if_neg hc] at h
        simp only [Option.some.injEq, Prod.mk.injEq] at h
        exact h.2 ▸ List.mem_cons_self e es

theorem popMax_spec (l : List Entry) (e : Entry) (rest : List Entry)
    (h : popMax l = some (e, rest)) : e ∈ l ∧ ∀ x ∈ rest, x ∈ l := by
  unfold popMax at h
  rcases hb : bestIdx l with _ | ⟨i, b⟩
  · rw [hb] at h; simp at h
  · rw [hb] at h
    simp only [Option.map_some', Option.some.injEq, Prod.mk.injEq] at h
    obtain ⟨hbe, hrest⟩ := h
    have hmem := bestIdx_mem l i b hb
    exact ⟨hbe ▸ hmem, fun x hx => List.mem_of_mem_eraseIdx (hrest ▸ hx)⟩

theorem reaches_lt_of_range (s : Graph) (L : Nat)
    (hrange : ∀ e ∈ s.edges, e.tgt < L ∧ e.src < L) (a b : Nat)
    (h : s.reaches a b) (ha : a < L) : b < L := by
  induction h with
  | refl => exact ha
  | tail _ hbc _ =>
    obtain ⟨e, he, _, ht⟩ := hbc
    exact ht ▸ (hrange e he).1

theorem cutEvidence_mono (s s' : Graph) (i : Nat)
    (hnodes : ∀ j < s.nodes.length, s'.node j = s.node j)
    (hedges : ∀ e ∈ s.edges, e ∈ s'.edges)
    (hi : i < s.nodes.length)
    (hrange : ∀ e ∈ s.edges, e.tgt < s.nodes.length ∧ e.src < s.nodes.length)
    (h : cutEvidence s i) : cutEvidence s' i := by
  obtain ⟨p, ⟨e, he, hs, ht⟩, j, hpath, hval⟩ := h
  have hp : p < s.nodes.length := ht ▸ (hrange e he).1
  have hj : j < s.nodes.length := reaches_lt_of_range s _ hrange p j hpath hp
  refine ⟨p, ⟨e, hedges e he, hs, ht⟩, j, reaches_mono_edges s s' hedges p j hpath, ?_⟩
  rw [hnodes j hj, hnodes i hi, hval]

theorem getRecipesWithItemInOutputs_of_item (G : Graph) (hnd : G.nodes.Nodup)
    (gi : Nat) (hgi : gi < G.nodes.length) (hitem : (G.node gi).isItem = true) :
    G.getRecipesWithItemInOutputs (G.node gi) =
      some (G.sortByTier (G.inNeighbors gi)) := by
  rcases hn : G.node gi with ⟨it, t⟩ | ⟨r, t⟩
  · have hidx : G.getNodeIdx (.item it t) = some gi := by
      rw [← hn]; exact Graph.getNodeIdx_self G hnd gi hgi
    show (G.getNodeIdx (.item it t)).map (fun i => G.sortByTier (G.inNeighbors i)) = _
    rw [hidx]
    rfl
  · rw [hn] at hitem; simp [Node.isItem] at hitem

theorem getIngredientsForRecipeIdx_of_recipe (G : Graph) (hnd : G.nodes.Nodup)
    (gi : Nat) (hgi : gi < G.nodes.length) (hrec : (G.node gi).isRecipe = true) :
    G.getIngredientsForRecipeIdx (G.node gi) =
      some (G.sortByTier (G.inNeighbors gi)) := by
  rcases hn : G.node gi with ⟨it, t⟩ | ⟨r, t⟩
  · rw [hn] at hrec; simp [Node.isRecipe] at hrec
  · have hidx : G.getNodeIdx (.recipe r t) = some gi := by
      rw [← hn]; exact Graph.getNodeIdx_self G hnd gi hgi
    show (G.getNodeIdx (.recipe r t)).map (fun i => G.sortByTier (G.inNeighbors i)) = _
    rw [hidx]
    rfl

theorem inNeighbors_perm_filter (g : Graph) (i : Nat) :
    (g.inNeighbors i).Perm ((g.edges.filter fun e => e.tgt = i).map (·.src)) := by
  unfold Graph.inNeighbors
  exact (List.reverse_perm _).map _

theorem ingredient_perm (G : Graph) (hnp : G.noParallelIntoRecipes) (gi : Nat)
    (hrec : (G.node gi).isRecipe = true) :
    ((G.sortByTier (G.inNeighbors gi)).map fun ii => (G.node ii, uweight G gi ii)).Perm
      (inEdgeData G gi) := by
  have h1 : (G.sortByTier (G.inNeighbors gi)).Perm
      ((G.edges.filter fun e => e.tgt = gi).map (·.src)) :=
    (G.sortByTier_perm _).trans (inNeighbors_perm_filter G gi)
  have h2 := h1.map (fun ii => (G.node ii, uweight G gi ii))
  rw [List.map_map] at h2
  have h3 : (G.edges.filter fun e => e.tgt = gi).map
      ((fun ii => (G.node ii, uweight G gi ii)) ∘ (·.src)) = inEdgeData G gi := by
    unfold inEdgeData
    refine List.map_congr_left ?_
    intro e he
    obtain ⟨hee, het⟩ := List.mem_filter.mp he
    simp only [decide_eq_true_eq] at het
    have huniq := hnp e hee (by rw [het]; exact hrec)
    have hfcw := firstConnectingWeight_eq_of_unique G e hee huniq
    rw [het] at hfcw
    simp [Function.comp, uweight, hfcw]
  rw [h3] at h2
  exact h2

theorem Node.isItem_eq_not_isRecipe (n : Node) : n.isItem = !n.isRecipe := by
  cases n <;> rfl

theorem Graph.inNeighbors_eq_nil (g : Graph) (j : Nat)
    (h : ∀ e ∈ g.edges, e.tgt ≠ j) : g.inNeighbors j = [] := by
  unfold Graph.inNeighbors
  have : g.edges.filter (fun e => decide (e.tgt = j)) = [] :=
    List.filter_eq_nil_iff.mpr fun e he => by simpa using h e he
  rw [this]
  rfl

theorem inEdgeData_eq_nil (g : Graph) (j : Nat) (h : g.inNeighbors j = []) :
    inEdgeData g j = [] := by
  unfold Graph.inNeighbors at h
  unfold inEdgeData
  have : g.edges.filter (fun e => decide (e.tgt = j)) = [] := by
    have := congrArg List.length h
    simp only [List.length_map, List.length_reverse, List.length_nil] at this
    exact List.eq_nil_of_length_eq_zero this
  rw [this]
  rfl

theorem bipartite_src_item (G : Graph) (hbip : G.bipartiteB = true) (e : Edge)
    (he : e ∈ G.edges) (htgt : (G.node e.tgt).isRecipe = true) :
    (G.node e.src).isItem = true := by
  have := (List.all_eq_true.mp hbip) e he
  simp only [Node.isItem_eq_not_isRecipe] at this ⊢
  simp only [decide_eq_true_eq] at this
  cases hsrc : (G.node e.src).isRecipe <;> cases htgt2 : (G.node e.tgt).isRecipe <;>
    simp_all

theorem bipartite_src_recipe (G : Graph) (hbip : G.bipartiteB = true) (e : Edge)
    (he : e ∈ G.edges) (htgt : (G.node e.tgt).isItem = true) :
    (G.node e.src).isRecipe = true := by
  have := (List.all_eq_true.mp hbip) e he
  simp only [Node.isItem_eq_not_isRecipe] at this htgt
  simp only [decide_eq_true_eq] at this
  cases hsrc : (G.node e.src).isRecipe <;> cases htgt2 : (G.node e.tgt).isRecipe <;>
    simp_all

/-- The per-ingredient loop of the recipe expansion preserves the entry
invariant, never fails, and ends with the recipe's ingredient data
matching the full graph. -/
theorem expandIngredients_inv (G : Graph) (hnd : G.nodes.Nodup) (hr : G.edgesInRange)
    (hbip : G.bipartiteB = true) (gi si : Nat) (hgi : gi < G.nodes.length)
    (hgirec : (G.node gi).isRecipe = true) :
    ∀ (rem : List Nat) (sub : Graph) (pend : List (Nat × Nat)),
    (∀ ii ∈ rem, ∃ e ∈ G.edges, e.src = ii ∧ e.tgt = gi) →
    si < sub.nodes.length →
    sub.node si = G.node gi →
    si ∉ pend.map Prod.snd →
    (∀ i < sub.nodes.length, sub.node i ∈ G.nodes) →
    (∀ p ∈ pend, p.1 < G.nodes.length ∧ p.2 < sub.nodes.length ∧
      G.node p.1 = sub.node p.2) →
    (pend.map Prod.snd).Nodup →
    (∀ p ∈ pend, sub.inNeighbors p.2 = []) →
    (∀ e ∈ sub.edges, e.tgt < e.src ∧ e.src < sub.nodes.length) →
    (∀ e ∈ sub.edges, ∃ e' ∈ G.edges,
      G.node e'.src = sub.node e.src ∧ G.node e'.tgt = sub.node e.tgt) →
    (∀ e ∈ sub.edges, (sub.node e.src).isItem ≠ (sub.node e.tgt).isItem) →
    (∀ i < sub.nodes.length, ∀ it t, sub.node i = .item it t → it.natural = false →
      i ∉ pend.map Prod.snd → (sub.inNeighbors i).length = 1 ∨ cutEvidence sub i) →
    (∀ i < sub.nodes.length, ∀ r t, sub.node i = .recipe r t →
      i ∉ pend.map Prod.snd → i ≠ si →
      ∃ gj, gj < G.nodes.length ∧ G.node gj = sub.node i ∧
        (inEdgeData sub i).Perm (inEdgeData G gj)) →
    ((inEdgeData sub si ++ rem.map fun ii => (G.node ii, uweight G gi ii)).Perm
      (inEdgeData G gi)) →
    ∃ sub' pend', expandIngredients G gi si rem sub pend = some (sub', pend') ∧
      EntryInv G sub' pend' := by
  intro rem
  induction rem with
  | nil =>
    intro sub pend hrem hsi hsival hsinp hvals hpend hnodup hfresh hdesc hlift hbipS
      hitem hrec hacc
    refine ⟨sub, pend, rfl, hvals, hpend, hnodup, hfresh, hdesc, hlift, hbipS, hitem, ?_⟩
    intro i hi r t hir hinp
    by_cases hisi : i = si
    · subst hisi
      exact ⟨gi, hgi, hsival.symm, by simpa using hacc⟩
    · exact hrec i hi r t hir hinp hisi
  | cons ii rest ih =>
    intro sub pend hrem hsi hsival hsinp hvals hpend hnodup hfresh hdesc hlift hbipS
      hitem hrec hacc
    have hpendne : ∀ p ∈ pend, p.2 ≠ si := by
      intro p hp hps
      exact hsinp (hps ▸ List.mem_map_of_mem Prod.snd hp)
    obtain ⟨e0, he0, he0s, he0t⟩ := hrem ii (List.mem_cons_self ii rest)
    have hiiG : ii < G.nodes.length := he0s ▸ (hr e0 he0).1
    have hiiItem : (G.node ii).isItem = true := by
      have := bipartite_src_item G hbip e0 he0 (by rw [he0t]; exact hgirec)
      rwa [he0s] at this
    obtain ⟨w, hw⟩ := Option.isSome_iff_exists.mp
      (firstConnectingWeight_isSome G ii gi ⟨e0, he0, he0s, he0t⟩)
    have hw_uw : uweight G gi ii = w := uweight_eq G gi ii w hw
    set ai := sub.nodes.length with hai
    set sub3 : Graph :=
      ⟨sub.nodes ++ [G.node ii], sub.edges ++ [⟨ai, si, w⟩], sub.naturals⟩ with hsub3
    have hstep : expandIngredients G gi si (ii :: rest) sub pend =
        (if copyPresent sub3 (G.node ii) si then
          expandIngredients G gi si rest sub3 pend
        else expandIngredients G gi si rest sub3 (pend ++ [(ii, ai)])) := by
      rw [expandIngredients]
      simp only [Graph.addNode, Graph.addEdge, hw]
    have hlen3 : sub3.nodes.length = ai + 1 := by
      simp [hsub3]
    have hnode3_lt : ∀ j, j < sub.nodes.length → sub3.node j = sub.node j :=
      fun j hj =>
        Graph.node_append_lt sub.nodes (G.node ii) _ _ sub.edges sub.naturals j hj
    have hnode3_ai : sub3.node ai = G.node ii :=
      Graph.node_append_self sub.nodes (G.node ii) _ _
    have hedges3 : sub3.edges = sub.edges ++ [⟨ai, si, w⟩] := rfl
    have hinN3 : ∀ j, sub3.inNeighbors j =
        if si = j then ai :: sub.inNeighbors j else sub.inNeighbors j := by
      intro j
      have h1 : sub3 =
          (Graph.mk (sub.nodes ++ [G.node ii]) sub.edges sub.naturals).addEdge ai si w := rfl
      rw [h1, Graph.inNeighbors_addEdge]
      rfl
    have hsiai : si < ai := hsi
    have hsubnil : sub.inNeighbors ai = [] := by
      refine Graph.inNeighbors_eq_nil sub ai ?_
      intro e he
      have := hdesc e he
      omega
    have hIED3_si : inEdgeData sub3 si = inEdgeData sub si ++ [(G.node ii, w)] := by
      have h1 : sub3 =
          (Graph.mk (sub.nodes ++ [G.node ii]) sub.edges sub.naturals).addEdge ai si w := rfl
      rw [h1, inEdgeData_addEdge, if_pos rfl,
        inEdgeData_append_nodes sub.nodes (G.node ii) sub.edges sub.naturals sub.naturals si
          (fun e he => (hdesc e he).2),
        Graph.node_append_self]
    have hIED3_ne : ∀ j, j ≠ si → inEdgeData sub3 j = inEdgeData sub j := by
      intro j hj
      have h1 : sub3 =
          (Graph.mk (sub.nodes ++ [G.node ii]) sub.edges sub.naturals).addEdge ai si w := rfl
      rw [h1, inEdgeData_addEdge, if_neg (fun hh => hj hh.symm),
        inEdgeData_append_nodes sub.nodes (G.node ii) sub.edges sub.naturals sub.naturals j
          (fun e he => (hdesc e he).2)]
    -- hypotheses common to both branches for the recursive call
    have hrem' : ∀ x ∈ rest, ∃ e ∈ G.edges, e.src = x ∧ e.tgt = gi :=
      fun x hx => hrem x (List.mem_cons_of_mem ii hx)
    have hsi3 : si < sub3.nodes.length := by rw [hlen3]; omega
    have hsival3 : sub3.node si = G.node gi := (hnode3_lt si hsi).trans hsival
    have hvals3 : ∀ i < sub3.nodes.length, sub3.node i ∈ G.nodes := by
      intro i hi
      rw [hlen3] at hi
      rcases Nat.lt_or_ge i ai with h | h
      · rw [hnode3_lt i h]; exact hvals i h
      · have : i = ai := by omega
        rw [this, hnode3_ai]
        exact G.node_mem ii hiiG
    have hdesc3 : ∀ e ∈ sub3.edges, e.tgt < e.src ∧ e.src < sub3.nodes.length := by
      intro e he
      rw [hedges3] at he
      rw [hlen3]
      rcases List.mem_append.mp he with he | he
      · have := hdesc e he; omega
      · simp only [List.mem_singleton] at he
        subst he
        simp only []
        omega
    have hlift3 : ∀ e ∈ sub3.edges, ∃ e' ∈ G.edges,
        G.node e'.src = sub3.node e.src ∧ G.node e'.tgt = sub3.node e.tgt := by
      intro e he
      rw [hedges3] at he
      rcases List.mem_append.mp he with he | he
      · obtain ⟨e', he', h1, h2⟩ := hlift e he
        have hb := hdesc e he
        exact ⟨e', he', by rw [hnode3_lt e.src hb.2]; exact h1,
          by rw [hnode3_lt e.tgt (by omega)]; exact h2⟩
      · simp only [List.mem_singleton] at he
        subst he
        refine ⟨⟨ii, gi, w⟩, firstConnectingWeight_mem G ii gi w hw, ?_, ?_⟩
        · simp only []
          rw [hnode3_ai]
        · simp only []
          rw [hsival3]
    have hbipS3 : ∀ e ∈ sub3.edges,
        (sub3.node e.src).isItem ≠ (sub3.node e.tgt).isItem := by
      intro e he
      rw [hedges3] at he
      rcases List.mem_append.mp he with he | he
      · have hb := hdesc e he
        rw [hnode3_lt e.src hb.2, hnode3_lt e.tgt (by omega)]
        exact hbipS e he
      · simp only [List.mem_singleton] at he
        subst he
        simp only []
        rw [hnode3_ai, hsival3, hiiItem, Node.isItem_eq_not_isRecipe, hgirec]
        simp
    have hinN3_ai : sub3.inNeighbors ai = [] := by
      rw [hinN3, if_neg (by omega)]
      exact hsubnil
    -- now branch on the ancestor cut
    by_cases hcut : copyPresent sub3 (G.node ii) si = true
    · -- ancestor cut: the added node is neither enqueued nor produced
      have hitem3 : ∀ i < sub3.nodes.length, ∀ it t, sub3.node i = .item it t →
          it.natural = false → i ∉ pend.map Prod.snd →
          (sub3.inNeighbors i).length = 1 ∨ cutEvidence sub3 i := by
        intro i hi it t hv hnat hinp
        rw [hlen3] at hi
        rcases Nat.lt_or_ge i ai with h | h
        · have hv' : sub.node i = .item it t := by rw [← hnode3_lt i h]; exact hv
          have hne : i ≠ si := by
            intro hh
            rw [hh, hsival] at hv'
            rw [hv'] at hgirec
            simp [Node.isRecipe] at hgirec
          rcases hitem i h it t hv' hnat hinp with h1 | h1
          · left
            rw [hinN3, if_neg (fun hh => hne hh.symm)]
            exact h1
          · right
            refine cutEvidence_mono sub sub3 i hnode3_lt ?_ h ?_ h1
            · intro e he; rw [hedges3]; exact List.mem_append_left _ he
            · intro e he; have := hdesc e he; omega
        · have hiai : i = ai := by omega
          subst hiai
          right
          obtain ⟨j0, hpath, hval⟩ := copyPresent_true sub3 (G.node ii) si hcut
          refine ⟨si, ⟨⟨ai, si, w⟩, ?_, rfl, rfl⟩, j0, hpath, ?_⟩
          · rw [hedges3]; exact List.mem_append_right _ (List.mem_singleton.mpr rfl)
          · rw [hval, hnode3_ai]
      have hrec3 : ∀ i < sub3.nodes.length, ∀ r t, sub3.node i = .recipe r t →
          i ∉ pend.map Prod.snd → i ≠ si →
          ∃ gj, gj < G.nodes.length ∧ G.node gj = sub3.node i ∧
            (inEdgeData sub3 i).Perm (inEdgeData G gj) := by
        intro i hi r t hv hinp hne
        rw [hlen3] at hi
        rcases Nat.lt_or_ge i ai with h | h
        · have hv' : sub.node i = .recipe r t := by rw [← hnode3_lt i h]; exact hv
          obtain ⟨gj, hgj, hgjv, hgjp⟩ := hrec i h r t hv' hinp hne
          exact ⟨gj, hgj, by rw [hnode3_lt i h]; exact hgjv,
            by rw [hIED3_ne i hne]; exact hgjp⟩
        · have hiai : i = ai := by omega
          subst hiai
          rw [hnode3_ai] at hv
          rw [hv] at hiiItem
          simp [Node.isItem] at hiiItem
      have hpend3 : ∀ p ∈ pend, p.1 < G.nodes.length ∧ p.2 < sub3.nodes.length ∧
          G.node p.1 = sub3.node p.2 := by
        intro p hp
        obtain ⟨h1, h2, h3⟩ := hpend p hp
        exact ⟨h1, by omega, by rw [hnode3_lt p.2 h2]; exact h3⟩
      have hfresh3 : ∀ p ∈ pend, sub3.inNeighbors p.2 = [] := by
        intro p hp
        rw [hinN3, if_neg (fun hh => hpendne p hp hh.symm)]
        exact hfresh p hp
      have hacc3 : ((inEdgeData sub3 si ++
          rest.map fun x => (G.node x, uweight G gi x)).Perm (inEdgeData G gi)) := by
        have heq : inEdgeData sub3 si ++ (rest.map fun x => (G.node x, uweight G gi x)) =
            inEdgeData sub si ++
              ((ii :: rest).map fun x => (G.node x, uweight G gi x)) := by
          rw [hIED3_si, List.append_assoc, List.map_cons, hw_uw]
          rfl
        rw [heq]
        exact hacc
      obtain ⟨sub', pend', heq', hinv⟩ := ih sub3 pend hrem' hsi3 hsival3 hsinp hvals3
        hpend3 hnodup hfresh3 hdesc3 hlift3 hbipS3 hitem3 hrec3 hacc3
      exact ⟨sub', pend', by rw [hstep, if_pos hcut]; exact heq', hinv⟩
    · -- no cut: the added node is enqueued
      have hcut' : copyPresent sub3 (G.node ii) si = false := by
        cases hcc : copyPresent sub3 (G.node ii) si
        · rfl
        · exact absurd hcc hcut
      have hsinp3 : si ∉ (pend ++ [(ii, ai)]).map Prod.snd := by
        rw [List.map_append]
        intro hmem
        rcases List.mem_append.mp hmem with h | h
        · exact hsinp h
        · simp at h; omega
      have hpend3 : ∀ p ∈ pend ++ [(ii, ai)], p.1 < G.nodes.length ∧
          p.2 < sub3.nodes.length ∧ G.node p.1 = sub3.node p.2 := by
        intro p hp
        rcases List.mem_append.mp hp with hp | hp
        · obtain ⟨h1, h2, h3⟩ := hpend p hp
          exact ⟨h1, by omega, by rw [hnode3_lt p.2 h2]; exact h3⟩
        · simp only [List.mem_singleton] at hp
          subst hp
          exact ⟨hiiG, by omega, hnode3_ai.symm⟩
      have hnodup3 : ((pend ++ [(ii, ai)]).map Prod.snd).Nodup := by
        rw [List.map_append]
        refine List.Nodup.append hnodup (by simp) ?_
        intro x hx hx2
        simp only [List.map_cons, List.map_nil, List.mem_singleton] at hx2
        obtain ⟨p, hp, hps⟩ := List.mem_map.mp hx
        have := (hpend p hp).2.1
        omega
      have hfresh3 : ∀ p ∈ pend ++ [(ii, ai)], sub3.inNeighbors p.2 = [] := by
        intro p hp
        rcases List.mem_append.mp hp with hp | hp
        · rw [hinN3, if_neg (fun hh => hpendne p hp hh.symm)]
          exact hfresh p hp
        · simp only [List.mem_singleton] at hp
          subst hp
          exact hinN3_ai
      have hitem3 : ∀ i < sub3.nodes.length, ∀ it t, sub3.node i = .item it t →
          it.natural = false → i ∉ (pend ++ [(ii, ai)]).map Prod.snd →
          (sub3.inNeighbors i).length = 1 ∨ cutEvidence sub3 i := by
        intro i hi it t hv hnat hinp
        rw [hlen3] at hi
        have hinp' : i ∉ pend.map Prod.snd := by
          intro hh
          exact hinp (by rw [List.map_append]; exact List.mem_append_left _ hh)
        rcases Nat.lt_or_ge i ai with h | h
        · have hv' : sub.node i = .item it t := by rw [← hnode3_lt i h]; exact hv
          have hne : i ≠ si := by
            intro hh
            rw [hh, hsival] at hv'
            rw [hv'] at hgirec
            simp [Node.isRecipe] at hgirec
          rcases hitem i h it t hv' hnat hinp' with h1 | h1
          · left
            rw [hinN3, if_neg (fun hh => hne hh.symm)]
            exact h1
          · right
            refine cutEvidence_mono sub sub3 i hnode3_lt ?_ h ?_ h1
            · intro e he; rw [hedges3]; exact List.mem_append_left _ he
            · intro e he; have := hdesc e he; omega
        · have hiai : i = ai := by omega
          subst hiai
          exact absurd (by
            rw [List.map_append]
            exact List.mem_append_right _ (by simp)) hinp
      have hrec3 : ∀ i < sub3.nodes.length, ∀ r t, sub3.node i = .recipe r t →
          i ∉ (pend ++ [(ii, ai)]).map Prod.snd → i ≠ si →
          ∃ gj, gj < G.nodes.length ∧ G.node gj = sub3.node i ∧
            (inEdgeData sub3 i).Perm (inEdgeData G gj) := by
        intro i hi r t hv hinp hne
        rw [hlen3] at hi
        have hinp' : i ∉ pend.map Prod.snd := by
          intro hh
          exact hinp (by rw [List.map_append]; exact List.mem_append_left _ hh)
        rcases Nat.lt_or_ge i ai with h | h
        · have hv' : sub.node i = .recipe r t := by rw [← hnode3_lt i h]; exact hv
          obtain ⟨gj, hgj, hgjv, hgjp⟩ := hrec i h r t hv' hinp' hne
          exact ⟨gj, hgj, by rw [hnode3_lt i h]; exact hgjv,
            by rw [hIED3_ne i hne]; exact hgjp⟩
        · have hiai : i = ai := by omega
          subst hiai
          rw [hnode3_ai] at hv
          rw [hv] at hiiItem
          simp [Node.isItem] at hiiItem
      have hacc3 : ((inEdgeData sub3 si ++
          rest.map fun x => (G.node x, uweight G gi x)).Perm (inEdgeData G gi)) := by
        have heq : inEdgeData sub3 si ++ (rest.map fun x => (G.node x, uweight G gi x)) =
            inEdgeData sub si ++
              ((ii :: rest).map fun x => (G.node x, uweight G gi x)) := by
          rw [hIED3_si, List.append_assoc, List.map_cons, hw_uw]
          rfl
        rw [heq]
        exact hacc
      obtain ⟨sub', pend', heq', hinv⟩ := ih sub3 (pend ++ [(ii, ai)]) hrem' hsi3 hsival3
        hsinp3 hvals3 hpend3 hnodup3 hfresh3 hdesc3 hlift3 hbipS3 hitem3 hrec3 hacc3
      exact ⟨sub', pend', by rw [hstep, if_neg (by rw [hcut']; simp)]; exact heq', hinv⟩

/-- Expanding a non-natural item into one branch per producing recipe
succeeds and every produced frontier entry satisfies the invariant. -/
theorem itemBranches_inv (G : Graph) (hr : G.edgesInRange) (hbip : G.bipartiteB = true)
    (gi si : Nat) (hgi : gi < G.nodes.length) (hgiitem : (G.node gi).isItem = true)
    (sub : Graph) (pend' : List (Nat × Nat)) (ridxs : List Nat)
    (hrid : ∀ ri ∈ ridxs, ∃ e ∈ G.edges, e.src = ri ∧ e.tgt = gi)
    (hsi : si < sub.nodes.length) (hsival : sub.node si = G.node gi)
    (hinv : EntryInv G sub (pend' ++ [(gi, si)])) :
    ∃ entries, itemBranches G gi si sub pend' ridxs = some entries ∧
      ∀ en ∈ entries, EntryInv G en.1 en.2 := by
  have hsinp : si ∉ pend'.map Prod.snd := by
    have hnd2 := hinv.pendNodup
    rw [List.map_append] at hnd2
    have := (List.nodup_append.mp hnd2).2.2
    intro hmem
    exact this hmem (by simp)
  have hpendne : ∀ p ∈ pend', p.2 ≠ si := by
    intro p hp hps
    exact hsinp (hps ▸ List.mem_map_of_mem Prod.snd hp)
  have hfreshsi : sub.inNeighbors si = [] :=
    hinv.pendFresh (gi, si) (List.mem_append_right _ (by simp))
  -- each branch computation succeeds
  have hsome : ∀ ri ∈ ridxs, ((do
      let rnode := G.node ri
      let (bsub, addedIdx) := sub.addNode rnode
      let w ← G.firstConnectingWeight ri gi
      let bsub := bsub.addEdge addedIdx si w
      pure (bsub, pend' ++ [(ri, addedIdx)])) : Option Entry).isSome := by
    intro ri hri
    obtain ⟨w, hw⟩ := Option.isSome_iff_exists.mp
      (firstConnectingWeight_isSome G ri gi (hrid ri hri))
    simp [Graph.addNode, hw]
  obtain ⟨entries, hentries⟩ := Option.isSome_iff_exists.mp
    (mapM_isSome _ ridxs hsome)
  refine ⟨entries, hentries, ?_⟩
  intro en hen
  obtain ⟨ri, hri, hfri⟩ := mapM_some_mem _ ridxs entries hentries en hen
  obtain ⟨e0, he0, he0s, he0t⟩ := hrid ri hri
  have hriG : ri < G.nodes.length := he0s ▸ (hr e0 he0).1
  have hriRec : (G.node ri).isRecipe = true := by
    have := bipartite_src_recipe G hbip e0 he0 (by rw [he0t]; exact hgiitem)
    rwa [he0s] at this
  obtain ⟨w, hw⟩ := Option.isSome_iff_exists.mp
    (firstConnectingWeight_isSome G ri gi ⟨e0, he0, he0s, he0t⟩)
  set ai := sub.nodes.length with hai
  set bsub : Graph :=
    ⟨sub.nodes ++ [G.node ri], sub.edges ++ [⟨ai, si, w⟩], sub.naturals⟩ with hbsub
  have hen_eq : en = (bsub, pend' ++ [(ri, ai)]) := by
    simp only [Graph.addNode, hw, Option.bind_eq_bind, Option.some_bind] at hfri
    exact (Option.some.inj hfri).symm
  subst hen_eq
  have hlen3 : bsub.nodes.length = ai + 1 := by simp [hbsub]
  have hnode3_lt : ∀ j, j < sub.nodes.length → bsub.node j = sub.node j :=
    fun j hj =>
      Graph.node_append_lt sub.nodes (G.node ri) _ _ sub.edges sub.naturals j hj
  have hnode3_ai : bsub.node ai = G.node ri :=
    Graph.node_append_self sub.nodes (G.node ri) _ _
  have hedges3 : bsub.edges = sub.edges ++ [⟨ai, si, w⟩] := rfl
  have hinN3 : ∀ j, bsub.inNeighbors j =
      if si = j then ai :: sub.inNeighbors j else sub.inNeighbors j := by
    intro j
    have h1 : bsub =
        (Graph.mk (sub.nodes ++ [G.node ri]) sub.edges sub.naturals).addEdge ai si w := rfl
    rw [h1, Graph.inNeighbors_addEdge]
    rfl
  have hdesc := hinv.edgeDesc
  have hsubnil : sub.inNeighbors ai = [] := by
    refine Graph.inNeighbors_eq_nil sub ai ?_
    intro e he
    have := hdesc e he
    omega
  have hIED3_ne : ∀ j, j ≠ si → inEdgeData bsub j = inEdgeData sub j := by
    intro j hj
    have h1 : bsub =
        (Graph.mk (sub.nodes ++ [G.node ri]) sub.edges sub.naturals).addEdge ai si w := rfl
    rw [h1, inEdgeData_addEdge, if_neg (fun hh => hj hh.symm),
      inEdgeData_append_nodes sub.nodes (G.node ri) sub.edges sub.naturals sub.naturals j
        (fun e he => (hdesc e he).2)]
  have hpendOk' : ∀ p ∈ pend', p.1 < G.nodes.length ∧ p.2 < sub.nodes.length ∧
      G.node p.1 = sub.node p.2 :=
    fun p hp => hinv.pendOk p (List.mem_append_left _ hp)
  constructor
  · -- valsMem
    intro i hi
    rw [hlen3] at hi
    rcases Nat.lt_or_ge i ai with h | h
    · rw [hnode3_lt i h]; exact hinv.valsMem i h
    · have : i = ai := by omega
      rw [this, hnode3_ai]
      exact G.node_mem ri hriG
  · -- pendOk
    intro p hp
    rcases List.mem_append.mp hp with hp | hp
    · obtain ⟨h1, h2, h3⟩ := hpendOk' p hp
      exact ⟨h1, by rw [hlen3]; omega, by rw [hnode3_lt p.2 h2]; exact h3⟩
    · simp only [List.mem_singleton] at hp
      subst hp
      exact ⟨hriG, by rw [hlen3]; omega, hnode3_ai.symm⟩
  · -- pendNodup
    rw [List.map_append]
    have hnd2 := hinv.pendNodup
    rw [List.map_append] at hnd2
    refine List.Nodup.append (List.nodup_append.mp hnd2).1 (by simp) ?_
    intro x hx hx2
    simp only [List.map_cons, List.map_nil, List.mem_singleton] at hx2
    obtain ⟨p, hp, hps⟩ := List.mem_map.mp hx
    have := (hpendOk' p hp).2.1
    omega
  · -- pendFresh
    intro p hp
    rcases List.mem_append.mp hp with hp | hp
    · rw [hinN3, if_neg (fun hh => hpendne p hp hh.symm)]
      exact hinv.pendFresh p (List.mem_append_left _ hp)
    · simp only [List.mem_singleton] at hp
      subst hp
      simp only []
      rw [hinN3, if_neg (by omega)]
      exact hsubnil
  · -- edgeDesc
    intro e he
    rw [hedges3] at he
    rw [hlen3]
    rcases List.mem_append.mp he with he | he
    · have := hdesc e he; omega
    · simp only [List.mem_singleton] at he
      subst he
      simp only []
      omega
  · -- edgeLift
    intro e he
    rw [hedges3] at he
    rcases List.mem_append.mp he with he | he
    · obtain ⟨e', he', h1, h2⟩ := hinv.edgeLift e he
      have hb := hdesc e he
      exact ⟨e', he', by rw [hnode3_lt e.src hb.2]; exact h1,
        by rw [hnode3_lt e.tgt (by omega)]; exact h2⟩
    · simp only [List.mem_singleton] at he
      subst he
      refine ⟨⟨ri, gi, w⟩, firstConnectingWeight_mem G ri gi w hw, ?_, ?_⟩
      · simp only []
        rw [hnode3_ai]
      · simp only []
        rw [hnode3_lt si hsi, hsival]
  · -- edgeBip
    intro e he
    rw [hedges3] at he
    rcases List.mem_append.mp he with he | he
    · have hb := hdesc e he
      rw [hnode3_lt e.src hb.2, hnode3_lt e.tgt (by omega)]
      exact hinv.edgeBip e he
    · simp only [List.mem_singleton] at he
      subst he
      simp only []
      rw [hnode3_ai, hnode3_lt si hsi, hsival, hgiitem,
        Node.isItem_eq_not_isRecipe (G.node ri), hriRec]
      simp
  · -- itemStatus
    intro i hi it t hv hnat hinp
    rw [hlen3] at hi
    have hinp' : i ∉ pend'.map Prod.snd := by
      intro hh
      exact hinp (by rw [List.map_append]; exact List.mem_append_left _ hh)
    rcases Nat.lt_or_ge i ai with h | h
    · have hv' : sub.node i = .item it t := by rw [← hnode3_lt i h]; exact hv
      by_cases hisi : i = si
      · subst hisi
        left
        rw [hinN3, if_pos rfl, hfreshsi]
        rfl
      · have hinp0 : i ∉ (pend' ++ [(gi, si)]).map Prod.snd := by
          rw [List.map_append]
          intro hmem
          rcases List.mem_append.mp hmem with hmem | hmem
          · exact hinp' hmem
          · simp only [List.map_cons, List.map_nil, List.mem_singleton] at hmem
            exact hisi hmem
        rcases hinv.itemStatus i h it t hv' hnat hinp0 with h1 | h1
        · left
          rw [hinN3, if_neg (fun hh => hisi hh.symm)]
          exact h1
        · right
          refine cutEvidence_mono sub bsub i hnode3_lt ?_ h ?_ h1
          · intro e he; rw [hedges3]; exact List.mem_append_left _ he
          · intro e he; have := hdesc e he; omega
    · have hiai : i = ai := by omega
      subst hiai
      rw [hnode3_ai] at hv
      rw [hv] at hriRec
      simp [Node.isRecipe] at hriRec
  · -- recipeStatus
    intro i hi r t hv hinp
    rw [hlen3] at hi
    rcases Nat.lt_or_ge i ai with h | h
    · have hv' : sub.node i = .recipe r t := by rw [← hnode3_lt i h]; exact hv
      have hisi : i ≠ si := by
        intro hh
        rw [hh, hsival] at hv'
        rw [hv'] at hgiitem
        simp [Node.isItem] at hgiitem
      have hinp0 : i ∉ (pend' ++ [(gi, si)]).map Prod.snd := by
        rw [List.map_append]
        intro hmem
        rcases List.mem_append.mp hmem with hmem | hmem
        · exact hinp (by rw [List.map_append]; exact List.mem_append_left _ hmem)
        · simp only [List.map_cons, List.map_nil, List.mem_singleton] at hmem
          exact hisi hmem
      obtain ⟨gj, hgj, hgjv, hgjp⟩ := hinv.recipeStatus i h r t hv' hinp0
      exact ⟨gj, hgj, by rw [hnode3_lt i h]; exact hgjv,
        by rw [hIED3_ne i hisi]; exact hgjp⟩
    · have hiai : i = ai := by omega
      subst hiai
      exact absurd (by
        rw [List.map_append]
        exact List.mem_append_right _ (by simp)) hinp

/-- Every pending pair of an invariant entry names matching nodes; the
entry invariant survives dropping the last pending pair. -/
theorem EntryInv_drop_last (G sub : Graph) (pend' : List (Nat × Nat)) (gi si : Nat)
    (hinv : EntryInv G sub (pend' ++ [(gi, si)])) :
    (∀ i < sub.nodes.length, ∀ it t, sub.node i = .item it t → it.natural = true →
      True) →
    (sub.node si).isItem = true →
    ((sub.node si).isItem = true → ∀ it t, sub.node si = .item it t →
      it.natural = true) →
    EntryInv G sub pend' := by
  intro _ hsiItem hsiNat
  have hnd2 := hinv.pendNodup
  rw [List.map_append] at hnd2
  obtain ⟨hnd1, -, hdisj⟩ := List.nodup_append.mp hnd2
  have hsinp : si ∉ pend'.map Prod.snd := fun hmem => hdisj hmem (by simp)
  refine ⟨hinv.valsMem, fun p hp => hinv.pendOk p (List.mem_append_left _ hp), hnd1,
    fun p hp => hinv.pendFresh p (List.mem_append_left _ hp), hinv.edgeDesc,
    hinv.edgeLift, hinv.edgeBip, ?_, ?_⟩
  · intro i hi it t hv hnat hinp
    by_cases hisi : i = si
    · subst hisi
      have := hsiNat hsiItem it t hv
      rw [this] at hnat
      cases hnat
    · refine hinv.itemStatus i hi it t hv hnat ?_
      rw [List.map_append]
      intro hmem
      rcases List.mem_append.mp hmem with hmem | hmem
      · exact hinp hmem
      · simp only [List.map_cons, List.map_nil, List.mem_singleton] at hmem
        exact hisi hmem
  · intro i hi r t hv hinp
    by_cases hisi : i = si
    · subst hisi
      rw [hv] at hsiItem
      simp [Node.isItem] at hsiItem
    · refine hinv.recipeStatus i hi r t hv ?_
      rw [List.map_append]
      intro hmem
      rcases List.mem_append.mp hmem with hmem | hmem
      · exact hinp hmem
      · simp only [List.map_cons, List.map_nil, List.mem_singleton] at hmem
        exact hisi hmem

/-- One enumerator iteration preserves the frontier invariant, keeps
every completed solution valid, and never takes the early-`None` exits. -/
theorem enumStep_preserves (G : Graph) (hwf : G.WF) (K : Nat) (st : EState)
    (hq : ∀ en ∈ st.queue, EntryInv G en.1 en.2)
    (hc : ∀ s ∈ st.complete, SolPost G s) :
    (∀ r, enumStep G K st = .halt r → ∃ out, r = some out ∧ ∀ s ∈ out, SolPost G s) ∧
    (∀ st', enumStep G K st = .cont st' →
      (∀ en ∈ st'.queue, EntryInv G en.1 en.2) ∧ ∀ s ∈ st'.complete, SolPost G s) := by
  obtain ⟨hnd, hr, hbip, hnp⟩ := hwf
  rcases hpop : popMax st.queue with _ | ⟨⟨sub, pend⟩, rest⟩
  · constructor
    · intro r hstep
      unfold enumStep at hstep
      rw [hpop] at hstep
      cases hstep
      exact ⟨st.complete, rfl, hc⟩
    · intro st' hstep
      unfold enumStep at hstep
      rw [hpop] at hstep
      cases hstep
  · obtain ⟨hmemq, hrestq⟩ := popMax_spec st.queue (sub, pend) rest hpop
    have hinvE : EntryInv G sub pend := hq (sub, pend) hmemq
    have hrestInv : ∀ en ∈ rest, EntryInv G en.1 en.2 := fun en hen => hq en (hrestq en hen)
    by_cases hpe : pend.isEmpty = true
    · constructor
      · intro r hstep
        unfold enumStep at hstep
        rw [hpop] at hstep
        dsimp only at hstep
        rw [if_pos hpe] at hstep
        cases hstep
      · intro st' hstep
        unfold enumStep at hstep
        rw [hpop] at hstep
        dsimp only at hstep
        rw [if_pos hpe] at hstep
        cases hstep
        constructor
        · exact hrestInv
        · intro s hs
          rcases List.mem_append.mp hs with hs | hs
          · exact hc s hs
          · simp only [List.mem_singleton] at hs
            subst hs
            have hpnil : pend = [] := List.isEmpty_iff.mp hpe
            rw [hpnil] at hinvE
            exact hinvE
    · by_cases hK : K ≤ st.complete.length
      · constructor
        · intro r hstep
          unfold enumStep at hstep
          rw [hpop] at hstep
          dsimp only at hstep
          rw [if_neg hpe, if_pos hK] at hstep
          cases hstep
          exact ⟨st.complete, rfl, hc⟩
        · intro st' hstep
          unfold enumStep at hstep
          rw [hpop] at hstep
          dsimp only at hstep
          rw [if_neg hpe, if_pos hK] at hstep
          cases hstep
      · have hpne : pend ≠ [] := fun hh => hpe (by rw [hh]; rfl)
        obtain ⟨⟨gi, si⟩, pend', hvp, hpsplit⟩ := vecPop_eq_some pend hpne
        have hinv : EntryInv G sub (pend' ++ [(gi, si)]) := hpsplit ▸ hinvE
        obtain ⟨hgi, hsi, hval⟩ := hinv.pendOk (gi, si) (List.mem_append_right _ (by simp))
        rcases hsn : sub.node si with ⟨it, t⟩ | ⟨r, t⟩
        · -- item node
          have hgiitem : (G.node gi).isItem = true := by
            rw [hval, hsn]; rfl
          have hlookup : G.getRecipesWithItemInOutputs (G.node gi) =
              some (G.sortByTier (G.inNeighbors gi)) :=
            getRecipesWithItemInOutputs_of_item G hnd gi hgi hgiitem
          by_cases hnat : it.natural = true
          · -- natural item: requeue without the pair
            have hinv' : EntryInv G sub pend' := by
              refine EntryInv_drop_last G sub pend' gi si hinv (fun _ _ _ _ _ _ => trivial)
                (by rw [hsn]; rfl) ?_
              intro _ it' t' hv'
              rw [hsn] at hv'
              cases hv'
              exact hnat
            constructor
            · intro r hstep
              unfold enumStep at hstep
              rw [hpop] at hstep
              dsimp only at hstep
              rw [if_neg hpe, if_neg hK, hvp] at hstep
              dsimp only at hstep
              simp only [hsn, hlookup, hnat, if_true] at hstep
              cases hstep
            · intro st' hstep
              unfold enumStep at hstep
              rw [hpop] at hstep
              dsimp only at hstep
              rw [if_neg hpe, if_neg hK, hvp] at hstep
              dsimp only at hstep
              simp only [hsn, hlookup, hnat, if_true] at hstep
              cases hstep
              refine ⟨?_, hc⟩
              intro en hen
              rcases List.mem_append.mp hen with hen | hen
              · exact hrestInv en hen
              · simp only [List.mem_singleton] at hen
                subst hen
                exact hinv'
          · -- non-natural item: one branch per producing recipe
            have hnat' : it.natural = false := by
              cases hh : it.natural
              · rfl
              · exact absurd hh hnat
            have hrid : ∀ ri ∈ G.sortByTier (G.sortByTier (G.inNeighbors gi)),
                ∃ e ∈ G.edges, e.src = ri ∧ e.tgt = gi := by
              intro ri hri
              rw [Graph.mem_sortByTier, Graph.mem_sortByTier] at hri
              obtain ⟨e, he, ht, hs⟩ := (G.mem_inNeighbors gi ri).mp hri
              exact ⟨e, he, hs, ht⟩
            obtain ⟨entries, hent, hentInv⟩ := itemBranches_inv G hr hbip gi si hgi
              hgiitem sub pend' (G.sortByTier (G.sortByTier (G.inNeighbors gi))) hrid
              hsi hval.symm hinv
            constructor
            · intro r hstep
              unfold enumStep at hstep
              rw [hpop] at hstep
              dsimp only at hstep
              rw [if_neg hpe, if_neg hK, hvp] at hstep
              dsimp only at hstep
              simp only [hsn, hlookup, hnat', Option.map_some'] at hstep
              rw [hent] at hstep
              simp at hstep
            · intro st' hstep
              unfold enumStep at hstep
              rw [hpop] at hstep
              dsimp only at hstep
              rw [if_neg hpe, if_neg hK, hvp] at hstep
              dsimp only at hstep
              simp only [hsn, hlookup, hnat', Option.map_some'] at hstep
              rw [hent] at hstep
              simp only [Bool.false_eq_true, if_false] at hstep
              cases hstep
              refine ⟨?_, hc⟩
              intro en hen
              rcases List.mem_append.mp hen with hen | hen
              · exact hrestInv en hen
              · exact hentInv en hen
        · -- recipe node
          have hgirec : (G.node gi).isRecipe = true := by
            rw [hval, hsn]; rfl
          have hlookup : G.getIngredientsForRecipeIdx (G.node gi) =
              some (G.sortByTier (G.inNeighbors gi)) :=
            getIngredientsForRecipeIdx_of_recipe G hnd gi hgi hgirec
          have hsinp : si ∉ pend'.map Prod.snd := by
            have hnd2 := hinv.pendNodup
            rw [List.map_append] at hnd2
            exact fun hmem => (List.nodup_append.mp hnd2).2.2 hmem (by simp)
          have hacc0 : ((inEdgeData sub si ++
              (G.sortByTier (G.inNeighbors gi)).map fun x =>
                (G.node x, uweight G gi x)).Perm (inEdgeData G gi)) := by
            have hnil : inEdgeData sub si = [] :=
              inEdgeData_eq_nil sub si
                (hinv.pendFresh (gi, si) (List.mem_append_right _ (by simp)))
            rw [hnil, List.nil_append]
            exact ingredient_perm G hnp gi hgirec
          have hrem0 : ∀ ii ∈ G.sortByTier (G.inNeighbors gi),
              ∃ e ∈ G.edges, e.src = ii ∧ e.tgt = gi := by
            intro iiX hiiX
            rw [Graph.mem_sortByTier] at hiiX
            obtain ⟨e, he, ht, hs⟩ := (G.mem_inNeighbors gi iiX).mp hiiX
            exact ⟨e, he, hs, ht⟩
          have hitem0 : ∀ i < sub.nodes.length, ∀ it t, sub.node i = .item it t →
              it.natural = false → i ∉ pend'.map Prod.snd →
              (sub.inNeighbors i).length = 1 ∨ cutEvidence sub i := by
            intro i hi it' t' hv hnat hinp
            have hisi : i ≠ si := by
              intro hh
              rw [hh, hsn] at hv
              cases hv
            refine hinv.itemStatus i hi it' t' hv hnat ?_
            rw [List.map_append]
            intro hmem
            rcases List.mem_append.mp hmem with hmem | hmem
            · exact hinp hmem
            · simp only [List.map_cons, List.map_nil, List.mem_singleton] at hmem
              exact hisi hmem
          have hrec0 : ∀ i < sub.nodes.length, ∀ r' t', sub.node i = .recipe r' t' →
              i ∉ pend'.map Prod.snd → i ≠ si →
              ∃ gj, gj < G.nodes.length ∧ G.node gj = sub.node i ∧
                (inEdgeData sub i).Perm (inEdgeData G gj) := by
            intro i hi r' t' hv hinp hisi
            refine hinv.recipeStatus i hi r' t' hv ?_
            rw [List.map_append]
            intro hmem
            rcases List.mem_append.mp hmem with hmem | hmem
            · exact hinp hmem
            · simp only [List.map_cons, List.map_nil, List.mem_singleton] at hmem
              exact hisi hmem
          obtain ⟨sub', pend'', hexp, hinv'⟩ := expandIngredients_inv G hnd hr hbip gi si
            hgi hgirec (G.sortByTier (G.inNeighbors gi)) sub pend' hrem0 hsi hval.symm
            hsinp hinv.valsMem
            (fun p hp => hinv.pendOk p (List.mem_append_left _ hp))
            (by
              have hnd2 := hinv.pendNodup
              rw [List.map_append] at hnd2
              exact (List.nodup_append.mp hnd2).1)
            (fun p hp => hinv.pendFresh p (List.mem_append_left _ hp))
            hinv.edgeDesc hinv.edgeLift hinv.edgeBip hitem0 hrec0 hacc0
          constructor
          · intro r0 hstep
            unfold enumStep at hstep
            rw [hpop] at hstep
            dsimp only at hstep
            rw [if_neg hpe, if_neg hK, hvp] at hstep
            dsimp only at hstep
            simp only [hsn, hlookup] at hstep
            rw [hexp] at hstep
            cases hstep
          · intro st' hstep
            unfold enumStep at hstep
            rw [hpop] at hstep
            dsimp only at hstep
            rw [if_neg hpe, if_neg hK, hvp] at hstep
            dsimp only at hstep
            simp only [hsn, hlookup] at hstep
            rw [hexp] at hstep
            cases hstep
            refine ⟨?_, hc⟩
            intro en hen
            rcases List.mem_append.mp hen with hen | hen
            · exact hrestInv en hen
            · simp only [List.mem_singleton] at hen
              subst hen
              exact hinv'

/-- The fueled enumerator loop only ever returns `some` of a list of
valid solutions when started from an invariant state. -/
theorem enumLoop_post (G : Graph) (hwf : G.WF) (K : Nat) :
    ∀ (fuel : Nat) (st : EState),
    (∀ en ∈ st.queue, EntryInv G en.1 en.2) →
    (∀ s ∈ st.complete, SolPost G s) →
    ∀ r, enumLoop G K fuel st = some r →
    ∃ sols, r = some sols ∧ ∀ s ∈ sols, SolPost G s := by
  intro fuel
  induction fuel with
  | zero => intro st _ _ r h; cases h
  | succ fuel ih =>
    intro st hq hc r h
    rw [enumLoop] at h
    rcases hstep : enumStep G K st with st' | r0
    · rw [hstep] at h
      obtain ⟨hq', hc'⟩ := (enumStep_preserves G hwf K st hq hc).2 st' hstep
      exact ih st' hq' hc' r h
    · rw [hstep] at h
      obtain ⟨out, rfl, hout⟩ := (enumStep_preserves G hwf K st hq hc).1 r0 hstep
      cases h
      exact ⟨out, rfl, hout⟩

/-- `get_crafting_trees` on a well-formed graph: the Rust result is
`None` exactly when the target value is not found, and every returned
solution satisfies the solution postcondition. -/
theorem getCraftingTrees_post (G : Graph) (hwf : G.WF) (target : Node) (K fuel : Nat)
    (r : Option (List Graph)) (h : getCraftingTrees G target K fuel = some r) :
    (r = none ↔ G.getNodeIdx target = none) ∧
    (∀ sols, r = some sols → ∀ s ∈ sols, SolPost G s) := by
  unfold getCraftingTrees at h
  rcases hidx : G.getNodeIdx target with _ | tIdx
  · rw [hidx] at h
    cases h
    exact ⟨⟨fun _ => rfl, fun _ => rfl⟩, by intro sols hh; cases hh⟩
  · rw [hidx] at h
    simp only [Graph.addNode, List.nil_append] at h
    obtain ⟨htl, htv⟩ := G.getNodeIdx_some target tIdx hidx
    have hinit : ∀ en ∈ [((⟨[target], [], G.naturals⟩ : Graph), [(tIdx, 0)])],
        EntryInv G en.1 en.2 := by
      intro en hen
      simp only [List.mem_singleton] at hen
      subst hen
      refine ⟨?_, ?_, by simp, ?_, ?_, ?_, ?_, ?_, ?_⟩
      · intro i hi
        simp only [List.length_singleton] at hi
        have : i = 0 := by omega
        subst this
        have : (⟨[target], [], G.naturals⟩ : Graph).node 0 = target := rfl
        rw [this, ← htv]
        exact G.node_mem tIdx htl
      · intro p hp
        simp only [List.mem_singleton] at hp
        subst hp
        exact ⟨htl, by simp, htv⟩
      · intro p hp
        simp only [List.mem_singleton] at hp
        subst hp
        rfl
      · intro e he; cases he
      · intro e he; cases he
      · intro e he; cases he
      · intro i hi it t hv hnat hinp
        simp only [List.length_singleton] at hi
        have : i = 0 := by omega
        subst this
        exact absurd (by simp) hinp
      · intro i hi rr t hv hinp
        simp only [List.length_singleton] at hi
        have : i = 0 := by omega
        subst this
        exact absurd (by simp) hinp
    obtain ⟨sols, rfl, hsols⟩ := enumLoop_post G hwf K fuel _ hinit
      (by intro s hs; cases hs) r h
    constructor
    · constructor
      · intro hh
        cases hh
      · intro hh
        cases hh
    · intro sols' hh
      cases hh
      exact hsols

/-- An ancestor-cut in a solution forces a directed cycle in the full
graph. -/
theorem cut_gives_cycle (G s : Graph) (hnd : G.nodes.Nodup) (hr : G.edgesInRange)
    (hlift : ∀ e ∈ s.edges, ∃ e' ∈ G.edges,
      G.node e'.src = s.node e.src ∧ G.node e'.tgt = s.node e.tgt)
    (hacy : G.acyclicB = true) (i : Nat) (hcut : cutEvidence s i) : False := by
  obtain ⟨p, ⟨e, he, hsrc, htgt⟩, j, hpath, hval⟩ := hcut
  have hliftPath : ∀ x y : Nat, s.reaches x y → ∀ mx, mx < G.nodes.length →
      G.node mx = s.node x →
      ∃ my, my < G.nodes.length ∧ G.node my = s.node y ∧ G.reaches mx my := by
    intro x y hxy
    induction hxy with
    | refl => exact fun mx hmx hv => ⟨mx, hmx, hv, Relation.ReflTransGen.refl⟩
    | @tail b c hb hbc ihb =>
      intro mx hmx hv
      obtain ⟨mb, hmb, hmbv, hmbr⟩ := ihb mx hmx hv
      obtain ⟨eb, heb, hebs, hebt⟩ := hbc
      obtain ⟨e', he', h1, h2⟩ := hlift eb heb
      have hsame : e'.src = mb := by
        have hv1 : G.node e'.src = G.node mb := by rw [h1, hebs, hmbv]
        have hl1 : e'.src < G.nodes.length := (hr e' he').1
        rw [G.node_eq_getElem e'.src hl1, G.node_eq_getElem mb hmb] at hv1
        exact (List.Nodup.getElem_inj_iff hnd).mp hv1
      refine ⟨e'.tgt, (hr e' he').2, by rw [h2, hebt], ?_⟩
      refine Relation.ReflTransGen.tail hmbr ?_
      exact ⟨e', he', hsame, rfl⟩
  obtain ⟨e0, he0, h0s, h0t⟩ := hlift e he
  have h0tl : e0.tgt < G.nodes.length := (hr e0 he0).2
  have h0sl : e0.src < G.nodes.length := (hr e0 he0).1
  obtain ⟨mj, hmj, hmjv, hmjr⟩ := hliftPath p j hpath e0.tgt h0tl (by rw [h0t, htgt])
  have hsame : mj = e0.src := by
    have hv1 : G.node mj = G.node e0.src := by
      rw [hmjv, hval, h0s, hsrc]
    rw [G.node_eq_getElem mj hmj, G.node_eq_getElem e0.src h0sl] at hv1
    exact (List.Nodup.getElem_inj_iff hnd).mp hv1
  have hreach : G.reaches e0.tgt e0.src := hsame ▸ hmjr
  have hmem : e0.src ∈ reachSet G e0.tgt :=
    reachSet_complete G hr e0.tgt h0tl e0.src hreach
  have hall := (List.all_eq_true.mp hacy) e0 he0
  have hnotmem : e0.src ∉ reachSet G e0.tgt := by simpa using hall
  exact hnotmem hmem

/-- Bridge to the Boolean solution predicates. -/
theorem oneProducerEachB_eq_true (s : Graph)
    (h : ∀ i < s.nodes.length, ∀ it t, s.node i = .item it t → it.natural = false →
      (s.inNeighbors i).length = 1) : oneProducerEachB s = true := by
  unfold oneProducerEachB
  rw [List.all_eq_true]
  intro i hi
  rw [List.mem_range] at hi
  rcases hn : s.node i with ⟨it, t⟩ | ⟨r, t⟩
  · cases hnat : it.natural
    · have := h i hi it t hn hnat
      simp [this]
    · simp [hnat]
  · rfl

theorem recipeIngredientsMatchB_eq_true (G s : Graph) (hnd : G.nodes.Nodup)
    (h : ∀ i < s.nodes.length, ∀ r t, s.node i = .recipe r t →
      ∃ gj, gj < G.nodes.length ∧ G.node gj = s.node i ∧
        (inEdgeData s i).Perm (inEdgeData G gj)) :
    recipeIngredientsMatchB G s = true := by
  unfold recipeIngredientsMatchB
  rw [List.all_eq_true]
  intro i hi
  rw [List.mem_range] at hi
  rcases hn : s.node i with ⟨it, t⟩ | ⟨r, t⟩
  · rfl
  · obtain ⟨gj, hgj, hgjv, hgjp⟩ := h i hi r t hn
    have hidx : G.getNodeIdx (Node.recipe r t) = some gj := by
      rw [← hn, ← hgjv]
      exact Graph.getNodeIdx_self G hnd gj hgj
    dsimp only
    rw [hidx]
    dsimp only
    simp only [decide_eq_true_eq]
    exact hgjp

/-! ### Lemmas for the `from_dataset` construction invariant -/

theorem nodup_of_length_le_one {α : Type} (l : List α) (h : l.length ≤ 1) : l.Nodup :=
  match l, h with
  | [], _ => List.nodup_nil
  | [_], _ => List.nodup_singleton _

theorem pairwise_ne_of_filter_le_one {α β : Type} [DecidableEq β] (f : α → β) :
    ∀ l : List α, (∀ x ∈ l, (l.filter fun y => f y = f x).length ≤ 1) →
      l.Pairwise fun a b => f a ≠ f b := by
  intro l
  induction l with
  | nil => intro _; exact List.Pairwise.nil
  | cons x xs ih =>
    intro h
    constructor
    · intro y hy hxy
      have hx := h x (List.mem_cons_self x xs)
      have hsub : [x, y].Sublist (x :: xs) :=
        List.Sublist.cons₂ x (List.singleton_sublist.mpr hy)
      have hfs := (hsub.filter fun z => f z = f x).length_le
      have : ([x, y].filter fun z => f z = f x) = [x, y] := by
        simp [List.filter_cons, hxy.symm]
      rw [this] at hfs
      simp only [List.length_cons, List.length_nil] at hfs
      omega
    · apply ih
      intro y hy
      have hsub := ((List.sublist_cons_self x xs).filter
        fun z => f z = f y).length_le
      exact le_trans hsub (h y (List.mem_cons_of_mem x hy))

theorem findSome?_amount_isSome (s : String) :
    ∀ l : List (Rat × Item), (l.any fun p => p.2.name = s) = true →
      ∃ w, (l.findSome? fun p => if s = p.2.name then some p.1 else none) = some w := by
  intro l
  induction l with
  | nil => intro h; simp at h
  | cons p l ih =>
    intro h
    rw [List.findSome?_cons]
    by_cases hp : s = p.2.name
    · rw [if_pos hp]; exact ⟨p.1, rfl⟩
    · rw [if_neg hp]
      apply ih
      simp only [List.any_cons, Bool.or_eq_true, decide_eq_true_eq] at h
      rcases h with h | h
      · exact absurd h.symm hp
      · simpa using h

theorem findSome?_amount_nodup :
    ∀ l : List (Rat × Item), ((l.map fun p => p.2.name).Nodup) →
      ∀ p : Rat × Item, p ∈ l →
      (l.findSome? fun q => if p.2.name = q.2.name then some q.1 else none) = some p.1 := by
  intro l
  induction l with
  | nil => intro _ p hp; cases hp
  | cons q l ih =>
    intro hnd p hp
    rw [List.findSome?_cons]
    rcases List.mem_cons.mp hp with rfl | hp'
    · rw [if_pos rfl]
    · simp only [List.map_cons, List.nodup_cons] at hnd
      have hne : p.2.name ≠ q.2.name := by
        intro he
        exact hnd.1 (he ▸ List.mem_map_of_mem (fun r => r.2.name) hp')
      rw [if_neg hne]
      exact ih hnd.2 p hp'

theorem replaceLastWeight_shape (a b : Nat) (w : Rat) :
    ∀ es : List Edge, (es.any fun e => e.src = a ∧ e.tgt = b) = true →
      ∃ l₁ e l₂, es = l₁ ++ e :: l₂ ∧ e.src = a ∧ e.tgt = b ∧
        Graph.replaceLastWeight es a b w = l₁ ++ (⟨a, b, w⟩ : Edge) :: l₂ := by
  intro es
  induction es with
  | nil => intro h; simp at h
  | cons e es ih =>
    intro h
    by_cases h2 : (es.any fun e2 => e2.src = a ∧ e2.tgt = b) = true
    · obtain ⟨l₁, f, l₂, heq, hs, ht, hrw⟩ := ih h2
      refine ⟨e :: l₁, f, l₂, by rw [heq]; rfl, hs, ht, ?_⟩
      simp only [Graph.replaceLastWeight]
      rw [if_pos h2, hrw]
      rfl
    · have he : (e.src = a ∧ e.tgt = b) := by
        simp only [List.any_cons, Bool.or_eq_true, decide_eq_true_eq] at h
        rcases h with h | h
        · exact h
        · exact absurd (by simpa using h) h2
      refine ⟨[], e, es, rfl, he.1, he.2, ?_⟩
      simp only [Graph.replaceLastWeight]
      rw [if_neg h2, if_pos he]
      rfl

theorem updateEdge_nodes (g : Graph) (a b : Nat) (w : Rat) :
    (g.updateEdge a b w).nodes = g.nodes := by
  unfold Graph.updateEdge
  split <;> rfl

theorem updateEdge_naturals (g : Graph) (a b : Nat) (w : Rat) :
    (g.updateEdge a b w).naturals = g.naturals := by
  unfold Graph.updateEdge
  split <;> rfl

theorem updateEdge_shape (g : Graph) (a b : Nat) (w : Rat) :
    ((g.updateEdge a b w).edges = g.edges ++ [⟨a, b, w⟩] ∧
      (g.edges.any fun e => e.src = a ∧ e.tgt = b) = false) ∨
    ∃ l₁ e l₂, g.edges = l₁ ++ e :: l₂ ∧ e.src = a ∧ e.tgt = b ∧
      (g.updateEdge a b w).edges = l₁ ++ (⟨a, b, w⟩ : Edge) :: l₂ := by
  unfold Graph.updateEdge
  by_cases h : (g.edges.any fun e => e.src = a ∧ e.tgt = b) = true
  · right
    rw [if_pos h]
    exact replaceLastWeight_shape a b w g.edges h
  · left
    rw [if_neg h]
    exact ⟨rfl, Bool.eq_false_iff.mpr h⟩

theorem updateEdge_mem (g : Graph) (a b : Nat) (w : Rat) (e : Edge)
    (h : e ∈ (g.updateEdge a b w).edges) : e ∈ g.edges ∨ e = ⟨a, b, w⟩ := by
  rcases updateEdge_shape g a b w with ⟨hs, _⟩ | ⟨l₁, f, l₂, heq, _, _, hs⟩
  · rw [hs] at h
    rcases List.mem_append.mp h with h | h
    · exact .inl h
    · exact .inr (List.mem_singleton.mp h)
  · rw [hs] at h
    rcases List.mem_append.mp h with h | h
    · exact .inl (heq ▸ List.mem_append.mpr (.inl h))
    · rcases List.mem_cons.mp h with h | h
      · exact .inr h
      · exact .inl (heq ▸ List.mem_append.mpr (.inr (List.mem_cons_of_mem f h)))

theorem updateEdge_self_mem (g : Graph) (a b : Nat) (w : Rat) :
    (⟨a, b, w⟩ : Edge) ∈ (g.updateEdge a b w).edges := by
  rcases updateEdge_shape g a b w with ⟨hs, _⟩ | ⟨l₁, f, l₂, _, _, _, hs⟩ <;>
    rw [hs] <;> simp

theorem updateEdge_pair_mono (g : Graph) (a b : Nat) (w : Rat) (s t : Nat)
    (h : ∃ e ∈ g.edges, e.src = s ∧ e.tgt = t) :
    ∃ e ∈ (g.updateEdge a b w).edges, e.src = s ∧ e.tgt = t := by
  obtain ⟨e, he, hs, ht⟩ := h
  rcases updateEdge_shape g a b w with ⟨hsh, _⟩ | ⟨l₁, f, l₂, heq, hfs, hft, hsh⟩
  · exact ⟨e, hsh ▸ List.mem_append.mpr (.inl he), hs, ht⟩
  · rw [heq] at he
    rcases List.mem_append.mp he with h1 | h1
    · exact ⟨e, hsh ▸ List.mem_append.mpr (.inl h1), hs, ht⟩
    · rcases List.mem_cons.mp h1 with rfl | h1
      · exact ⟨⟨a, b, w⟩, hsh ▸ List.mem_append.mpr (.inr (List.mem_cons_self _ _)),
          hfs.symm.trans hs, hft.symm.trans ht⟩
      · exact ⟨e, hsh ▸ List.mem_append.mpr (.inr (List.mem_cons_of_mem _ h1)), hs, ht⟩

theorem updateEdge_filter_src (g : Graph) (a b : Nat) (w : Rat) (j : Nat) (hj : j ≠ a) :
    (g.updateEdge a b w).edges.filter (fun e => e.src = j) =
      g.edges.filter (fun e => e.src = j) := by
  have hnew : (decide ((⟨a, b, w⟩ : Edge).src = j)) = false :=
    decide_eq_false fun hc => hj hc.symm
  rcases updateEdge_shape g a b w with ⟨hs, _⟩ | ⟨l₁, f, l₂, heq, hfs, _, hs⟩
  · rw [hs, List.filter_append]
    simp [List.filter_cons, hnew]
  · have hold : (decide (f.src = j)) = false :=
      decide_eq_false fun hc => hj (hc.symm.trans hfs)
    rw [hs, heq, List.filter_append, List.filter_append, List.filter_cons,
      List.filter_cons, hnew, hold]
    rfl

theorem updateEdge_filter_pair_le (g : Graph) (a b : Nat) (w : Rat) (s t : Nat) :
    ((g.updateEdge a b w).edges.filter fun e => e.src = s ∧ e.tgt = t).length ≤
      max 1 ((g.edges.filter fun e => e.src = s ∧ e.tgt = t).length) := by
  rcases updateEdge_shape g a b w with ⟨hs, hnone⟩ | ⟨l₁, f, l₂, heq, hfs, hft, hs⟩
  · rw [hs, List.filter_append, List.length_append]
    by_cases hp : ((⟨a, b, w⟩ : Edge).src = s ∧ (⟨a, b, w⟩ : Edge).tgt = t)
    · have hp' : a = s ∧ b = t := hp
      have hold : (g.edges.filter fun e => e.src = s ∧ e.tgt = t) = [] := by
        rw [List.filter_eq_nil_iff]
        intro e he
        rw [List.any_eq_false] at hnone
        have h3 := hnone e he
        simp only [decide_eq_true_eq] at h3 ⊢
        intro hc
        exact h3 ⟨hc.1.trans hp'.1.symm, hc.2.trans hp'.2.symm⟩
      rw [hold]
      simp [List.filter_cons, hp'.1, hp'.2]
    · have : (List.filter (fun e => decide (e.src = s ∧ e.tgt = t)) [(⟨a, b, w⟩ : Edge)]) = [] := by
        simp [List.filter_cons, hp]
      rw [this]
      simp
  · rw [hs, heq, List.filter_append, List.filter_append, List.length_append,
      List.length_append, List.filter_cons, List.filter_cons]
    have : (decide ((⟨a, b, w⟩ : Edge).src = s ∧ (⟨a, b, w⟩ : Edge).tgt = t)) =
        (decide (f.src = s ∧ f.tgt = t)) := by
      rw [show (⟨a, b, w⟩ : Edge).src = a from rfl, show (⟨a, b, w⟩ : Edge).tgt = b from rfl,
        ← hfs, ← hft]
    rw [this]
    cases hf : (decide (f.src = s ∧ f.tgt = t)) <;> simp

theorem getRecipeIdxFromName_some (g : Graph) (s : String) (j : Nat)
    (h : g.getRecipeIdxFromName s = some j) :
    j < g.nodes.length ∧ (g.node j).isRecipe = true ∧ (g.node j).name = s := by
  unfold Graph.getRecipeIdxFromName at h
  rw [List.findIdx?_eq_some_iff_getElem] at h
  obtain ⟨hlt, hp, _⟩ := h
  refine ⟨hlt, ?_⟩
  rw [g.node_eq_getElem j hlt]
  simpa using hp

theorem getItemIdxFromName_some (g : Graph) (s : String) (j : Nat)
    (h : g.getItemIdxFromName s = some j) :
    j < g.nodes.length ∧ (g.node j).isItem = true ∧ (g.node j).name = s := by
  unfold Graph.getItemIdxFromName at h
  rw [List.findIdx?_eq_some_iff_getElem] at h
  obtain ⟨hlt, hp, _⟩ := h
  refine ⟨hlt, ?_⟩
  rw [g.node_eq_getElem j hlt]
  simpa using hp

theorem getRecipeIdxFromName_none (g : Graph) (s : String)
    (h : g.getRecipeIdxFromName s = none) :
    ∀ j, j < g.nodes.length → ¬((g.node j).isRecipe = true ∧ (g.node j).name = s) := by
  unfold Graph.getRecipeIdxFromName at h
  rw [List.findIdx?_eq_none_iff] at h
  intro j hj hc
  have := h (g.node j) (g.node_mem j hj)
  simp [hc.1, hc.2] at this

theorem getItemIdxFromName_none (g : Graph) (s : String)
    (h : g.getItemIdxFromName s = none) :
    ∀ j, j < g.nodes.length → ¬((g.node j).isItem = true ∧ (g.node j).name = s) := by
  unfold Graph.getItemIdxFromName at h
  rw [List.findIdx?_eq_none_iff] at h
  intro j hj hc
  have := h (g.node j) (g.node_mem j hj)
  simp [hc.1, hc.2] at this

theorem getItemIdxFromName_isSome_of (g : Graph) (k : Nat) (hk : k < g.nodes.length)
    (hit : (g.node k).isItem = true) :
    (g.getItemIdxFromName (g.node k).name).isSome = true := by
  unfold Graph.getItemIdxFromName
  rw [List.findIdx?_eq_some_of_exists ⟨g.node k, g.node_mem k hk, by simp [hit]⟩]
  rfl

theorem node_grow (g g' : Graph) (h : ∃ ns, g'.nodes = g.nodes ++ ns) (k : Nat)
    (hk : k < g.nodes.length) : g'.node k = g.node k := by
  obtain ⟨ns, hns⟩ := h
  simp only [Graph.node, hns]
  exact List.getD_append _ _ _ _ hk

theorem grow_len (g g' : Graph) (h : ∃ ns, g'.nodes = g.nodes ++ ns) :
    g.nodes.length ≤ g'.nodes.length := by
  obtain ⟨ns, hns⟩ := h
  rw [hns, List.length_append]
  omega

theorem updateEdge_node (g : Graph) (a b : Nat) (w : Rat) (k : Nat) :
    (g.updateEdge a b w).node k = g.node k := by
  unfold Graph.node
  rw [updateEdge_nodes]

theorem StepOut_comp (d : Dataset) (i : Nat) (g g1 g2 : Graph) (o1 o2 : List Nat)
    (h1 : StepOut d i g g1 o1) (h2 : StepOut d i g1 g2 o2)
    (ho : ∀ x ∈ o1, x ∈ o2) : StepOut d i g g2 o2 where
  core := h2.core
  grow := by
    obtain ⟨ns1, hn1⟩ := h1.grow
    obtain ⟨ns2, hn2⟩ := h2.grow
    exact ⟨ns1 ++ ns2, by rw [hn2, hn1, List.append_assoc]⟩
  natKeep := h2.natKeep.trans h1.natKeep
  outRange := h2.outRange
  newPushed := by
    intro k hk1 hk2
    rcases Nat.lt_or_ge k g1.nodes.length with hk | hk
    · exact ho k (h1.newPushed k hk1 hk)
    · exact h2.newPushed k hk hk2
  pairMono := fun s t h => h2.pairMono s t (h1.pairMono s t h)
  srcKeep := fun j hj => (h2.srcKeep j hj).trans (h1.srcKeep j hj)
  edgeSrc := by
    intro e he
    rcases h2.edgeSrc e he with h | h
    · exact h1.edgeSrc e h
    · exact .inr h

theorem GInv_addNode (d : Dataset) (g : Graph) (hg : GInv d g) (n : Node)
    (hvalR : ∀ r t, n = .recipe r t → r ∈ d.recipes)
    (hvalI : ∀ it t, n = .item it t → it ∈ d.items)
    (hfresh : ∀ j, j < g.nodes.length → (g.node j).isItem = n.isItem →
      (g.node j).name ≠ n.name) :
    GInv d (g.addNode n).1 := by
  obtain ⟨⟨un, rg, bp, np⟩, rv, iv, hw⟩ := hg
  have hlen : (g.addNode n).1.nodes.length = g.nodes.length + 1 := by
    rw [Graph.addNode_nodes, List.length_append]
    rfl
  have hnd : ∀ k, k < g.nodes.length → (g.addNode n).1.node k = g.node k := by
    intro k hk
    exact Graph.node_append_lt g.nodes n g.edges g.naturals g.edges g.naturals k hk
  have hself : (g.addNode n).1.node g.nodes.length = n :=
    Graph.node_append_self g.nodes n g.edges g.naturals
  refine ⟨⟨?_, ?_, ?_, ?_⟩, ?_, ?_, ?_⟩
  · intro i hi j hj hne heq
    rw [hlen] at hi hj
    rcases Nat.lt_or_ge i g.nodes.length with hi' | hi'
    · rcases Nat.lt_or_ge j g.nodes.length with hj' | hj'
      · rw [hnd i hi', hnd j hj'] at heq ⊢
        exact un i hi' j hj' hne heq
      · have hj2 : j = g.nodes.length := by omega
        subst hj2
        rw [hnd i hi', hself] at heq ⊢
        exact hfresh i hi' heq
    · have hi2 : i = g.nodes.length := by omega
      rcases Nat.lt_or_ge j g.nodes.length with hj' | hj'
      · subst hi2
        rw [hself, hnd j hj'] at heq ⊢
        exact fun hc => hfresh j hj' heq.symm hc.symm
      · omega
  · intro e he
    obtain ⟨h1, h2⟩ := rg e he
    rw [hlen]
    omega
  · intro e he
    have h1 := bp e he
    have hs := (rg e he).1
    have ht := (rg e he).2
    rw [hnd e.src hs, hnd e.tgt ht]
    exact h1
  · intro e he hrec
    have ht := (rg e he).2
    rw [hnd e.tgt ht] at hrec
    exact np e he hrec
  · intro i hi r t hv
    rw [hlen] at hi
    rcases Nat.lt_or_ge i g.nodes.length with hi' | hi'
    · rw [hnd i hi'] at hv
      exact rv i hi' r t hv
    · have hi2 : i = g.nodes.length := by omega
      subst hi2
      rw [hself] at hv
      exact hvalR r t hv
  · intro i hi it t hv
    rw [hlen] at hi
    rcases Nat.lt_or_ge i g.nodes.length with hi' | hi'
    · rw [hnd i hi'] at hv
      exact iv i hi' it t hv
    · have hi2 : i = g.nodes.length := by omega
      subst hi2
      rw [hself] at hv
      exact hvalI it t hv
  · intro e he r t hv
    have hs := (rg e he).1
    have ht := (rg e he).2
    rw [hnd e.tgt ht] at hv
    rw [hnd e.src hs]
    exact hw e he r t hv

theorem GInv_updateEdge (d : Dataset) (g : Graph) (hg : GInv d g) (a b : Nat)
    (w : Rat) (ha : a < g.nodes.length) (hb : b < g.nodes.length)
    (hai : (g.node a).isItem = true) (hbrec : (g.node b).isRecipe = true)
    (hbw : ∀ rb tb, g.node b = .recipe rb tb →
      rb.ingredients.findSome?
        (fun p => if (g.node a).name = p.2.name then some p.1 else none) = some w) :
    GInv d (g.updateEdge a b w) := by
  obtain ⟨⟨un, rg, bp, np⟩, rv, iv, hw⟩ := hg
  have hlen : (g.updateEdge a b w).nodes.length = g.nodes.length := by
    rw [updateEdge_nodes]
  refine ⟨⟨?_, ?_, ?_, ?_⟩, ?_, ?_, ?_⟩
  · intro i hi j hj hne heq
    rw [hlen] at hi hj
    rw [updateEdge_node, updateEdge_node] at heq ⊢
    exact un i hi j hj hne heq
  · intro e he
    rw [hlen]
    rcases updateEdge_mem g a b w e he with h | rfl
    · exact rg e h
    · exact ⟨ha, hb⟩
  · intro e he
    rcases updateEdge_mem g a b w e he with h | rfl
    · rw [updateEdge_node, updateEdge_node]
      exact bp e h
    · rw [updateEdge_node, updateEdge_node]
      show (g.node a).isItem ≠ (g.node b).isItem
      rw [hai, Node.isItem_eq_not_isRecipe (g.node b), hbrec]
      simp
  · intro e he hrec
    rw [updateEdge_node] at hrec
    have hle := updateEdge_filter_pair_le g a b w e.src e.tgt
    rcases hfe : (g.edges.filter fun e2 => e2.src = e.src ∧ e2.tgt = e.tgt) with _ | ⟨e', rest⟩
    · rw [hfe] at hle
      simpa using hle
    · have he' : e' ∈ g.edges ∧ (e'.src = e.src ∧ e'.tgt = e.tgt) := by
        have : e' ∈ g.edges.filter fun e2 => e2.src = e.src ∧ e2.tgt = e.tgt := by
          rw [hfe]; exact List.mem_cons_self _ _
        have h2 := List.mem_filter.mp this
        exact ⟨h2.1, by simpa using h2.2⟩
      have hrec' : (g.node e'.tgt).isRecipe = true := by
        rw [he'.2.2]; exact hrec
      have h9 := np e' he'.1 hrec'
      rw [he'.2.1, he'.2.2] at h9
      rw [hfe] at h9 hle
      simp only [List.length_cons] at h9 hle
      omega
  · intro i hi r t hv
    rw [hlen] at hi
    rw [updateEdge_node] at hv
    exact rv i hi r t hv
  · intro i hi it t hv
    rw [hlen] at hi
    rw [updateEdge_node] at hv
    exact iv i hi it t hv
  · intro e he r t hv
    rw [updateEdge_node] at hv
    rw [updateEdge_node]
    rcases updateEdge_mem g a b w e he with h | rfl
    · exact hw e h r t hv
    · exact hbw r t hv

theorem GInv_addEdge_out (d : Dataset) (g : Graph) (hg : GInv d g) (a b : Nat)
    (w : Rat) (ha : a < g.nodes.length) (hb : b < g.nodes.length)
    (har : (g.node a).isRecipe = true) (hbi : (g.node b).isItem = true) :
    GInv d (g.addEdge a b w) := by
  obtain ⟨⟨un, rg, bp, np⟩, rv, iv, hw⟩ := hg
  have hmem : ∀ e : Edge, e ∈ (g.addEdge a b w).edges → e ∈ g.edges ∨ e = ⟨a, b, w⟩ := by
    intro e he
    rw [Graph.addEdge_edges] at he
    rcases List.mem_append.mp he with h | h
    · exact .inl h
    · exact .inr (List.mem_singleton.mp h)
  refine ⟨⟨un, ?_, ?_, ?_⟩, rv, iv, ?_⟩
  · intro e he
    rcases hmem e he with h | rfl
    · exact rg e h
    · exact ⟨ha, hb⟩
  · intro e he
    rcases hmem e he with h | rfl
    · exact bp e h
    · show (g.node a).isItem ≠ (g.node b).isItem
      rw [hbi, Node.isItem_eq_not_isRecipe (g.node a), har]
      simp
  · intro e he hrec
    rcases hmem e he with h | rfl
    · have hrec2 : (g.node e.tgt).isRecipe = true := hrec
      have hnomatch : (decide ((⟨a, b, w⟩ : Edge).src = e.src ∧ (⟨a, b, w⟩ : Edge).tgt = e.tgt)) = false := by
        rw [decide_eq_false_iff_not]
        rintro ⟨h1, h2⟩
        have h8 : (g.node e.tgt).isItem = true := by
          rw [← h2]; exact hbi
        rw [Node.isItem_eq_not_isRecipe, hrec2] at h8
        simp at h8
      rw [Graph.addEdge_edges, List.filter_append]
      have : List.filter (fun e2 => decide (e2.src = e.src ∧ e2.tgt = e.tgt)) [(⟨a, b, w⟩ : Edge)] = [] := by
        simp only [List.filter_cons, hnomatch, List.filter_nil]
        rfl
      rw [this, List.append_nil]
      exact np e h hrec
    · exfalso
      have hrec' : (g.node b).isRecipe = true := hrec
      rw [Node.isItem_eq_not_isRecipe, hrec'] at hbi
      simp at hbi
  · intro e he r t hv
    rcases hmem e he with h | rfl
    · exact hw e h r t hv
    · exfalso
      have hv' : g.node b = Node.recipe r t := hv
      rw [hv'] at hbi
      simp [Node.isItem] at hbi

theorem Node.isRecipe_of_isItem_false (n : Node) (h : n.isItem = false) :
    n.isRecipe = true := by
  rw [Node.isItem_eq_not_isRecipe] at h
  simpa using h

theorem buildItemF_eq_reuse (i : Nat) (it : Item) (tier : Nat) (g : Graph)
    (pushed : List Nat) (r : Recipe) (j : Nat)
    (hlook : g.getRecipeIdxFromName r.name = some j) (w0 : Rat)
    (hw0 : (r.ingredients.findSome? fun p =>
      if it.name = p.2.name then some p.1 else none) = some w0) :
    buildItemF i it tier (g, pushed) r = (g.updateEdge i j w0, pushed ++ [j]) := by
  simp only [buildItemF, hlook, hw0]

theorem buildItemF_eq_create (i : Nat) (it : Item) (tier : Nat) (g : Graph)
    (pushed : List Nat) (r : Recipe)
    (hlook : g.getRecipeIdxFromName r.name = none) (w0 : Rat)
    (hw0 : (r.ingredients.findSome? fun p =>
      if it.name = p.2.name then some p.1 else none) = some w0) :
    buildItemF i it tier (g, pushed) r =
      ((g.addNode (.recipe r (tier + 1))).1.updateEdge i g.nodes.length w0,
        pushed ++ [g.nodes.length]) := by
  simp only [buildItemF, hlook, hw0]
  rfl

theorem buildRecipeF_eq_reuse (i : Nat) (tier : Nat) (g : Graph)
    (pushed : List Nat) (p : Rat × Item) (j : Nat)
    (hlook : g.getItemIdxFromName p.2.name = some j) :
    buildRecipeF i tier (g, pushed) p = (g.addEdge i j p.1, pushed ++ [j]) := by
  simp only [buildRecipeF, hlook]

theorem buildRecipeF_eq_create (i : Nat) (tier : Nat) (g : Graph)
    (pushed : List Nat) (p : Rat × Item)
    (hlook : g.getItemIdxFromName p.2.name = none) :
    buildRecipeF i tier (g, pushed) p =
      ((g.addNode (.item p.2 (tier + 1))).1.addEdge i g.nodes.length p.1,
        pushed ++ [g.nodes.length]) := by
  simp only [buildRecipeF, hlook]
  rfl

theorem buildItemStep_eq (d : Dataset) (i : Nat) (it : Item) (tier : Nat) (g : Graph) :
    buildItemStep d i it tier g =
      (d.recipes.filter fun r => r.ingredients.any fun p => p.2.name = it.name).foldl
        (buildItemF i it tier) (g, []) := rfl

theorem buildRecipeStep_eq (i : Nat) (r : Recipe) (tier : Nat) (g : Graph) :
    buildRecipeStep i r tier g = r.results.foldl (buildRecipeF i tier) (g, []) := rfl

theorem buildItemF_spec (d : Dataset) (hd : WFData d) (i : Nat) (it : Item)
    (tier : Nat) (g : Graph) (pushed : List Nat) (r : Recipe)
    (hr : r ∈ d.recipes)
    (hcons : (r.ingredients.any fun p => p.2.name = it.name) = true)
    (hg : GInv d g) (hi : i < g.nodes.length) (hni : g.node i = .item it tier)
    (hp : ∀ j ∈ pushed, j < g.nodes.length) :
    StepOut d i g (buildItemF i it tier (g, pushed) r).1
        (buildItemF i it tier (g, pushed) r).2 ∧
    ∃ rIdx, (buildItemF i it tier (g, pushed) r).2 = pushed ++ [rIdx] ∧
      rIdx < (buildItemF i it tier (g, pushed) r).1.nodes.length ∧
      (∃ t', (buildItemF i it tier (g, pushed) r).1.node rIdx = .recipe r t') ∧
      ∃ e ∈ (buildItemF i it tier (g, pushed) r).1.edges, e.src = i ∧ e.tgt = rIdx := by
  obtain ⟨w0, hw0⟩ := findSome?_amount_isSome it.name r.ingredients hcons
  have hii : (g.node i).isItem = true := by rw [hni]; rfl
  have hiname : (g.node i).name = it.name := by rw [hni]; rfl
  rcases hlook : g.getRecipeIdxFromName r.name with _ | j
  · rw [buildItemF_eq_create i it tier g pushed r hlook w0 hw0]
    have hfresh := getRecipeIdxFromName_none g r.name hlook
    set L := g.nodes.length with hL
    set g1 := (g.addNode (Node.recipe r (tier + 1))).1 with hg1
    have hg1inv : GInv d g1 :=
      GInv_addNode d g hg (.recipe r (tier + 1))
        (fun r' t' heq => by cases heq; exact hr)
        (fun it' t' heq => by cases heq)
        (fun j hj hvar hname => by
          have hvar' : (g.node j).isItem = false := hvar
          exact hfresh j hj ⟨Node.isRecipe_of_isItem_false _ hvar', hname⟩)
    have hg1len : g1.nodes.length = L + 1 := by
      rw [hg1, Graph.addNode_nodes, List.length_append]
      rfl
    have hg1node : ∀ k, k < L → g1.node k = g.node k := fun k hk =>
      Graph.node_append_lt g.nodes _ g.edges g.naturals g.edges g.naturals k hk
    have hg1self : g1.node L = Node.recipe r (tier + 1) :=
      Graph.node_append_self g.nodes _ g.edges g.naturals
    have hii1 : (g1.node i).isItem = true := by rw [hg1node i hi]; exact hii
    have hw0' : ∀ rb tb, g1.node L = .recipe rb tb →
        (rb.ingredients.findSome? fun p =>
          if (g1.node i).name = p.2.name then some p.1 else none) = some w0 := by
      intro rb tb heq
      rw [hg1self] at heq
      cases heq
      rw [hg1node i hi, hiname]
      exact hw0
    have hg2inv : GInv d (g1.updateEdge i L w0) :=
      GInv_updateEdge d g1 hg1inv i L w0 (by omega) (by omega) hii1
        (by rw [hg1self]; rfl) hw0'
    refine ⟨⟨hg2inv, ?_, ?_, ?_, ?_, ?_, ?_, ?_⟩, L, rfl, ?_, ?_, ?_⟩
    · exact ⟨[Node.recipe r (tier + 1)], by rw [updateEdge_nodes, hg1, Graph.addNode_nodes]⟩
    · rw [updateEdge_naturals]
      rfl
    · intro x hx
      rw [updateEdge_nodes, hg1len]
      rcases List.mem_append.mp hx with hx | hx
      · have := hp x hx
        omega
      · rw [List.mem_singleton.mp hx]
        omega
    · intro k hk1 hk2
      rw [updateEdge_nodes, hg1len] at hk2
      have : k = L := by omega
      rw [this]
      exact List.mem_append.mpr (.inr (List.mem_singleton.mpr rfl))
    · intro s t h
      exact updateEdge_pair_mono g1 i L w0 s t h
    · intro j' hj'
      exact updateEdge_filter_src g1 i L w0 j' hj'
    · intro e he
      rcases updateEdge_mem g1 i L w0 e he with h | rfl
      · exact .inl h
      · exact .inr rfl
    · rw [updateEdge_nodes, hg1len]
      omega
    · exact ⟨tier + 1, by rw [updateEdge_node]; exact hg1self⟩
    · exact ⟨⟨i, L, w0⟩, updateEdge_self_mem g1 i L w0, rfl, rfl⟩
  · rw [buildItemF_eq_reuse i it tier g pushed r j hlook w0 hw0]
    obtain ⟨hjlt, hjrec, hjname⟩ := getRecipeIdxFromName_some g r.name j hlook
    obtain ⟨r', t', hval⟩ : ∃ r' t', g.node j = .recipe r' t' := by
      rcases hv : g.node j with ⟨it2, t2⟩ | ⟨r2, t2⟩
      · rw [hv] at hjrec
        simp [Node.isRecipe] at hjrec
      · exact ⟨r2, t2, rfl⟩
    have hr' : r' ∈ d.recipes := hg.recipeVals j hjlt r' t' hval
    have hrname : r'.name = r.name := by
      rw [hval] at hjname
      exact hjname
    have hreq : r' = r := List.inj_on_of_nodup_map hd.2.1 hr' hr hrname
    subst hreq
    have hjw : ∀ rb tb, g.node j = .recipe rb tb →
        (rb.ingredients.findSome? fun p =>
          if (g.node i).name = p.2.name then some p.1 else none) = some w0 := by
      intro rb tb heq
      rw [hval] at heq
      cases heq
      rw [hiname]
      exact hw0
    have hg2 : GInv d (g.updateEdge i j w0) :=
      GInv_updateEdge d g hg i j w0 hi hjlt hii hjrec hjw
    refine ⟨⟨hg2, ⟨[], by rw [updateEdge_nodes, List.append_nil]⟩,
        updateEdge_naturals g i j w0, ?_, ?_, ?_, ?_, ?_⟩, j, rfl, ?_, ?_, ?_⟩
    · intro x hx
      rw [updateEdge_nodes]
      rcases List.mem_append.mp hx with hx | hx
      · exact hp x hx
      · rw [List.mem_singleton.mp hx]
        exact hjlt
    · intro k hk1 hk2
      rw [updateEdge_nodes] at hk2
      omega
    · exact fun s t h => updateEdge_pair_mono g i j w0 s t h
    · exact fun j' hj' => updateEdge_filter_src g i j w0 j' hj'
    · intro e he
      rcases updateEdge_mem g i j w0 e he with h | rfl
      · exact .inl h
      · exact .inr rfl
    · rw [updateEdge_nodes]
      exact hjlt
    · exact ⟨t', by rw [updateEdge_node]; exact hval⟩
    · exact ⟨⟨i, j, w0⟩, updateEdge_self_mem g i j w0, rfl, rfl⟩

theorem buildItemFold_spec (d : Dataset) (hd : WFData d) (i : Nat) (it : Item)
    (tier : Nat) :
    ∀ (rs : List Recipe) (g : Graph) (pushed : List Nat),
      (∀ r ∈ rs, r ∈ d.recipes ∧ (r.ingredients.any fun p => p.2.name = it.name) = true) →
      GInv d g → i < g.nodes.length → g.node i = .item it tier →
      (∀ j ∈ pushed, j < g.nodes.length) →
      StepOut d i g (rs.foldl (buildItemF i it tier) (g, pushed)).1
        (rs.foldl (buildItemF i it tier) (g, pushed)).2 ∧
      (∀ x ∈ pushed, x ∈ (rs.foldl (buildItemF i it tier) (g, pushed)).2) ∧
      ∀ r ∈ rs, ∃ j, j < (rs.foldl (buildItemF i it tier) (g, pushed)).1.nodes.length ∧
        (∃ t', (rs.foldl (buildItemF i it tier) (g, pushed)).1.node j = .recipe r t') ∧
        ∃ e ∈ (rs.foldl (buildItemF i it tier) (g, pushed)).1.edges,
          e.src = i ∧ e.tgt = j := by
  intro rs
  induction rs with
  | nil =>
    intro g pushed hrs hg hi hni hp
    simp only [List.foldl_nil]
    exact ⟨⟨hg, ⟨[], (List.append_nil _).symm⟩, rfl, hp,
        fun k h1 h2 => absurd h2 (Nat.not_lt.mpr h1),
        fun s t h => h, fun _ _ => rfl, fun e he => .inl he⟩,
      fun x hx => hx, fun r hr => absurd hr (List.not_mem_nil r)⟩
  | cons r rs ih =>
    intro g pushed hrs hg hi hni hp
    rw [List.foldl_cons]
    obtain ⟨hso, rIdx, hpush, hlt, hval, hedge⟩ :=
      buildItemF_spec d hd i it tier g pushed r (hrs r (List.mem_cons_self r rs)).1
        (hrs r (List.mem_cons_self r rs)).2 hg hi hni hp
    have hg1 : GInv d (buildItemF i it tier (g, pushed) r).1 := hso.core
    have hi1 : i < (buildItemF i it tier (g, pushed) r).1.nodes.length :=
      Nat.lt_of_lt_of_le hi (grow_len _ _ hso.grow)
    have hni1 : (buildItemF i it tier (g, pushed) r).1.node i = .item it tier := by
      rw [node_grow _ _ hso.grow i hi]
      exact hni
    obtain ⟨hso2, hsub2, hall2⟩ := ih (buildItemF i it tier (g, pushed) r).1
      (buildItemF i it tier (g, pushed) r).2
      (fun r' hr' => hrs r' (List.mem_cons_of_mem r hr')) hg1 hi1 hni1 hso.outRange
    refine ⟨StepOut_comp d i g _ _ _ _ hso hso2 hsub2, ?_, ?_⟩
    · intro x hx
      apply hsub2
      rw [hpush]
      exact List.mem_append.mpr (.inl hx)
    · intro r' hr'
      rcases List.mem_cons.mp hr' with rfl | hr'
      · refine ⟨rIdx, Nat.lt_of_lt_of_le hlt (grow_len _ _ hso2.grow), ?_, ?_⟩
        · obtain ⟨t', ht'⟩ := hval
          exact ⟨t', by rw [node_grow _ _ hso2.grow rIdx hlt]; exact ht'⟩
        · obtain ⟨e, he, hes, het⟩ := hedge
          exact hso2.pairMono i rIdx ⟨e, he, hes, het⟩
      · exact hall2 r' hr'

theorem buildRecipeF_spec (d : Dataset) (i : Nat) (tier : Nat) (g : Graph)
    (pushed : List Nat) (p : Rat × Item) (hpd : p.2 ∈ d.items)
    (hg : GInv d g) (hi : i < g.nodes.length)
    (hirec : (g.node i).isRecipe = true)
    (hp : ∀ j ∈ pushed, j < g.nodes.length) :
    StepOut d i g (buildRecipeF i tier (g, pushed) p).1
        (buildRecipeF i tier (g, pushed) p).2 ∧
    ∃ iIdx, (buildRecipeF i tier (g, pushed) p).2 = pushed ++ [iIdx] ∧
      iIdx < (buildRecipeF i tier (g, pushed) p).1.nodes.length ∧
      ((buildRecipeF i tier (g, pushed) p).1.node iIdx).name = p.2.name ∧
      (buildRecipeF i tier (g, pushed) p).1.edges = g.edges ++ [⟨i, iIdx, p.1⟩] := by
  rcases hlook : g.getItemIdxFromName p.2.name with _ | j
  · rw [buildRecipeF_eq_create i tier g pushed p hlook]
    have hfresh := getItemIdxFromName_none g p.2.name hlook
    set L := g.nodes.length with hL
    set g1 := (g.addNode (Node.item p.2 (tier + 1))).1 with hg1
    have hg1inv : GInv d g1 :=
      GInv_addNode d g hg (.item p.2 (tier + 1))
        (fun r' t' heq => by cases heq)
        (fun it' t' heq => by cases heq; exact hpd)
        (fun j hj hvar hname => by
          have hvar' : (g.node j).isItem = true := hvar
          exact hfresh j hj ⟨hvar', hname⟩)
    have hg1len : g1.nodes.length = L + 1 := by
      rw [hg1, Graph.addNode_nodes, List.length_append]
      rfl
    have hg1node : ∀ k, k < L → g1.node k = g.node k := fun k hk =>
      Graph.node_append_lt g.nodes _ g.edges g.naturals g.edges g.naturals k hk
    have hg1self : g1.node L = Node.item p.2 (tier + 1) :=
      Graph.node_append_self g.nodes _ g.edges g.naturals
    have hg1edges : g1.edges = g.edges := by
      rw [hg1, Graph.addNode_edges]
    have hg2inv : GInv d (g1.addEdge i L p.1) :=
      GInv_addEdge_out d g1 hg1inv i L p.1 (by omega) (by omega)
        (by rw [hg1node i hi]; exact hirec) (by rw [hg1self]; rfl)
    refine ⟨⟨hg2inv, ?_, ?_, ?_, ?_, ?_, ?_, ?_⟩, L, rfl, ?_, ?_, ?_⟩
    · exact ⟨[Node.item p.2 (tier + 1)],
        by rw [Graph.addEdge_nodes, hg1, Graph.addNode_nodes]⟩
    · rfl
    · intro x hx
      rw [Graph.addEdge_nodes, hg1len]
      rcases List.mem_append.mp hx with hx | hx
      · have := hp x hx
        omega
      · rw [List.mem_singleton.mp hx]
        omega
    · intro k hk1 hk2
      rw [Graph.addEdge_nodes, hg1len] at hk2
      have : k = L := by omega
      rw [this]
      exact List.mem_append.mpr (.inr (List.mem_singleton.mpr rfl))
    · intro s t h
      obtain ⟨e, he, hes, het⟩ := h
      refine ⟨e, ?_, hes, het⟩
      rw [Graph.addEdge_edges, hg1edges]
      exact List.mem_append.mpr (.inl he)
    · intro j' hj'
      rw [Graph.addEdge_edges, hg1edges, List.filter_append]
      have hnew : List.filter (fun e => decide (e.src = j'))
          [(⟨i, L, p.1⟩ : Edge)] = [] := by
        simp only [List.filter_cons, List.filter_nil]
        rw [decide_eq_false fun hc : (⟨i, L, p.1⟩ : Edge).src = j' => hj' hc.symm]
        rfl
      rw [hnew, List.append_nil]
    · intro e he
      rw [Graph.addEdge_edges, hg1edges] at he
      rcases List.mem_append.mp he with h | h
      · exact .inl h
      · rw [List.mem_singleton.mp h]
        exact .inr rfl
    · rw [Graph.addEdge_nodes, hg1len]
      omega
    · have : (g1.addEdge i L p.1).node L = g1.node L := rfl
      rw [this, hg1self]
      rfl
    · rw [Graph.addEdge_edges, hg1edges]
  · rw [buildRecipeF_eq_reuse i tier g pushed p j hlook]
    obtain ⟨hjlt, hjit, hjname⟩ := getItemIdxFromName_some g p.2.name j hlook
    have hg2 : GInv d (g.addEdge i j p.1) :=
      GInv_addEdge_out d g hg i j p.1 hi hjlt hirec hjit
    refine ⟨⟨hg2, ⟨[], by rw [Graph.addEdge_nodes, List.append_nil]⟩, rfl,
        ?_, ?_, ?_, ?_, ?_⟩, j, rfl, ?_, ?_, ?_⟩
    · intro x hx
      rw [Graph.addEdge_nodes]
      rcases List.mem_append.mp hx with hx | hx
      · exact hp x hx
      · rw [List.mem_singleton.mp hx]
        exact hjlt
    · intro k hk1 hk2
      rw [Graph.addEdge_nodes] at hk2
      omega
    · intro s t h
      obtain ⟨e, he, hes, het⟩ := h
      exact ⟨e, by rw [Graph.addEdge_edges]; exact List.mem_append.mpr (.inl he),
        hes, het⟩
    · intro j' hj'
      rw [Graph.addEdge_edges, List.filter_append]
      have hnew : List.filter (fun e => decide (e.src = j'))
          [(⟨i, j, p.1⟩ : Edge)] = [] := by
        simp only [List.filter_cons, List.filter_nil]
        rw [decide_eq_false fun hc : (⟨i, j, p.1⟩ : Edge).src = j' => hj' hc.symm]
        rfl
      rw [hnew, List.append_nil]
    · intro e he
      rw [Graph.addEdge_edges] at he
      rcases List.mem_append.mp he with h | h
      · exact .inl h
      · rw [List.mem_singleton.mp h]
        exact .inr rfl
    · rw [Graph.addEdge_nodes]
      exact hjlt
    · exact hjname
    · rw [Graph.addEdge_edges]

theorem buildRecipeFold_spec (d : Dataset) (i : Nat) (tier : Nat) :
    ∀ (ps : List (Rat × Item)) (g : Graph) (pushed : List Nat),
      (∀ p ∈ ps, p.2 ∈ d.items) →
      GInv d g → i < g.nodes.length → (g.node i).isRecipe = true →
      (∀ j ∈ pushed, j < g.nodes.length) →
      StepOut d i g (ps.foldl (buildRecipeF i tier) (g, pushed)).1
        (ps.foldl (buildRecipeF i tier) (g, pushed)).2 ∧
      (∀ x ∈ pushed, x ∈ (ps.foldl (buildRecipeF i tier) (g, pushed)).2) ∧
      ((ps.foldl (buildRecipeF i tier) (g, pushed)).1.edges.filter
          (fun e => e.src = i)).map
          (fun e => (((ps.foldl (buildRecipeF i tier) (g, pushed)).1.node e.tgt).name, e.w)) =
        (g.edges.filter (fun e => e.src = i)).map
          (fun e => ((g.node e.tgt).name, e.w)) ++ ps.map (fun p => (p.2.name, p.1)) := by
  intro ps
  induction ps with
  | nil =>
    intro g pushed hps hg hi hirec hp
    simp only [List.foldl_nil, List.map_nil, List.append_nil]
    exact ⟨⟨hg, ⟨[], (List.append_nil _).symm⟩, rfl, hp,
        fun k h1 h2 => absurd h2 (Nat.not_lt.mpr h1),
        fun s t h => h, fun _ _ => rfl, fun e he => .inl he⟩,
      fun x hx => hx, trivial⟩
  | cons p ps ih =>
    intro g pushed hps hg hi hirec hp
    rw [List.foldl_cons]
    obtain ⟨hso, iIdx, hpush, hlt, hname, hedges⟩ :=
      buildRecipeF_spec d i tier g pushed p (hps p (List.mem_cons_self p ps))
        hg hi hirec hp
    have hg1 : GInv d (buildRecipeF i tier (g, pushed) p).1 := hso.core
    have hi1 : i < (buildRecipeF i tier (g, pushed) p).1.nodes.length :=
      Nat.lt_of_lt_of_le hi (grow_len _ _ hso.grow)
    have hirec1 : ((buildRecipeF i tier (g, pushed) p).1.node i).isRecipe = true := by
      rw [node_grow _ _ hso.grow i hi]
      exact hirec
    obtain ⟨hso2, hsub2, hmap2⟩ := ih (buildRecipeF i tier (g, pushed) p).1
      (buildRecipeF i tier (g, pushed) p).2
      (fun p' hp' => hps p' (List.mem_cons_of_mem p hp')) hg1 hi1 hirec1 hso.outRange
    refine ⟨StepOut_comp d i g _ _ _ _ hso hso2 hsub2, ?_, ?_⟩
    · intro x hx
      apply hsub2
      rw [hpush]
      exact List.mem_append.mpr (.inl hx)
    · rw [hmap2]
      have hmid : ((buildRecipeF i tier (g, pushed) p).1.edges.filter
            (fun e => e.src = i)).map
            (fun e => (((buildRecipeF i tier (g, pushed) p).1.node e.tgt).name, e.w)) =
          (g.edges.filter (fun e => e.src = i)).map
            (fun e => ((g.node e.tgt).name, e.w)) ++ [(p.2.name, p.1)] := by
        rw [hedges, List.filter_append]
        have hnew : List.filter (fun e => decide (e.src = i))
            [(⟨i, iIdx, p.1⟩ : Edge)] = [⟨i, iIdx, p.1⟩] := by
          simp
        rw [hnew, List.map_append]
        congr 1
        · apply List.map_congr_left
          intro e he
          have heg : e ∈ g.edges := (List.mem_filter.mp he).1
          have htgt : e.tgt < g.nodes.length := (hg.core.range e heg).2
          rw [node_grow _ _ hso.grow e.tgt htgt]
        · simp only [List.map_cons, List.map_nil]
          rw [hname]
      rw [hmid, List.append_assoc]
      rfl

theorem BInv_update (d : Dataset) (st : BState) (hinv : BInv d st) (i : Nat)
    (rest : List Nat) (hs : st.stack = i :: rest) (hv : i ∉ st.visited)
    (hi : i < st.g.nodes.length)
    (g' : Graph) (out : List Nat) (hso : StepOut d i st.g g' out)
    (hitem : ∀ it t, g'.node i = .item it t →
      ∀ r ∈ d.recipes, (r.ingredients.any fun p => p.2.name = it.name) = true →
        ∃ j, j < g'.nodes.length ∧ (∃ t', g'.node j = .recipe r t') ∧
          ∃ e ∈ g'.edges, e.src = i ∧ e.tgt = j)
    (hrec : ∀ r t, g'.node i = .recipe r t →
      ((g'.edges.filter fun e => e.src = i).map fun e => ((g'.node e.tgt).name, e.w)) =
        r.results.map fun p => (p.2.name, p.1)) :
    BInv d ⟨g', out.reverse ++ rest, i :: st.visited⟩ := by
  obtain ⟨core, natsEq, nats, cover, stackRange, visRange, itemDone, recipeDone,
    recipeTodo⟩ := hinv
  have hlen := grow_len _ _ hso.grow
  have hnode : ∀ k, k < st.g.nodes.length → g'.node k = st.g.node k :=
    fun k hk => node_grow _ _ hso.grow k hk
  refine ⟨hso.core, hso.natKeep.trans natsEq, ?_, ?_, ?_, ?_, ?_, ?_, ?_⟩
  · intro n hn2
    obtain ⟨ns, hns⟩ := hso.grow
    rw [hns]
    exact List.mem_append.mpr (.inl (nats n hn2))
  · intro k hk
    rcases Nat.lt_or_ge k st.g.nodes.length with hk2 | hk2
    · rcases cover k hk2 with h2 | h2
      · rw [hs] at h2
        rcases List.mem_cons.mp h2 with rfl | h2
        · exact .inr (List.mem_cons_self k _)
        · exact .inl (List.mem_append.mpr (.inr h2))
      · exact .inr (List.mem_cons_of_mem i h2)
    · exact .inl (List.mem_append.mpr
        (.inl (List.mem_reverse.mpr (hso.newPushed k hk2 hk))))
  · intro x hx
    rcases List.mem_append.mp hx with hx | hx
    · exact hso.outRange x (List.mem_reverse.mp hx)
    · exact Nat.lt_of_lt_of_le
        (stackRange x (by rw [hs]; exact List.mem_cons_of_mem i hx)) hlen
  · intro x hx
    rcases List.mem_cons.mp hx with rfl | hx
    · exact Nat.lt_of_lt_of_le hi hlen
    · exact Nat.lt_of_lt_of_le (visRange x hx) hlen
  · intro k hk it t hkv r hr hcons
    rcases List.mem_cons.mp hk with rfl | hk
    · exact hitem it t hkv r hr hcons
    · have hklt := visRange k hk
      rw [hnode k hklt] at hkv
      obtain ⟨j, hj, ⟨t', hjv⟩, he⟩ := itemDone k hk it t hkv r hr hcons
      exact ⟨j, Nat.lt_of_lt_of_le hj hlen, ⟨t', by rw [hnode j hj]; exact hjv⟩,
        hso.pairMono k j he⟩
  · intro j hj r t hjv
    rcases List.mem_cons.mp hj with rfl | hj
    · exact hrec r t hjv
    · have hjlt := visRange j hj
      have hne : j ≠ i := fun heq => hv (heq ▸ hj)
      rw [hso.srcKeep j hne]
      have hmapeq : ((st.g.edges.filter fun e => e.src = j).map
            fun e => ((g'.node e.tgt).name, e.w)) =
          (st.g.edges.filter fun e => e.src = j).map
            fun e => ((st.g.node e.tgt).name, e.w) := by
        apply List.map_congr_left
        intro e he
        have heg := (List.mem_filter.mp he).1
        rw [hnode e.tgt (core.core.range e heg).2]
      rw [hmapeq]
      rw [hnode j hjlt] at hjv
      exact recipeDone j hj r t hjv
  · intro j hj hnin r t hjv
    have hji : j ≠ i := fun heq => hnin (by rw [heq]; exact List.mem_cons_self i _)
    rcases Nat.lt_or_ge j st.g.nodes.length with hjlt | hjge
    · rw [hso.srcKeep j hji]
      rw [hnode j hjlt] at hjv
      exact recipeTodo j hjlt (fun hjin => hnin (List.mem_cons_of_mem i hjin)) r t hjv
    · rw [List.filter_eq_nil_iff]
      intro e he
      simp only [decide_eq_true_eq]
      intro heq
      rcases hso.edgeSrc e he with h2 | h2
      · have := (core.core.range e h2).1
        omega
      · rw [h2] at heq
        omega

theorem buildStep_none (d : Dataset) (st : BState) (h : buildStep d st = none) :
    st.stack = [] := by
  unfold buildStep at h
  rcases hs : st.stack with _ | ⟨i, rest⟩
  · rfl
  · exfalso
    rw [hs] at h
    dsimp only at h
    by_cases hv : i ∈ st.visited
    · rw [if_pos hv] at h
      cases h
    · rw [if_neg hv] at h
      rcases hn : st.g.node i with ⟨it, t⟩ | ⟨r, t⟩
      · rw [hn] at h
        dsimp only at h
        rcases hbs : buildItemStep d i it t st.g with ⟨g2, pushed⟩
        rw [hbs] at h
        cases h
      · rw [hn] at h
        dsimp only at h
        rcases hbs : buildRecipeStep i r t st.g with ⟨g2, pushed⟩
        rw [hbs] at h
        cases h

theorem buildStep_inv (d : Dataset) (hd : WFData d) (st st' : BState)
    (h : buildStep d st = some st') (hinv : BInv d st) : BInv d st' := by
  unfold buildStep at h
  rcases hs : st.stack with _ | ⟨i, rest⟩
  · rw [hs] at h
    cases h
  · rw [hs] at h
    dsimp only at h
    by_cases hv : i ∈ st.visited
    · rw [if_pos hv] at h
      injection h with h
      subst h
      obtain ⟨core, natsEq, nats, cover, stackRange, visRange, itemDone, recipeDone,
        recipeTodo⟩ := hinv
      refine ⟨core, natsEq, nats, ?_, ?_, visRange, itemDone, recipeDone, recipeTodo⟩
      · intro k hk
        rcases cover k hk with hk2 | hk2
        · rw [hs] at hk2
          rcases List.mem_cons.mp hk2 with rfl | hk2
          · exact .inr hv
          · exact .inl hk2
        · exact .inr hk2
      · intro x hx
        exact stackRange x (by rw [hs]; exact List.mem_cons_of_mem i hx)
    · rw [if_neg hv] at h
      have hi : i < st.g.nodes.length :=
        hinv.stackRange i (by rw [hs]; exact List.mem_cons_self i rest)
      rcases hn : st.g.node i with ⟨it, t⟩ | ⟨r, t⟩
      · rw [hn] at h
        dsimp only at h
        rw [buildItemStep_eq] at h
        set F := (d.recipes.filter fun r =>
          r.ingredients.any fun p => p.2.name = it.name).foldl
            (buildItemF i it t) (st.g, []) with hF
        have h' : some (BState.mk F.1 (F.2.reverse ++ rest) (i :: st.visited)) =
            some st' := h
        injection h' with h'
        subst h'
        obtain ⟨hso, hsub, hall⟩ := buildItemFold_spec d hd i it t
          (d.recipes.filter fun r => r.ingredients.any fun p => p.2.name = it.name)
          st.g []
          (fun r' hr' => ⟨(List.mem_filter.mp hr').1,
            by simpa using (List.mem_filter.mp hr').2⟩)
          hinv.core hi hn (fun j hj => absurd hj (List.not_mem_nil j))
        exact BInv_update d st hinv i rest hs hv hi F.1 F.2 hso
          (fun it' t' hkv r' hr' hcons' => by
            rw [node_grow _ _ hso.grow i hi, hn] at hkv
            injection hkv with h1 h2
            subst h1
            exact hall r' (List.mem_filter.mpr ⟨hr', by simpa using hcons'⟩))
          (fun r' t' hkv => by
            rw [node_grow _ _ hso.grow i hi, hn] at hkv
            cases hkv)
      · rw [hn] at h
        dsimp only at h
        rw [buildRecipeStep_eq] at h
        set F := r.results.foldl (buildRecipeF i t) (st.g, []) with hF
        have h' : some (BState.mk F.1 (F.2.reverse ++ rest) (i :: st.visited)) =
            some st' := h
        injection h' with h'
        subst h'
        have hrd : r ∈ d.recipes := hinv.core.recipeVals i hi r t hn
        have hirec : (st.g.node i).isRecipe = true := by rw [hn]; rfl
        obtain ⟨hso, hsub, hmap⟩ := buildRecipeFold_spec d i t r.results st.g []
          (fun p hp => hd.2.2.2 r hrd p (List.mem_append.mpr (.inr hp)))
          hinv.core hi hirec (fun j hj => absurd hj (List.not_mem_nil j))
        have hpre : st.g.edges.filter (fun e => e.src = i) = [] :=
          hinv.recipeTodo i hi hv r t hn
        exact BInv_update d st hinv i rest hs hv hi F.1 F.2 hso
          (fun it' t' hkv _ _ _ => by
            rw [node_grow _ _ hso.grow i hi, hn] at hkv
            cases hkv)
          (fun r' t' hkv => by
            rw [node_grow _ _ hso.grow i hi, hn] at hkv
            injection hkv with h1 h2
            subst h1
            rw [hmap, hpre]
            rfl)

theorem buildLoop_post (d : Dataset) (hd : WFData d) :
    ∀ (fuel : Nat) (st : BState) (g : Graph), buildLoop d fuel st = some g →
      BInv d st → BuildPost d g := by
  intro fuel
  induction fuel with
  | zero =>
    intro st g h hinv
    cases h
  | succ fuel ih =>
    intro st g h hinv
    rw [buildLoop] at h
    rcases hstep : buildStep d st with _ | st'
    · rw [hstep] at h
      injection h with h
      subst h
      have hempty := buildStep_none d st hstep
      obtain ⟨core, natsEq, nats, cover, stackRange, visRange, itemDone, recipeDone,
        recipeTodo⟩ := hinv
      have hallvis : ∀ k, k < st.g.nodes.length → k ∈ st.visited := by
        intro k hk
        rcases cover k hk with h2 | h2
        · rw [hempty] at h2
          cases h2
        · exact h2
      refine ⟨core, natsEq, nats, ?_, ?_⟩
      · intro j hj r t hjv
        exact recipeDone j (hallvis j hj) r t hjv
      · intro k hk it t hkv r hr hcons
        exact itemDone k (hallvis k hk) it t hkv r hr hcons
    · rw [hstep] at h
      exact ih st' g h (buildStep_inv d hd st st' hstep hinv)

theorem buildSeed_eq (d : Dataset) :
    buildSeed d = d.naturalItems.foldl seedF ⟨⟨[], [], d.naturalItems⟩, [], []⟩ := rfl

theorem buildSeedFold_inv (d : Dataset) :
    ∀ (ns : List Item) (st : BState),
      (∀ n ∈ ns, n ∈ d.items) →
      (ns.map Item.name).Nodup →
      (∀ n ∈ ns, ∀ j, j < st.g.nodes.length → (st.g.node j).isItem = true →
        (st.g.node j).name ≠ n.name) →
      st.g.edges = [] → st.visited = [] →
      GInv d st.g →
      (∀ i, i < st.g.nodes.length → i ∈ st.stack) →
      (∀ i ∈ st.stack, i < st.g.nodes.length) →
      st.g.naturals = d.naturalItems →
      (∀ n ∈ d.naturalItems, n ∈ ns ∨ Node.item n 0 ∈ st.g.nodes) →
      BInv d (ns.foldl seedF st) := by
  intro ns
  induction ns with
  | nil =>
    intro st hitems hnd hfresh hedges hvis hg hcov hrange hnat hseeded
    rw [List.foldl_nil]
    refine ⟨hg, hnat, ?_, fun k hk => .inl (hcov k hk), hrange,
      ?_, ?_, ?_, ?_⟩
    · intro n hn2
      rcases hseeded n hn2 with h2 | h2
      · cases h2
      · exact h2
    · intro x hx
      rw [hvis] at hx
      cases hx
    · intro k hk
      rw [hvis] at hk
      cases hk
    · intro j hj
      rw [hvis] at hj
      cases hj
    · intro j hj hnin r t hjv
      rw [hedges]
      rfl
  | cons n ns ih =>
    intro st hitems hnd hfresh hedges hvis hg hcov hrange hnat hseeded
    rw [List.foldl_cons]
    have hlen1 : (seedF st n).g.nodes.length = st.g.nodes.length + 1 := by
      show ((st.g.addNode (Node.item n 0)).1).nodes.length = _
      rw [Graph.addNode_nodes, List.length_append]
      rfl
    have hnode1 : ∀ k, k < st.g.nodes.length → (seedF st n).g.node k = st.g.node k :=
      fun k hk =>
        Graph.node_append_lt st.g.nodes _ st.g.edges st.g.naturals st.g.edges
          st.g.naturals k hk
    have hself1 : (seedF st n).g.node st.g.nodes.length = Node.item n 0 :=
      Graph.node_append_self st.g.nodes _ st.g.edges st.g.naturals
    simp only [List.map_cons, List.nodup_cons] at hnd
    apply ih (seedF st n)
    · exact fun n' hn' => hitems n' (List.mem_cons_of_mem n hn')
    · exact hnd.2
    · intro n' hn' j hj hjit
      rw [hlen1] at hj
      rcases Nat.lt_or_ge j st.g.nodes.length with hj2 | hj2
      · rw [hnode1 j hj2] at hjit ⊢
        exact hfresh n' (List.mem_cons_of_mem n hn') j hj2 hjit
      · have hj3 : j = st.g.nodes.length := by omega
        subst hj3
        rw [hself1]
        intro hc
        have hc' : n.name = n'.name := hc
        exact hnd.1 (by rw [hc']; exact List.mem_map_of_mem Item.name hn')
    · show ((st.g.addNode (Node.item n 0)).1).edges = []
      rw [Graph.addNode_edges]
      exact hedges
    · exact hvis
    · exact GInv_addNode d st.g hg (.item n 0)
        (fun r' t' heq => by cases heq)
        (fun it' t' heq => by cases heq; exact hitems n (List.mem_cons_self n ns))
        (fun j hj hvar hname => by
          have hvar' : (st.g.node j).isItem = true := hvar
          exact hfresh n (List.mem_cons_self n ns) j hj hvar' hname)
    · intro k hk
      rw [hlen1] at hk
      rcases Nat.lt_or_ge k st.g.nodes.length with hk2 | hk2
      · exact List.mem_cons_of_mem _ (hcov k hk2)
      · have hk3 : k = st.g.nodes.length := by omega
        subst hk3
        exact List.mem_cons_self _ _
    · intro x hx
      rw [hlen1]
      rcases List.mem_cons.mp hx with rfl | hx
      · show st.g.nodes.length < st.g.nodes.length + 1
        omega
      · have := hrange x hx
        omega
    · show ((st.g.addNode (Node.item n 0)).1).naturals = d.naturalItems
      exact hnat
    · intro n' hn'
      rcases hseeded n' hn' with h2 | h2
      · rcases List.mem_cons.mp h2 with rfl | h2
        · right
          show Node.item n' 0 ∈ st.g.nodes ++ [Node.item n' 0]
          exact List.mem_append.mpr (.inr (List.mem_singleton.mpr rfl))
        · exact .inl h2
      · right
        show Node.item n' 0 ∈ st.g.nodes ++ [Node.item n 0]
        exact List.mem_append.mpr (.inl h2)

theorem buildSeed_inv (d : Dataset) (hd : WFData d) : BInv d (buildSeed d) := by
  rw [buildSeed_eq]
  apply buildSeedFold_inv d d.naturalItems ⟨⟨[], [], d.naturalItems⟩, [], []⟩
  · intro n hn
    exact (List.mem_filter.mp hn).1
  · exact ((List.filter_sublist d.items).map Item.name).nodup hd.1
  · intro n hn j hj
    simp at hj
  · rfl
  · rfl
  · refine ⟨⟨?_, ?_, ?_, ?_⟩, ?_, ?_, ?_⟩
    · intro i hi
      simp at hi
    · intro e he
      cases he
    · intro e he
      cases he
    · intro e he
      cases he
    · intro i hi
      simp at hi
    · intro i hi
      simp at hi
    · intro e he
      cases he
  · intro i hi
    simp at hi
  · intro i hi
    cases hi
  · rfl
  · intro n hn
    exact .inl hn

theorem buildGraph_post (d : Dataset) (hd : WFData d) (fuel : Nat) (g : Graph)
    (h : buildGraph d fuel = some g) : BuildPost d g :=
  buildLoop_post d hd fuel (buildSeed d) g h (buildSeed_inv d hd)

/-! ### The `adjust_tiers` pass only retiers nodes -/

theorem Node.withTier_withTier (n : Node) (a b : Nat) :
    (n.withTier a).withTier b = n.withTier b := by
  cases n <;> rfl

theorem Node.withTier_tier_self (n : Node) : n.withTier n.tier = n := by
  cases n <;> rfl

theorem Skel_refl (g : Graph) : Skel g g :=
  ⟨(Eq.refl _), (Eq.refl _), (Eq.refl _),
    fun k _ => ⟨(g.node k).tier, (Node.withTier_tier_self _).symm⟩⟩

theorem Skel_comp (g g1 g2 : Graph) (h1 : Skel g g1) (h2 : Skel g1 g2) :
    Skel g g2 := by
  obtain ⟨e1, n1, l1, t1⟩ := h1
  obtain ⟨e2, n2, l2, t2⟩ := h2
  refine ⟨e2.trans e1, n2.trans n1, l2.trans l1, ?_⟩
  intro k hk
  obtain ⟨ta, ha⟩ := t1 k hk
  obtain ⟨tb, hb⟩ := t2 k (by omega)
  exact ⟨tb, by rw [hb, ha, Node.withTier_withTier]⟩

theorem Skel_setTier (g : Graph) (i t0 : Nat) : Skel g (g.setTier i t0) := by
  refine ⟨(Eq.refl _), (Eq.refl _), Graph.setTier_nodesLength g i t0, ?_⟩
  intro k hk
  by_cases hik : i = k
  · subst hik
    exact ⟨t0, Graph.node_setTier_self g i t0 hk⟩
  · exact ⟨(g.node k).tier,
      by rw [Graph.node_setTier_ne g i k t0 hik, Node.withTier_tier_self]⟩

theorem adjustStep_skeleton (st st' : AState) (h : adjustStep st = some st') :
    Skel st.g st'.g := by
  unfold adjustStep at h
  split at h
  · cases h
  · split at h
    · injection h with h
      subst h
      exact Skel_refl st.g
    · split at h
      · injection h with h
        subst h
        dsimp only
        split
        · exact Skel_comp _ _ _ (Skel_setTier st.g _ _) (Skel_setTier _ _ _)
        · exact Skel_setTier st.g _ _
      · split at h
        · split at h
          · injection h with h
            subst h
            exact Skel_refl st.g
          · injection h with h
            subst h
            exact Skel_setTier st.g _ _
        · injection h with h
          subst h
          exact Skel_setTier st.g _ _

theorem adjustLoop_skeleton :
    ∀ (fuel : Nat) (st : AState) (g' : Graph),
      adjustLoop fuel st = some g' → Skel st.g g' := by
  intro fuel
  induction fuel with
  | zero =>
    intro st g' h
    cases h
  | succ fuel ih =>
    intro st g' h
    rw [adjustLoop] at h
    rcases hstep : adjustStep st with _ | st2
    · rw [hstep] at h
      injection h with h
      subst h
      exact Skel_refl st.g
    · rw [hstep] at h
      exact Skel_comp _ _ _ (adjustStep_skeleton st st2 hstep) (ih st2 g' h)

theorem adjustSeedFold_spec (g : Graph) :
    ∀ (ns : List Item) (st : AState), st.g = g →
      (∀ n ∈ ns, Node.item n 0 ∈ g.nodes) →
      (ns.foldl seedA st).g = g ∧
      (ns.foldl seedA st).visited = st.visited ∧
      (∀ k ∈ (ns.foldl seedA st).queue, k ∈ st.queue ∨
        ∃ n ∈ ns, g.getNodeIdx (.item n 0) = some k) ∧
      (∀ n ∈ ns, ∀ k, g.getNodeIdx (.item n 0) = some k →
        k ∈ (ns.foldl seedA st).queue) ∧
      (∀ k ∈ st.queue, k ∈ (ns.foldl seedA st).queue) := by
  intro ns
  induction ns with
  | nil =>
    intro st hst hmem
    rw [List.foldl_nil]
    exact ⟨hst, (Eq.refl _), fun k hk => .inl hk,
      fun n hn => absurd hn (List.not_mem_nil n), fun k hk => hk⟩
  | cons n ns ih =>
    intro st hst hmem
    rw [List.foldl_cons]
    have hin : Node.item n 0 ∈ g.nodes := hmem n (List.mem_cons_self n ns)
    obtain ⟨idx, hidx⟩ := Option.isSome_iff_exists.mp
      (Graph.getNodeIdx_isSome_of_mem g _ hin)
    have hseed : seedA st n = { st with queue := st.queue ++ [idx] } := by
      unfold seedA
      rw [hst, hidx]
    rw [hseed]
    obtain ⟨h1, h2, h3, h4, h5⟩ := ih { st with queue := st.queue ++ [idx] } hst
      (fun n' hn' => hmem n' (List.mem_cons_of_mem n hn'))
    refine ⟨h1, h2, ?_, ?_, ?_⟩
    · intro k hk
      rcases h3 k hk with hk2 | hk2
      · rcases List.mem_append.mp hk2 with hk3 | hk3
        · exact .inl hk3
        · right
          refine ⟨n, List.mem_cons_self n ns, ?_⟩
          rw [List.mem_singleton.mp hk3]
          exact hidx
      · obtain ⟨n', hn', hl⟩ := hk2
        exact .inr ⟨n', List.mem_cons_of_mem n hn', hl⟩
    · intro n' hn' k hk
      rcases List.mem_cons.mp hn' with rfl | hn'
      · have hkidx : k = idx := by
          rw [hk] at hidx
          exact Option.some.inj hidx
        subst hkidx
        exact h5 k (List.mem_append.mpr (.inr (List.mem_singleton.mpr (Eq.refl _))))
      · exact h4 n' hn' k hk
    · intro k hk
      exact h5 k (List.mem_append.mpr (.inl hk))

theorem adjustSeed_eq (g : Graph) :
    adjustSeed g = g.naturals.foldl seedA ⟨g, [], []⟩ := rfl

theorem adjustSeed_spec (g : Graph)
    (hnats : ∀ n ∈ g.naturals, Node.item n 0 ∈ g.nodes) :
    (adjustSeed g).g = g ∧ (adjustSeed g).visited = [] ∧
    (∀ k ∈ (adjustSeed g).queue, ∃ n ∈ g.naturals,
      g.getNodeIdx (.item n 0) = some k) ∧
    (∀ n ∈ g.naturals, ∀ k, g.getNodeIdx (.item n 0) = some k →
      k ∈ (adjustSeed g).queue) := by
  rw [adjustSeed_eq]
  obtain ⟨h1, h2, h3, h4, _⟩ := adjustSeedFold_spec g g.naturals ⟨g, [], []⟩
    (Eq.refl _) hnats
  refine ⟨h1, h2, ?_, h4⟩
  intro k hk
  rcases h3 k hk with hk2 | hk2
  · cases hk2
  · exact hk2

theorem adjustTiers_skeleton (g : Graph)
    (hnats : ∀ n ∈ g.naturals, Node.item n 0 ∈ g.nodes) (fuel : Nat) (g' : Graph)
    (h : adjustTiers g fuel = some g') : Skel g g' := by
  unfold adjustTiers at h
  have hseed := (adjustSeed_spec g hnats).1
  have hloop := adjustLoop_skeleton fuel (adjustSeed g) g' h
  rw [hseed] at hloop
  exact hloop

theorem Skel.nodeIsItem (g g' : Graph) (hsk : Skel g g') (k : Nat)
    (hk : k < g.nodes.length) : (g'.node k).isItem = (g.node k).isItem := by
  obtain ⟨t2, h2⟩ := hsk.2.2.2 k hk
  rw [h2, Node.withTier_isItem]

theorem Skel.nodeIsRecipe (g g' : Graph) (hsk : Skel g g') (k : Nat)
    (hk : k < g.nodes.length) : (g'.node k).isRecipe = (g.node k).isRecipe := by
  obtain ⟨t2, h2⟩ := hsk.2.2.2 k hk
  rw [h2, Node.withTier_isRecipe]

theorem Skel.nodeName (g g' : Graph) (hsk : Skel g g') (k : Nat)
    (hk : k < g.nodes.length) : (g'.node k).name = (g.node k).name := by
  obtain ⟨t2, h2⟩ := hsk.2.2.2 k hk
  rw [h2, Node.withTier_name]

theorem Skel.recipe_fwd (g g' : Graph) (hsk : Skel g g') (k : Nat)
    (hk : k < g.nodes.length) (r : Recipe) (t : Nat) (h : g.node k = .recipe r t) :
    ∃ t', g'.node k = .recipe r t' := by
  obtain ⟨t2, h2⟩ := hsk.2.2.2 k hk
  rw [h2, h]
  exact ⟨t2, Eq.refl _⟩

theorem Skel.item_fwd (g g' : Graph) (hsk : Skel g g') (k : Nat)
    (hk : k < g.nodes.length) (it : Item) (t : Nat) (h : g.node k = .item it t) :
    ∃ t', g'.node k = .item it t' := by
  obtain ⟨t2, h2⟩ := hsk.2.2.2 k hk
  rw [h2, h]
  exact ⟨t2, Eq.refl _⟩

theorem Skel.recipe_bwd (g g' : Graph) (hsk : Skel g g') (k : Nat)
    (hk : k < g.nodes.length) (r : Recipe) (t : Nat) (h : g'.node k = .recipe r t) :
    ∃ t0, g.node k = .recipe r t0 := by
  obtain ⟨t2, h2⟩ := hsk.2.2.2 k hk
  rcases hg : g.node k with ⟨it0, t0⟩ | ⟨r0, t0⟩
  · rw [hg] at h2
    rw [h2] at h
    cases h
  · rw [hg] at h2
    rw [h2] at h
    injection h with e1 e2
    subst e1
    exact ⟨t0, Eq.refl _⟩

theorem Skel.item_bwd (g g' : Graph) (hsk : Skel g g') (k : Nat)
    (hk : k < g.nodes.length) (it : Item) (t : Nat) (h : g'.node k = .item it t) :
    ∃ t0, g.node k = .item it t0 := by
  obtain ⟨t2, h2⟩ := hsk.2.2.2 k hk
  rcases hg : g.node k with ⟨it0, t0⟩ | ⟨r0, t0⟩
  · rw [hg] at h2
    rw [h2] at h
    injection h with e1 e2
    subst e1
    exact ⟨t0, Eq.refl _⟩
  · rw [hg] at h2
    rw [h2] at h
    cases h

theorem fromDataset_parts (d : Dataset) (fuel : Nat) (g : Graph)
    (h : fromDataset d fuel = some g) :
    ∃ g0, buildGraph d fuel = some g0 ∧ adjustTiers g0 fuel = some g := by
  unfold fromDataset at h
  rcases hb : buildGraph d fuel with _ | g0
  · rw [hb] at h
    cases h
  · rw [hb] at h
    exact ⟨g0, (Eq.refl _), h⟩

theorem fromDataset_post (d : Dataset) (hd : WFData d) (fuel : Nat) (g : Graph)
    (h : fromDataset d fuel = some g) :
    GInv d g ∧ g.naturals = d.naturalItems ∧
    (∀ j, j < g.nodes.length → ∀ r t, g.node j = .recipe r t →
      ((g.edges.filter fun e => e.src = j).map fun e => ((g.node e.tgt).name, e.w)) =
        r.results.map fun p => (p.2.name, p.1)) ∧
    (∀ i, i < g.nodes.length → ∀ it t, g.node i = .item it t →
      ∀ r ∈ d.recipes, (r.ingredients.any fun p => p.2.name = it.name) = true →
        ∃ j, j < g.nodes.length ∧ (∃ t', g.node j = .recipe r t') ∧
          ∃ e ∈ g.edges, e.src = i ∧ e.tgt = j) := by
  obtain ⟨g0, hb, ha⟩ := fromDataset_parts d fuel g h
  have bp := buildGraph_post d hd fuel g0 hb
  have hsk : Skel g0 g :=
    adjustTiers_skeleton g0 (fun n hn => bp.nats n (bp.natsEq ▸ hn)) fuel g ha
  have hedges := hsk.1
  have hnaturals := hsk.2.1
  have hlen := hsk.2.2.1
  obtain ⟨⟨un, rg, bip0, np⟩, rv, iv, hw⟩ := bp.core
  refine ⟨⟨⟨?_, ?_, ?_, ?_⟩, ?_, ?_, ?_⟩, hnaturals.trans bp.natsEq, ?_, ?_⟩
  · intro i hi j hj hne heq
    rw [hlen] at hi hj
    rw [Skel.nodeIsItem g0 g hsk i hi, Skel.nodeIsItem g0 g hsk j hj] at heq
    rw [Skel.nodeName g0 g hsk i hi, Skel.nodeName g0 g hsk j hj]
    exact un i hi j hj hne heq
  · intro e he
    rw [hedges] at he
    rw [hlen]
    exact rg e he
  · intro e he
    rw [hedges] at he
    have h1 := bip0 e he
    rw [Skel.nodeIsItem g0 g hsk e.src (rg e he).1,
      Skel.nodeIsItem g0 g hsk e.tgt (rg e he).2]
    exact h1
  · intro e he hrec
    rw [hedges] at he ⊢
    rw [Skel.nodeIsRecipe g0 g hsk e.tgt (rg e he).2] at hrec
    exact np e he hrec
  · intro i hi r t hv
    rw [hlen] at hi
    obtain ⟨t0, hv0⟩ := Skel.recipe_bwd g0 g hsk i hi r t hv
    exact rv i hi r t0 hv0
  · intro i hi it t hv
    rw [hlen] at hi
    obtain ⟨t0, hv0⟩ := Skel.item_bwd g0 g hsk i hi it t hv
    exact iv i hi it t0 hv0
  · intro e he r t hv
    rw [hedges] at he
    obtain ⟨t0, hv0⟩ := Skel.recipe_bwd g0 g hsk e.tgt (rg e he).2 r t hv
    rw [Skel.nodeName g0 g hsk e.src (rg e he).1]
    exact hw e he r t0 hv0
  · intro j hj r t hv
    rw [hlen] at hj
    obtain ⟨t0, hv0⟩ := Skel.recipe_bwd g0 g hsk j hj r t hv
    rw [hedges]
    have hmapeq : ((g0.edges.filter fun e => e.src = j).map
          fun e => ((g.node e.tgt).name, e.w)) =
        (g0.edges.filter fun e => e.src = j).map
          fun e => ((g0.node e.tgt).name, e.w) := by
      apply List.map_congr_left
      intro e he
      rw [Skel.nodeName g0 g hsk e.tgt (rg e (List.mem_filter.mp he).1).2]
    rw [hmapeq]
    exact bp.outs j hj r t0 hv0
  · intro i hi it t hv r hr hcons
    rw [hlen] at hi
    obtain ⟨t0, hv0⟩ := Skel.item_bwd g0 g hsk i hi it t hv
    obtain ⟨j, hj, ⟨t', hjv⟩, he⟩ := bp.ins i hi it t0 hv0 r hr hcons
    obtain ⟨t'', hjv'⟩ := Skel.recipe_fwd g0 g hsk j hj r t' hjv
    refine ⟨j, by omega, ⟨t'', hjv'⟩, ?_⟩
    rw [hedges]
    exact he

theorem nodup_of_uniq (g : Graph)
    (h : ∀ i, i < g.nodes.length → ∀ j, j < g.nodes.length → i ≠ j →
      (g.node i).isItem = (g.node j).isItem → (g.node i).name ≠ (g.node j).name) :
    g.nodes.Nodup := by
  unfold List.Nodup
  rw [List.pairwise_iff_getElem]
  intro ii jj hii hjj hij heq
  have hne : ii ≠ jj := by omega
  have hvi : g.node ii = g.nodes[ii] := Graph.node_eq_getElem g ii hii
  have hvj : g.node jj = g.nodes[jj] := Graph.node_eq_getElem g jj hjj
  exact h ii hii jj hjj hne (by rw [hvi, hvj, heq]) (by rw [hvi, hvj, heq])

theorem bipartiteB_of_pointwise (g : Graph)
    (h : ∀ e ∈ g.edges, (g.node e.src).isItem ≠ (g.node e.tgt).isItem) :
    g.bipartiteB = true := by
  unfold Graph.bipartiteB
  rw [List.all_eq_true]
  intro e he
  simpa using h e he

theorem recipe_in_edges_perm (d : Dataset) (hd : WFData d) (g : Graph)
    (hg : GInv d g)
    (hins : ∀ i, i < g.nodes.length → ∀ it t, g.node i = .item it t →
      ∀ r ∈ d.recipes, (r.ingredients.any fun p => p.2.name = it.name) = true →
        ∃ j, j < g.nodes.length ∧ (∃ t', g.node j = .recipe r t') ∧
          ∃ e ∈ g.edges, e.src = i ∧ e.tgt = j)
    (i : Nat) (hi : i < g.nodes.length) (r : Recipe) (t : Nat)
    (hv : g.node i = .recipe r t) :
    (inEdgePairs g i).Perm
      ((r.ingredients.filter fun p =>
        (g.getItemIdxFromName p.2.name).isSome).map fun p => (p.2.name, p.1)) := by
  obtain ⟨⟨un, rg, bp, np⟩, rv, iv, hw⟩ := hg
  have hrd : r ∈ d.recipes := rv i hi r t hv
  have hnd_ing : (r.ingredients.map fun p => p.2.name).Nodup := hd.2.2.1 r hrd
  have hirecF : (g.node i).isItem = false := by rw [hv]; rfl
  have hsrc_item : ∀ e ∈ g.edges, e.tgt = i → (g.node e.src).isItem = true := by
    intro e he het
    have hne := bp e he
    rw [het, hirecF] at hne
    cases h2 : (g.node e.src).isItem
    · rw [h2] at hne
      exact absurd (Eq.refl false) hne
    · rfl
  set fl := g.edges.filter (fun e => e.tgt = i) with hfl
  have hfl_mem : ∀ e, e ∈ fl ↔ (e ∈ g.edges ∧ e.tgt = i) := by
    intro e
    rw [hfl, List.mem_filter]
    simp
  have hsrc_pw : fl.Pairwise (fun a b => a.src ≠ b.src) := by
    apply pairwise_ne_of_filter_le_one Edge.src fl
    intro x hx
    obtain ⟨hxe, hxt⟩ := (hfl_mem x).mp hx
    have hnp := np x hxe (by rw [hxt, hv]; rfl)
    have hfilter_eq : (fl.filter fun y => y.src = x.src) =
        g.edges.filter fun e2 => e2.src = x.src ∧ e2.tgt = x.tgt := by
      rw [hfl, List.filter_filter]
      apply List.filter_congr
      intro e he
      rw [hxt, Bool.decide_and, Bool.and_comm]
    rw [hfilter_eq]
    exact hnp
  have hname_pw : (fl.map fun e => (g.node e.src).name).Nodup := by
    unfold List.Nodup
    rw [List.pairwise_map]
    apply List.Pairwise.imp_of_mem ?_ hsrc_pw
    intro a b ha hb hne
    obtain ⟨haE, hat⟩ := (hfl_mem a).mp ha
    obtain ⟨hbE, hbt⟩ := (hfl_mem b).mp hb
    have hvar : (g.node a.src).isItem = (g.node b.src).isItem := by
      rw [hsrc_item a haE hat, hsrc_item b hbE hbt]
    exact un a.src (rg a haE).1 b.src (rg b hbE).1 hne hvar
  have hnd1 : (inEdgePairs g i).Nodup := by
    apply List.Nodup.of_map Prod.fst
    unfold inEdgePairs
    rw [List.map_map]
    exact hname_pw
  have hnd2 : ((r.ingredients.filter fun p =>
      (g.getItemIdxFromName p.2.name).isSome).map fun p => (p.2.name, p.1)).Nodup := by
    apply List.Nodup.of_map Prod.fst
    rw [List.map_map]
    have hsub : ((r.ingredients.filter fun p =>
        (g.getItemIdxFromName p.2.name).isSome).map fun p => p.2.name).Sublist
        (r.ingredients.map fun p => p.2.name) :=
      List.Sublist.map _ (List.filter_sublist _)
    exact hsub.nodup hnd_ing
  rw [List.perm_ext_iff_of_nodup hnd1 hnd2]
  intro x
  constructor
  · intro hx
    obtain ⟨e, he, hex⟩ := List.mem_map.mp hx
    have heE : e ∈ g.edges := (List.mem_filter.mp he).1
    have het : e.tgt = i := by simpa using (List.mem_filter.mp he).2
    have hwE := hw e heE r t (by rw [het]; exact hv)
    obtain ⟨p, hp, hpw⟩ := List.exists_of_findSome?_eq_some hwE
    by_cases hnm : (g.node e.src).name = p.2.name
    · rw [if_pos hnm] at hpw
      have hpw' : p.1 = e.w := Option.some.inj hpw
      have hsrcI : (g.node e.src).isItem = true := hsrc_item e heE het
      have hsome : (g.getItemIdxFromName p.2.name).isSome = true := by
        rw [← hnm]
        exact getItemIdxFromName_isSome_of g e.src (rg e heE).1 hsrcI
      rw [← hex]
      apply List.mem_map.mpr
      exact ⟨p, List.mem_filter.mpr ⟨hp, by simpa using hsome⟩, by rw [← hnm, hpw']⟩
    · rw [if_neg hnm] at hpw
      cases hpw
  · intro hx
    obtain ⟨p, hpf, hpx⟩ := List.mem_map.mp hx
    obtain ⟨hp, hpsome⟩ := List.mem_filter.mp hpf
    have hpsome' : (g.getItemIdxFromName p.2.name).isSome = true := by
      simpa using hpsome
    obtain ⟨k, hk⟩ := Option.isSome_iff_exists.mp hpsome'
    obtain ⟨hklt, hkit, hkname⟩ := getItemIdxFromName_some g p.2.name k hk
    obtain ⟨it0, t0, hkv⟩ : ∃ it0 t0, g.node k = .item it0 t0 := by
      rcases hgk : g.node k with ⟨it0, t0⟩ | ⟨r0, t0⟩
      · exact ⟨it0, t0, Eq.refl _⟩
      · exact absurd hkit (by rw [hgk]; simp [Node.isItem])
    have hit0name : it0.name = p.2.name := by
      rw [hkv] at hkname
      exact hkname
    have hany : (r.ingredients.any fun q => q.2.name = it0.name) = true := by
      rw [List.any_eq_true]
      exact ⟨p, hp, decide_eq_true hit0name.symm⟩
    obtain ⟨j, hjlt, ⟨t', hjv⟩, e, heE, hes, hetj⟩ := hins k hklt it0 t0 hkv r hrd hany
    have hji : j = i := by
      by_contra hne
      have hnames := un j hjlt i hi hne (by rw [hjv, hv]; rfl)
      exact hnames (by rw [hjv, hv]; rfl)
    subst hji
    rw [← hpx]
    apply List.mem_map.mpr
    refine ⟨e, List.mem_filter.mpr ⟨heE, by simpa using hetj⟩, ?_⟩
    have hwE := hw e heE r t (by rw [hetj]; exact hv)
    have hnmE : (g.node e.src).name = p.2.name := by
      rw [hes, hkname]
    rw [hnmE] at hwE
    have hdet := findSome?_amount_nodup r.ingredients hnd_ing p hp
    rw [hdet] at hwE
    have hweq : e.w = p.1 := (Option.some.inj hwE).symm
    rw [hnmE, hweq]

/-! ### Lemmas for the `adjust_tiers` tier-recurrence invariant -/

theorem Node.withTier_isNaturalItem (n : Node) (t : Nat) :
    (n.withTier t).isNaturalItem = n.isNaturalItem := by
  cases n <;> rfl

theorem GCore_skel (g g' : Graph) (hc : GCore g) (hsk : Skel g g') : GCore g' := by
  obtain ⟨un, rg, bp, np⟩ := hc
  have hedges := hsk.1
  have hlen := hsk.2.2.1
  refine ⟨?_, ?_, ?_, ?_⟩
  · intro i hi j hj hne heq
    rw [hlen] at hi hj
    rw [Skel.nodeIsItem g g' hsk i hi, Skel.nodeIsItem g g' hsk j hj] at heq
    rw [Skel.nodeName g g' hsk i hi, Skel.nodeName g g' hsk j hj]
    exact un i hi j hj hne heq
  · intro e he
    rw [hedges] at he
    rw [hlen]
    exact rg e he
  · intro e he
    rw [hedges] at he
    have h1 := bp e he
    rw [Skel.nodeIsItem g g' hsk e.src (rg e he).1,
      Skel.nodeIsItem g g' hsk e.tgt (rg e he).2]
    exact h1
  · intro e he hrec
    rw [hedges] at he ⊢
    rw [Skel.nodeIsRecipe g g' hsk e.tgt (rg e he).2] at hrec
    exact np e he hrec

theorem Skel.inNeighborsEq (g g' : Graph) (hsk : Skel g g') (k : Nat) :
    g'.inNeighbors k = g.inNeighbors k := by
  unfold Graph.inNeighbors
  rw [hsk.1]

theorem Skel.outNeighborsEq (g g' : Graph) (hsk : Skel g g') (k : Nat) :
    g'.outNeighbors k = g.outNeighbors k := by
  unfold Graph.outNeighbors
  rw [hsk.1]

theorem setTier_inNeighbors (g : Graph) (i t0 k : Nat) :
    (g.setTier i t0).inNeighbors k = g.inNeighbors k := rfl

theorem setTier_outNeighbors (g : Graph) (i t0 k : Nat) :
    (g.setTier i t0).outNeighbors k = g.outNeighbors k := rfl

theorem oneProd_of_atMostOneProducerB (g : Graph)
    (hone : g.atMostOneProducerB = true) (k : Nat) (hk : k < g.nodes.length)
    (it : Item) (t : Nat) (hkv : g.node k = .item it t) (hnat : it.natural = false) :
    (g.inNeighbors k).length ≤ 1 := by
  unfold Graph.atMostOneProducerB at hone
  rw [List.all_eq_true] at hone
  have h2 := hone k (List.mem_range.mpr hk)
  rw [hkv] at h2
  dsimp only at h2
  simp only [decide_eq_true_eq, hnat] at h2
  rcases h2 with h2 | h2
  · cases h2
  · exact h2

theorem reach_of_fullyReachableB (g : Graph) (hfull : g.fullyReachableB = true)
    (k : Nat) (hk : k < g.nodes.length) :
    ∃ j, j < g.nodes.length ∧ (g.node j).isNaturalItem = true ∧
      k ∈ reachSet g j := by
  unfold Graph.fullyReachableB at hfull
  rw [List.all_eq_true] at hfull
  have h2 := hfull k (List.mem_range.mpr hk)
  rw [List.any_eq_true] at h2
  obtain ⟨j, hj, hpj⟩ := h2
  rw [List.mem_range] at hj
  simp only [decide_eq_true_eq] at hpj
  exact ⟨j, hj, hpj.1, hpj.2⟩

theorem hasProd_of_fullyReachable (g : Graph) (hfull : g.fullyReachableB = true)
    (k : Nat) (hk : k < g.nodes.length) (it : Item) (t : Nat)
    (hkv : g.node k = .item it t) (hnat : it.natural = false) :
    g.inNeighbors k ≠ [] := by
  obtain ⟨j, hj, hjnat, hreach⟩ := reach_of_fullyReachableB g hfull k hk
  have hpath := reachSet_sound g j k hreach
  cases hpath with
  | refl =>
    rw [hkv] at hjnat
    simp only [Node.isNaturalItem] at hjnat
    rw [hnat] at hjnat
    cases hjnat
  | tail hp hstep =>
    obtain ⟨e, he, hes, het⟩ := hstep
    intro hnil
    have : e.src ∈ g.inNeighbors k := by
      rw [Graph.mem_inNeighbors]
      exact ⟨e, he, het, (Eq.refl _)⟩
    rw [hnil] at this
    cases this

theorem min?_perm_some (l l' : List Nat) (hp : l.Perm l') (m : Nat)
    (h : l.min? = some m) : l'.min? = some m := by
  rw [List.min?_eq_some_iff'] at h ⊢
  exact ⟨hp.mem_iff.mp h.1, fun b hb => h.2 b (hp.mem_iff.mpr hb)⟩

theorem eq_of_mem_of_length_le_one {α : Type} (l : List α) (h : l.length ≤ 1)
    (a b : α) (ha : a ∈ l) (hb : b ∈ l) : a = b := by
  rcases l with _ | ⟨x, _ | ⟨y, tl⟩⟩
  · cases ha
  · rw [List.mem_singleton.mp ha, List.mem_singleton.mp hb]
  · simp only [List.length_cons] at h
    omega

theorem inNeighbors_nodup_of_nopar (g : Graph) (hnp : g.noParallelIntoRecipes)
    (j : Nat) (hrec : (g.node j).isRecipe = true) : (g.inNeighbors j).Nodup := by
  unfold Graph.inNeighbors List.Nodup
  rw [List.pairwise_map, List.pairwise_reverse]
  have hpw : (g.edges.filter fun e => e.tgt = j).Pairwise
      (fun a b => a.src ≠ b.src) := by
    apply pairwise_ne_of_filter_le_one Edge.src
    intro x hx
    obtain ⟨hxe, hxt⟩ := List.mem_filter.mp hx
    have hxt' : x.tgt = j := by simpa using hxt
    have hnp2 := hnp x hxe (by rw [hxt']; exact hrec)
    have hfilter_eq : ((g.edges.filter fun e => e.tgt = j).filter
        fun y => y.src = x.src) =
        g.edges.filter fun e2 => e2.src = x.src ∧ e2.tgt = x.tgt := by
      rw [List.filter_filter]
      apply List.filter_congr
      intro e he
      rw [hxt', Bool.decide_and, Bool.and_comm]
    rw [hfilter_eq]
    exact hnp2
  apply hpw.imp_of_mem
  intro a b _ _ hne
  exact fun hc => hne hc.symm

theorem AInv_skip (st : AState) (hinv : AInv st) (i : Nat) (rest : List Nat)
    (hq : st.queue = i :: rest) (hv : i ∈ st.visited) :
    AInv ⟨st.g, rest, st.visited⟩ := by
  obtain ⟨core, oneProd, hasProd, queueRange, visRange, natSeed, visOut, queueProd,
    visDeps, visItem, visRec⟩ := hinv
  refine ⟨core, oneProd, hasProd, ?_, visRange, ?_, ?_, ?_, visDeps, visItem, visRec⟩
  · intro k hk
    exact queueRange k (by rw [hq]; exact List.mem_cons_of_mem i hk)
  · intro k hk hnat
    rcases natSeed k hk hnat with h2 | h2
    · rw [hq] at h2
      rcases List.mem_cons.mp h2 with rfl | h2
      · exact .inr hv
      · exact .inl h2
    · exact .inr h2
  · intro k hk x hx
    rcases visOut k hk x hx with h2 | h2
    · rw [hq] at h2
      rcases List.mem_cons.mp h2 with rfl | h2
      · exact .inr hv
      · exact .inl h2
    · exact .inr h2
  · intro k hk it t hkv hnat j hj
    exact queueProd k (by rw [hq]; exact List.mem_cons_of_mem i hk) it t hkv hnat j hj

theorem AInv_requeue (st : AState) (hinv : AInv st) (i : Nat) (rest : List Nat)
    (hq : st.queue = i :: rest) :
    AInv ⟨st.g, rest ++ [i], st.visited⟩ := by
  obtain ⟨core, oneProd, hasProd, queueRange, visRange, natSeed, visOut, queueProd,
    visDeps, visItem, visRec⟩ := hinv
  have hmem : ∀ x : Nat, x ∈ rest ++ [i] ↔ x ∈ st.queue := by
    intro x
    rw [hq]
    constructor
    · intro hx
      rcases List.mem_append.mp hx with hx | hx
      · exact List.mem_cons_of_mem i hx
      · rw [List.mem_singleton.mp hx]
        exact List.mem_cons_self i rest
    · intro hx
      rcases List.mem_cons.mp hx with rfl | hx
      · exact List.mem_append.mpr (.inr (List.mem_singleton.mpr (Eq.refl _)))
      · exact List.mem_append.mpr (.inl hx)
  refine ⟨core, oneProd, hasProd, ?_, visRange, ?_, ?_, ?_, visDeps, visItem, visRec⟩
  · intro k hk
    exact queueRange k ((hmem k).mp hk)
  · intro k hk hnat
    rcases natSeed k hk hnat with h2 | h2
    · exact .inl ((hmem k).mpr h2)
    · exact .inr h2
  · intro k hk x hx
    rcases visOut k hk x hx with h2 | h2
    · exact .inl ((hmem x).mpr h2)
    · exact .inr h2
  · intro k hk it t hkv hnat j hj
    exact queueProd k ((hmem k).mp hk) it t hkv hnat j hj

theorem in_ne_self_of_bip (g : Graph)
    (hbip : ∀ e ∈ g.edges, (g.node e.src).isItem ≠ (g.node e.tgt).isItem)
    (i : Nat) : ∀ j ∈ g.inNeighbors i, j ≠ i := by
  intro j hj heq
  rw [Graph.mem_inNeighbors] at hj
  obtain ⟨e, he, het, hes⟩ := hj
  have := hbip e he
  rw [hes, het, heq] at this
  exact this (Eq.refl _)

theorem AInv_item_update (st : AState) (hinv : AInv st) (i : Nat) (rest : List Nat)
    (hq : st.queue = i :: rest) (hv : i ∉ st.visited) (hi : i < st.g.nodes.length)
    (it : Item) (t0 : Nat) (hn : st.g.node i = .item it t0)
    (g' : Graph) (hsk : Skel st.g g')
    (hothers : ∀ k, k ≠ i → g'.node k = st.g.node k)
    (tF : Nat) (hval : g'.node i = .item it tF)
    (htier : (it.natural = true → tF = 1) ∧
      (it.natural = false → ∃ m,
        ((st.g.inNeighbors i).map fun j => (st.g.node j).tier).min? = some m ∧
          tF = m + 1)) :
    AInv ⟨g', rest ++ g'.sortByTier (g'.outNeighbors i), i :: st.visited⟩ := by
  obtain ⟨core, oneProd, hasProd, queueRange, visRange, natSeed, visOut, queueProd,
    visDeps, visItem, visRec⟩ := hinv
  have hlen : g'.nodes.length = st.g.nodes.length := hsk.2.2.1
  have hInEq : ∀ k, g'.inNeighbors k = st.g.inNeighbors k :=
    Skel.inNeighborsEq st.g g' hsk
  have hOutEq : ∀ k, g'.outNeighbors k = st.g.outNeighbors k :=
    Skel.outNeighborsEq st.g g' hsk
  have hne_vis : ∀ k ∈ st.visited, k ≠ i := fun k hk heq => hv (heq ▸ hk)
  have hprod_ne : ∀ j ∈ st.g.inNeighbors i, j ≠ i :=
    in_ne_self_of_bip st.g core.bip i
  have htier_eq : ∀ k, k ≠ i → (g'.node k).tier = (st.g.node k).tier :=
    fun k hk => by rw [hothers k hk]
  have hmapIn : ∀ k, (∀ j ∈ st.g.inNeighbors k, j ≠ i) →
      ((g'.inNeighbors k).map fun j => (g'.node j).tier) =
        ((st.g.inNeighbors k).map fun j => (st.g.node j).tier) := by
    intro k hne
    rw [hInEq k]
    exact List.map_congr_left fun j hj => htier_eq j (hne j hj)
  -- consumers of an item node are recipe nodes
  have hcons_rec : ∀ x ∈ g'.outNeighbors i, (g'.node x).isItem = false := by
    intro x hx
    rw [hOutEq i] at hx
    rw [Graph.mem_outNeighbors] at hx
    obtain ⟨e, he, hes, het⟩ := hx
    have hb := core.bip e he
    rw [hes, het, hn] at hb
    cases h2 : (st.g.node x).isItem
    · by_cases hxi : x = i
      · rw [hxi, hn] at h2
        simp [Node.isItem] at h2
      · rw [hothers x hxi]
        exact h2
    · rw [h2] at hb
      exact absurd (Eq.refl true) (fun hc => hb (by rw [← hc]; rfl))
  refine ⟨GCore_skel st.g g' core hsk, ?_, ?_, ?_, ?_, ?_, ?_, ?_, ?_, ?_, ?_⟩
  · intro k hk it' t' hkv hnat'
    rw [hlen] at hk
    rw [hInEq k]
    by_cases hk2 : k = i
    · subst hk2
      rw [hval] at hkv
      injection hkv with e1 e2
      subst e1
      exact oneProd k hk it t0 hn hnat'
    · rw [hothers k hk2] at hkv
      exact oneProd k hk it' t' hkv hnat'
  · intro k hk it' t' hkv hnat'
    rw [hlen] at hk
    rw [hInEq k]
    by_cases hk2 : k = i
    · subst hk2
      rw [hval] at hkv
      injection hkv with e1 e2
      subst e1
      exact hasProd k hk it t0 hn hnat'
    · rw [hothers k hk2] at hkv
      exact hasProd k hk it' t' hkv hnat'
  · intro k hk
    rw [hlen]
    rcases List.mem_append.mp hk with hk | hk
    · exact queueRange k (by rw [hq]; exact List.mem_cons_of_mem i hk)
    · rw [Graph.mem_sortByTier, hOutEq i, Graph.mem_outNeighbors] at hk
      obtain ⟨e, he, _, het⟩ := hk
      rw [← het]
      exact (core.range e he).2
  · intro k hk
    rw [hlen]
    rcases List.mem_cons.mp hk with rfl | hk
    · exact hi
    · exact visRange k hk
  · intro k hk hnat'
    by_cases hk2 : k = i
    · subst hk2
      exact .inr (List.mem_cons_self k _)
    · rw [hlen] at hk
      rw [hothers k hk2] at hnat'
      rcases natSeed k hk hnat' with h2 | h2
      · rw [hq] at h2
        rcases List.mem_cons.mp h2 with rfl | h2
        · exact absurd (Eq.refl k) hk2
        · exact .inl (List.mem_append.mpr (.inl h2))
      · exact .inr (List.mem_cons_of_mem i h2)
  · intro k hk x hx
    rcases List.mem_cons.mp hk with rfl | hk
    · left
      apply List.mem_append.mpr
      right
      rw [Graph.mem_sortByTier]
      exact hx
    · rw [hOutEq k] at hx
      rcases visOut k hk x hx with h2 | h2
      · rw [hq] at h2
        rcases List.mem_cons.mp h2 with rfl | h2
        · exact .inr (List.mem_cons_self x _)
        · exact .inl (List.mem_append.mpr (.inl h2))
      · exact .inr (List.mem_cons_of_mem i h2)
  · intro k hk it' t' hkv hnat' j hj
    rcases List.mem_append.mp hk with hk | hk
    · rw [hInEq k] at hj
      by_cases hk2 : k = i
      · subst hk2
        rw [hval] at hkv
        injection hkv with e1 e2
        subst e1
        exact List.mem_cons_of_mem k
          (queueProd k (by rw [hq]; exact List.mem_cons_self k rest) it t0 hn
            hnat' j hj)
      · rw [hothers k hk2] at hkv
        exact List.mem_cons_of_mem i
          (queueProd k (by rw [hq]; exact List.mem_cons_of_mem i hk) it' t' hkv
            hnat' j hj)
    · exfalso
      have h2 := hcons_rec k (by rw [← Graph.mem_sortByTier g' (g'.outNeighbors i)]; exact hk)
      rw [hkv] at h2
      cases h2
  · intro k hk hknat j hj
    rw [hInEq k] at hj
    rcases List.mem_cons.mp hk with rfl | hk
    · have hnat2 : it.natural = false := by
        rw [hval] at hknat
        exact hknat
      exact List.mem_cons_of_mem k
        (queueProd k (by rw [hq]; exact List.mem_cons_self k rest) it t0 hn
          hnat2 j hj)
    · have hknat' : (st.g.node k).isNaturalItem = false := by
        rw [← hothers k (hne_vis k hk)]
        exact hknat
      exact List.mem_cons_of_mem i (visDeps k hk hknat' j hj)
  · intro k hk it' t' hkv
    rcases List.mem_cons.mp hk with rfl | hk
    · rw [hval] at hkv
      injection hkv with e1 e2
      subst e1
      subst e2
      constructor
      · intro htr
        exact htier.1 htr
      · intro hfa
        obtain ⟨m, hm, hms⟩ := htier.2 hfa
        refine ⟨m, ?_, hms⟩
        rw [hmapIn k hprod_ne]
        exact hm
    · have hki : k ≠ i := hne_vis k hk
      rw [hothers k hki] at hkv
      have hold := visItem k hk it' t' hkv
      refine ⟨hold.1, ?_⟩
      intro hfa
      obtain ⟨m, hm, hms⟩ := hold.2 hfa
      refine ⟨m, ?_, hms⟩
      have hdeps := visDeps k hk (by rw [hkv]; simpa [Node.isNaturalItem] using hfa)
      rw [hmapIn k (fun j hj => hne_vis j (hdeps j hj))]
      exact hm
  · intro k hk r' t' hkv
    rcases List.mem_cons.mp hk with rfl | hk
    · rw [hval] at hkv
      cases hkv
    · have hki : k ≠ i := hne_vis k hk
      rw [hothers k hki] at hkv
      have hold := visRec k hk r' t' hkv
      have hdeps := visDeps k hk (by rw [hkv]; rfl)
      rw [hmapIn k (fun j hj => hne_vis j (hdeps j hj))]
      exact hold

theorem AInv_recipe_update (st : AState) (hinv : AInv st) (i : Nat)
    (rest : List Nat) (hq : st.queue = i :: rest) (hv : i ∉ st.visited)
    (hi : i < st.g.nodes.length)
    (r : Recipe) (t0 : Nat) (hn : st.g.node i = .recipe r t0)
    (hdeps : ∀ j ∈ st.g.inNeighbors i, j ∈ st.visited)
    (g' : Graph) (hsk : Skel st.g g')
    (hothers : ∀ k, k ≠ i → g'.node k = st.g.node k)
    (tF : Nat) (hval : g'.node i = .recipe r tF)
    (htier : tF = ((st.g.inNeighbors i).map fun j => (st.g.node j).tier).sum + 1) :
    AInv ⟨g', rest ++ g'.sortByTier (g'.outNeighbors i), i :: st.visited⟩ := by
  obtain ⟨core, oneProd, hasProd, queueRange, visRange, natSeed, visOut, queueProd,
    visDeps, visItem, visRec⟩ := hinv
  have hlen : g'.nodes.length = st.g.nodes.length := hsk.2.2.1
  have hInEq : ∀ k, g'.inNeighbors k = st.g.inNeighbors k :=
    Skel.inNeighborsEq st.g g' hsk
  have hOutEq : ∀ k, g'.outNeighbors k = st.g.outNeighbors k :=
    Skel.outNeighborsEq st.g g' hsk
  have hne_vis : ∀ k ∈ st.visited, k ≠ i := fun k hk heq => hv (heq ▸ hk)
  have hprod_ne : ∀ j ∈ st.g.inNeighbors i, j ≠ i :=
    in_ne_self_of_bip st.g core.bip i
  have htier_eq : ∀ k, k ≠ i → (g'.node k).tier = (st.g.node k).tier :=
    fun k hk => by rw [hothers k hk]
  have hmapIn : ∀ k, (∀ j ∈ st.g.inNeighbors k, j ≠ i) →
      ((g'.inNeighbors k).map fun j => (g'.node j).tier) =
        ((st.g.inNeighbors k).map fun j => (st.g.node j).tier) := by
    intro k hne
    rw [hInEq k]
    exact List.map_congr_left fun j hj => htier_eq j (hne j hj)
  have hcons_ne : ∀ x ∈ st.g.outNeighbors i, x ≠ i := by
    intro x hx heq
    rw [Graph.mem_outNeighbors] at hx
    obtain ⟨e, he, hes, het⟩ := hx
    have hb := core.bip e he
    rw [hes, het, heq] at hb
    exact hb (Eq.refl _)
  refine ⟨GCore_skel st.g g' core hsk, ?_, ?_, ?_, ?_, ?_, ?_, ?_, ?_, ?_, ?_⟩
  · intro k hk it' t' hkv hnat'
    rw [hlen] at hk
    rw [hInEq k]
    by_cases hk2 : k = i
    · subst hk2
      rw [hval] at hkv
      cases hkv
    · rw [hothers k hk2] at hkv
      exact oneProd k hk it' t' hkv hnat'
  · intro k hk it' t' hkv hnat'
    rw [hlen] at hk
    rw [hInEq k]
    by_cases hk2 : k = i
    · subst hk2
      rw [hval] at hkv
      cases hkv
    · rw [hothers k hk2] at hkv
      exact hasProd k hk it' t' hkv hnat'
  · intro k hk
    rw [hlen]
    rcases List.mem_append.mp hk with hk | hk
    · exact queueRange k (by rw [hq]; exact List.mem_cons_of_mem i hk)
    · rw [Graph.mem_sortByTier, hOutEq i, Graph.mem_outNeighbors] at hk
      obtain ⟨e, he, _, het⟩ := hk
      rw [← het]
      exact (core.range e he).2
  · intro k hk
    rw [hlen]
    rcases List.mem_cons.mp hk with rfl | hk
    · exact hi
    · exact visRange k hk
  · intro k hk hnat'
    by_cases hk2 : k = i
    · subst hk2
      exact .inr (List.mem_cons_self k _)
    · rw [hlen] at hk
      rw [hothers k hk2] at hnat'
      rcases natSeed k hk hnat' with h2 | h2
      · rw [hq] at h2
        rcases List.mem_cons.mp h2 with rfl | h2
        · exact absurd (Eq.refl k) hk2
        · exact .inl (List.mem_append.mpr (.inl h2))
      · exact .inr (List.mem_cons_of_mem i h2)
  · intro k hk x hx
    rcases List.mem_cons.mp hk with rfl | hk
    · left
      apply List.mem_append.mpr
      right
      rw [Graph.mem_sortByTier]
      exact hx
    · rw [hOutEq k] at hx
      rcases visOut k hk x hx with h2 | h2
      · rw [hq] at h2
        rcases List.mem_cons.mp h2 with rfl | h2
        · exact .inr (List.mem_cons_self x _)
        · exact .inl (List.mem_append.mpr (.inl h2))
      · exact .inr (List.mem_cons_of_mem i h2)
  · intro k hk it' t' hkv hnat' j hj
    rcases List.mem_append.mp hk with hk | hk
    · rw [hInEq k] at hj
      by_cases hk2 : k = i
      · subst hk2
        rw [hval] at hkv
        cases hkv
      · rw [hothers k hk2] at hkv
        exact List.mem_cons_of_mem i
          (queueProd k (by rw [hq]; exact List.mem_cons_of_mem i hk) it' t' hkv
            hnat' j hj)
    · rw [Graph.mem_sortByTier, hOutEq i] at hk
      have hki : k ≠ i := hcons_ne k hk
      rw [hothers k hki] at hkv
      have hklt : k < st.g.nodes.length := by
        rw [Graph.mem_outNeighbors] at hk
        obtain ⟨e, he, _, het⟩ := hk
        rw [← het]
        exact (core.range e he).2
      have hone := oneProd k hklt it' t' hkv hnat'
      have hiIn : i ∈ st.g.inNeighbors k := by
        rw [Graph.mem_outNeighbors] at hk
        obtain ⟨e, he, hes, het⟩ := hk
        rw [Graph.mem_inNeighbors]
        exact ⟨e, he, het, hes⟩
      rw [hInEq k] at hj
      have hji : j = i := eq_of_mem_of_length_le_one _ hone j i hj hiIn
      rw [hji]
      exact List.mem_cons_self i st.visited
  · intro k hk hknat j hj
    rw [hInEq k] at hj
    rcases List.mem_cons.mp hk with rfl | hk
    · exact List.mem_cons_of_mem k (hdeps j hj)
    · have hknat' : (st.g.node k).isNaturalItem = false := by
        rw [← hothers k (hne_vis k hk)]
        exact hknat
      exact List.mem_cons_of_mem i (visDeps k hk hknat' j hj)
  · intro k hk it' t' hkv
    rcases List.mem_cons.mp hk with rfl | hk
    · rw [hval] at hkv
      cases hkv
    · have hki : k ≠ i := hne_vis k hk
      rw [hothers k hki] at hkv
      have hold := visItem k hk it' t' hkv
      refine ⟨hold.1, ?_⟩
      intro hfa
      obtain ⟨m, hm, hms⟩ := hold.2 hfa
      refine ⟨m, ?_, hms⟩
      have hdeps2 := visDeps k hk (by rw [hkv]; simpa [Node.isNaturalItem] using hfa)
      rw [hmapIn k (fun j hj => hne_vis j (hdeps2 j hj))]
      exact hm
  · intro k hk r' t' hkv
    rcases List.mem_cons.mp hk with rfl | hk
    · rw [hval] at hkv
      injection hkv with e1 e2
      subst e1
      subst e2
      rw [hmapIn k hprod_ne]
      exact htier
    · have hki : k ≠ i := hne_vis k hk
      rw [hothers k hki] at hkv
      have hold := visRec k hk r' t' hkv
      have hdeps2 := visDeps k hk (by rw [hkv]; rfl)
      rw [hmapIn k (fun j hj => hne_vis j (hdeps2 j hj))]
      exact hold

theorem adjustStep_none (st : AState) (h : adjustStep st = none) :
    st.queue = [] := by
  unfold adjustStep at h
  rcases hq : st.queue with _ | ⟨i, rest⟩
  · rfl
  · exfalso
    rw [hq] at h
    dsimp only at h
    by_cases hv : i ∈ st.visited
    · rw [if_pos hv] at h
      cases h
    · rw [if_neg hv] at h
      rcases hn : st.g.node i with ⟨it, t0⟩ | ⟨r, t0⟩
      · rw [hn] at h
        dsimp only at h
        cases h
      · rw [hn] at h
        dsimp only at h
        rcases hing : st.g.getIngredientsForRecipeIdx (Node.recipe r t0) with _ | ings
        · rw [hing] at h
          dsimp only at h
          cases h
        · rw [hing] at h
          dsimp only at h
          split at h <;> cases h

theorem adjustStep_inv (st st' : AState) (h : adjustStep st = some st')
    (hinv : AInv st) : AInv st' := by
  unfold adjustStep at h
  rcases hq : st.queue with _ | ⟨i, rest⟩
  · rw [hq] at h
    cases h
  · rw [hq] at h
    dsimp only at h
    by_cases hv : i ∈ st.visited
    · rw [if_pos hv] at h
      injection h with h
      subst h
      exact AInv_skip st hinv i rest hq hv
    · rw [if_neg hv] at h
      have hi : i < st.g.nodes.length :=
        hinv.queueRange i (by rw [hq]; exact List.mem_cons_self i rest)
      have hnd : st.g.nodes.Nodup := nodup_of_uniq st.g hinv.core.uniq
      rcases hn : st.g.node i with ⟨it, t0⟩ | ⟨r, t0⟩
      · rw [hn] at h
        dsimp only at h
        have h0 : st.g.getNodeIdx (Node.item it t0) = some i := by
          rw [← hn]
          exact Graph.getNodeIdx_self st.g hnd i hi
        have hlook1 : st.g.getRecipesWithItemInOutputs (Node.item it t0) =
            some (st.g.sortByTier (st.g.inNeighbors i)) := by
          show (st.g.getNodeIdx (Node.item it t0)).map
            (fun k => st.g.sortByTier (st.g.inNeighbors k)) = _
          rw [h0]
          rfl
        rw [hlook1, Option.getD_some] at h
        set m1 := (((st.g.sortByTier (st.g.inNeighbors i)).map
          fun j => (st.g.node j).tier).min?).getD 1 with hm1
        cases hnat : it.natural
        · -- derived item: single setTier
          rw [hnat] at h
          rw [if_neg Bool.false_ne_true] at h
          have hval1 : (st.g.setTier i (m1 + 1)).node i = Node.item it (m1 + 1) := by
            rw [Graph.node_setTier_self st.g i (m1 + 1) hi, hn]
            rfl
          rw [hval1] at h
          have hsk1 : Skel st.g (st.g.setTier i (m1 + 1)) :=
            Skel_setTier st.g i (m1 + 1)
          have hnd1 : (st.g.setTier i (m1 + 1)).nodes.Nodup :=
            nodup_of_uniq _ (GCore_skel st.g _ hinv.core hsk1).uniq
          have hi1 : i < (st.g.setTier i (m1 + 1)).nodes.length := by
            rw [Graph.setTier_nodesLength]
            exact hi
          have h02 : (st.g.setTier i (m1 + 1)).getNodeIdx
              (Node.item it (m1 + 1)) = some i := by
            rw [← hval1]
            exact Graph.getNodeIdx_self _ hnd1 i hi1
          have hlook2 : (st.g.setTier i (m1 + 1)).getItemsAsIngredientsInRecipesIdxs
              (Node.item it (m1 + 1)) =
              some ((st.g.setTier i (m1 + 1)).sortByTier
                ((st.g.setTier i (m1 + 1)).outNeighbors i)) := by
            show ((st.g.setTier i (m1 + 1)).getNodeIdx (Node.item it (m1 + 1))).map
              (fun k => (st.g.setTier i (m1 + 1)).sortByTier
                ((st.g.setTier i (m1 + 1)).outNeighbors k)) = _
            rw [h02]
            rfl
          rw [hlook2, Option.getD_some] at h
          injection h with h
          subst h
          have hinne : st.g.inNeighbors i ≠ [] := hinv.hasProd i hi it t0 hn hnat
          have hperm : (st.g.sortByTier (st.g.inNeighbors i)).Perm
              (st.g.inNeighbors i) := Graph.sortByTier_perm st.g _
          obtain ⟨m, hm⟩ : ∃ m, ((st.g.sortByTier (st.g.inNeighbors i)).map
              fun j => (st.g.node j).tier).min? = some m := by
            rcases hmm : ((st.g.sortByTier (st.g.inNeighbors i)).map
              fun j => (st.g.node j).tier).min? with _ | m
            · exfalso
              rw [List.min?_eq_none_iff] at hmm
              have h1 := congrArg List.length hmm
              simp only [List.length_map, List.length_nil] at h1
              rw [hperm.length_eq] at h1
              exact hinne (List.length_eq_zero.mp h1)
            · exact ⟨m, (Eq.refl _)⟩
          have hm1' : m1 = m := by
            rw [hm1, hm]
            rfl
          have hminIn : ((st.g.inNeighbors i).map
              fun j => (st.g.node j).tier).min? = some m :=
            min?_perm_some _ _ (hperm.map _) m hm
          exact AInv_item_update st hinv i rest hq hv hi it t0 hn
            (st.g.setTier i (m1 + 1)) hsk1
            (fun k hk => Graph.node_setTier_ne st.g i k (m1 + 1) (Ne.symm hk))
            (m1 + 1) hval1
            ⟨fun htr => absurd htr (by rw [hnat]; exact Bool.false_ne_true),
             fun _ => ⟨m, hminIn, by rw [hm1']⟩⟩
        · -- natural item: double setTier, pinned to 1
          rw [hnat] at h
          rw [if_pos (Eq.refl true)] at h
          have hval2 : ((st.g.setTier i (m1 + 1)).setTier i 1).node i =
              Node.item it 1 := by
            rw [Graph.node_setTier_self _ i 1
              (by rw [Graph.setTier_nodesLength]; exact hi),
              Graph.node_setTier_self st.g i (m1 + 1) hi, hn]
            rfl
          rw [hval2] at h
          have hsk2 : Skel st.g ((st.g.setTier i (m1 + 1)).setTier i 1) :=
            Skel_comp _ _ _ (Skel_setTier st.g i (m1 + 1)) (Skel_setTier _ i 1)
          have hnd2 : ((st.g.setTier i (m1 + 1)).setTier i 1).nodes.Nodup :=
            nodup_of_uniq _ (GCore_skel st.g _ hinv.core hsk2).uniq
          have hi2 : i < ((st.g.setTier i (m1 + 1)).setTier i 1).nodes.length := by
            rw [Graph.setTier_nodesLength, Graph.setTier_nodesLength]
            exact hi
          have h03 : ((st.g.setTier i (m1 + 1)).setTier i 1).getNodeIdx
              (Node.item it 1) = some i := by
            rw [← hval2]
            exact Graph.getNodeIdx_self _ hnd2 i hi2
          have hlook3 : ((st.g.setTier i (m1 + 1)).setTier i 1).getItemsAsIngredientsInRecipesIdxs
              (Node.item it 1) =
              some (((st.g.setTier i (m1 + 1)).setTier i 1).sortByTier
                (((st.g.setTier i (m1 + 1)).setTier i 1).outNeighbors i)) := by
            show (((st.g.setTier i (m1 + 1)).setTier i 1).getNodeIdx
              (Node.item it 1)).map
              (fun k => ((st.g.setTier i (m1 + 1)).setTier i 1).sortByTier
                (((st.g.setTier i (m1 + 1)).setTier i 1).outNeighbors k)) = _
            rw [h03]
            rfl
          rw [hlook3, Option.getD_some] at h
          injection h with h
          subst h
          exact AInv_item_update st hinv i rest hq hv hi it t0 hn
            ((st.g.setTier i (m1 + 1)).setTier i 1) hsk2
            (fun k hk => by
              rw [Graph.node_setTier_ne _ i k 1 (Ne.symm hk),
                Graph.node_setTier_ne st.g i k (m1 + 1) (Ne.symm hk)])
            1 hval2
            ⟨fun _ => (Eq.refl 1),
             fun hfa => by rw [hnat] at hfa; exact Bool.noConfusion hfa⟩
      · -- RECIPE branch
        rw [hn] at h
        dsimp only at h
        have h0 : st.g.getNodeIdx (Node.recipe r t0) = some i := by
          rw [← hn]
          exact Graph.getNodeIdx_self st.g hnd i hi
        have hlook1 : st.g.getIngredientsForRecipeIdx (Node.recipe r t0) =
            some (st.g.sortByTier (st.g.inNeighbors i)) := by
          show (st.g.getNodeIdx (Node.recipe r t0)).map
            (fun k => st.g.sortByTier (st.g.inNeighbors k)) = _
          rw [h0]
          rfl
        rw [hlook1] at h
        dsimp only at h
        split at h
        · injection h with h
          subst h
          exact AInv_requeue st hinv i rest hq
        · rename_i hdef
          have hdeps : ∀ j ∈ st.g.inNeighbors i, j ∈ st.visited := by
            intro j hj
            by_contra hjn
            exact hdef (List.any_eq_true.mpr
              ⟨j, (Graph.mem_sortByTier st.g _ j).mpr hj, decide_eq_true hjn⟩)
          set S := ((st.g.sortByTier (st.g.inNeighbors i)).map
            fun j => (st.g.node j).tier).sum with hS
          have hval1 : (st.g.setTier i (S + 1)).node i = Node.recipe r (S + 1) := by
            rw [Graph.node_setTier_self st.g i (S + 1) hi, hn]
            rfl
          rw [hval1] at h
          have hsk1 : Skel st.g (st.g.setTier i (S + 1)) :=
            Skel_setTier st.g i (S + 1)
          have hnd1 : (st.g.setTier i (S + 1)).nodes.Nodup :=
            nodup_of_uniq _ (GCore_skel st.g _ hinv.core hsk1).uniq
          have hi1 : i < (st.g.setTier i (S + 1)).nodes.length := by
            rw [Graph.setTier_nodesLength]
            exact hi
          have h02 : (st.g.setTier i (S + 1)).getNodeIdx
              (Node.recipe r (S + 1)) = some i := by
            rw [← hval1]
            exact Graph.getNodeIdx_self _ hnd1 i hi1
          have hlook2 : (st.g.setTier i (S + 1)).getResultsForRecipeIdxs
              (Node.recipe r (S + 1)) =
              some ((st.g.setTier i (S + 1)).sortByTier
                ((st.g.setTier i (S + 1)).outNeighbors i)) := by
            show ((st.g.setTier i (S + 1)).getNodeIdx (Node.recipe r (S + 1))).map
              (fun k => (st.g.setTier i (S + 1)).sortByTier
                ((st.g.setTier i (S + 1)).outNeighbors k)) = _
            rw [h02]
            rfl
          rw [hlook2, Option.getD_some] at h
          injection h with h
          subst h
          have hperm : (st.g.sortByTier (st.g.inNeighbors i)).Perm
              (st.g.inNeighbors i) := Graph.sortByTier_perm st.g _
          exact AInv_recipe_update st hinv i rest hq hv hi r t0 hn hdeps
            (st.g.setTier i (S + 1)) hsk1
            (fun k hk => Graph.node_setTier_ne st.g i k (S + 1) (Ne.symm hk))
            (S + 1) hval1
            (by rw [hS, (hperm.map fun j => (st.g.node j).tier).sum_eq])

theorem adjustLoop_inv :
    ∀ (fuel : Nat) (st : AState) (g' : Graph), adjustLoop fuel st = some g' →
      AInv st → ∃ vis, AInv ⟨g', [], vis⟩ := by
  intro fuel
  induction fuel with
  | zero =>
    intro st g' h hinv
    cases h
  | succ fuel ih =>
    intro st g' h hinv
    rw [adjustLoop] at h
    rcases hstep : adjustStep st with _ | st2
    · rw [hstep] at h
      injection h with h
      subst h
      have hqe := adjustStep_none st hstep
      obtain ⟨core, oneProd, hasProd, queueRange, visRange, natSeed, visOut,
        queueProd, visDeps, visItem, visRec⟩ := hinv
      refine ⟨st.visited, core, oneProd, hasProd, ?_, visRange, ?_, ?_, ?_,
        visDeps, visItem, visRec⟩
      · intro k hk
        cases hk
      · intro k hk hnat
        rcases natSeed k hk hnat with h2 | h2
        · rw [hqe] at h2
          cases h2
        · exact .inr h2
      · intro k hk x hx
        rcases visOut k hk x hx with h2 | h2
        · rw [hqe] at h2
          cases h2
        · exact .inr h2
      · intro k hk
        cases hk
    · rw [hstep] at h
      exact ih st2 g' h (adjustStep_inv st st2 hstep hinv)

theorem natural_node_seeded (d : Dataset) (g0 : Graph) (bp : BuildPost d g0)
    (k : Nat) (hk : k < g0.nodes.length) (it : Item) (t : Nat)
    (hkv : g0.node k = .item it t) (hnat : it.natural = true) :
    g0.node k = .item it 0 ∧ it ∈ g0.naturals := by
  have hitd : it ∈ d.items := bp.core.itemVals k hk it t hkv
  have hitn : it ∈ d.naturalItems := by
    unfold Dataset.naturalItems
    exact List.mem_filter.mpr ⟨hitd, hnat⟩
  have hmem := bp.nats it hitn
  obtain ⟨k2, hk2⟩ := Option.isSome_iff_exists.mp
    (Graph.getNodeIdx_isSome_of_mem g0 _ hmem)
  obtain ⟨hk2lt, hk2v⟩ := Graph.getNodeIdx_some g0 _ k2 hk2
  by_cases hkk : k2 = k
  · subst hkk
    rw [hkv] at hk2v
    injection hk2v with e1 e2
    refine ⟨by rw [hkv, e2], by rw [bp.natsEq]; exact hitn⟩
  · exfalso
    have hu := bp.core.core.uniq k2 hk2lt k hk hkk (by rw [hk2v, hkv]; rfl)
    exact hu (by rw [hk2v, hkv]; rfl)

theorem adjustSeed_AInv (d : Dataset) (g0 : Graph) (bp : BuildPost d g0)
    (honeP : ∀ k, k < g0.nodes.length → ∀ it t, g0.node k = .item it t →
      it.natural = false → (g0.inNeighbors k).length ≤ 1)
    (hhasP : ∀ k, k < g0.nodes.length → ∀ it t, g0.node k = .item it t →
      it.natural = false → g0.inNeighbors k ≠ []) :
    AInv (adjustSeed g0) := by
  have hnats : ∀ n ∈ g0.naturals, Node.item n 0 ∈ g0.nodes :=
    fun n hn => bp.nats n (by rw [← bp.natsEq]; exact hn)
  obtain ⟨hg, hvis, hqchar, hqall⟩ := adjustSeed_spec g0 hnats
  have hnd : g0.nodes.Nodup := nodup_of_uniq g0 bp.core.core.uniq
  have heta : adjustSeed g0 = ⟨g0, (adjustSeed g0).queue, []⟩ := by
    have h1 : adjustSeed g0 =
        ⟨(adjustSeed g0).g, (adjustSeed g0).queue, (adjustSeed g0).visited⟩ := rfl
    exact h1.trans (by rw [hg, hvis])
  rw [heta]
  refine ⟨bp.core.core, honeP, hhasP, ?_, ?_, ?_, ?_, ?_, ?_, ?_, ?_⟩
  · intro k hk
    obtain ⟨n, _, hlook⟩ := hqchar k hk
    exact (Graph.getNodeIdx_some g0 _ k hlook).1
  · intro k hk
    cases hk
  · intro k hk hknat
    left
    obtain ⟨it, t, hkv, hnat⟩ : ∃ it t, g0.node k = .item it t ∧
        it.natural = true := by
      rcases hkv : g0.node k with ⟨it, t⟩ | ⟨r, t⟩
      · refine ⟨it, t, (Eq.refl _), ?_⟩
        rw [hkv] at hknat
        exact hknat
      · rw [hkv] at hknat
        cases hknat
    obtain ⟨hk0, hmemn⟩ := natural_node_seeded d g0 bp k hk it t hkv hnat
    have hlook : g0.getNodeIdx (Node.item it 0) = some k := by
      rw [← hk0]
      exact Graph.getNodeIdx_self g0 hnd k hk
    exact hqall it hmemn k hlook
  · intro k hk
    cases hk
  · intro k hk it t hkv hnat j hj
    exfalso
    obtain ⟨n, hnmem, hlook⟩ := hqchar k hk
    obtain ⟨_, hkv2⟩ := Graph.getNodeIdx_some g0 _ k hlook
    rw [hkv] at hkv2
    injection hkv2 with e1 e2
    have hnnat : n.natural = true := by
      rw [bp.natsEq] at hnmem
      unfold Dataset.naturalItems at hnmem
      exact (List.mem_filter.mp hnmem).2
    rw [e1] at hnat
    rw [hnat] at hnnat
    cases hnnat
  · intro k hk
    cases hk
  · intro k hk
    cases hk
  · intro k hk
    cases hk

/-! ### Claim theorems: concrete evaluations -/

/-- C6: on the literal test dataset, `from_dataset` (whose final
`adjust_tiers` pass overwrites the construction tiers) produces
copper-ore = iron-ore = 1, copper-plate = iron-plate = 3 and
electronic-circuit = 10 for items, and 2 / 2 / 9 for the copper-plate,
iron-plate and electronic-circuit recipes — not the 0 / 2 / 2 / 6 and
1 / 1 / 5 that the claim (and the repository's own `test_tiers`)
expects. -/
theorem c6_actual_tiers :
    fromDataset mockData 100 = some mockG ∧
    (mockG.nodes.map fun n => (n.name, n.isItem, n.tier)) =
      [("iron-ore", true, 1), ("copper-ore", true, 1), ("copper-plate", false, 2),
        ("copper-plate", true, 3), ("copper-cable", false, 4), ("copper-cable", true, 5),
        ("electronic-circuit", false, 9), ("electronic-circuit", true, 10),
        ("iron-plate", false, 2), ("iron-plate", true, 3)] ∧
    Node.item copperOre 0 ∉ mockG.nodes ∧ Node.item elecCircuit 6 ∉ mockG.nodes := by
  refine ⟨by decide, by decide, by decide, by decide⟩

/-- C7 counterexample: on the literal test dataset the enumeration from
the electronic-circuit item node with K = 10 returns exactly one
solution, but that solution has 10 nodes, not the 7 the claim states. -/
theorem c7_counterexample :
    ((getCraftingTrees mockG (.item elecCircuit 10) 10 100).map fun r =>
      r.map fun sols => sols.map fun s => s.nodes.length) = some (some [10]) ∧
    ((getCraftingTrees mockG (.item elecCircuit 10) 10 100).map fun r =>
      r.map fun sols => sols.map fun s => s.nodes.length) ≠ some (some [7]) := by
  refine ⟨by decide, by decide⟩

/-- C7 (amended): the enumeration from the electronic-circuit item node
with K = 10 returns exactly one solution graph, and it contains exactly
10 nodes (the full chain: 2 ores, 4 recipes and 4 produced items). -/
theorem c7_one_solution_ten_nodes :
    ((getCraftingTrees mockG (.item elecCircuit 10) 10 100).map fun r =>
      r.map fun sols => sols.map fun s => s.nodes.length) = some (some [10]) := by
  decide

/-- C1: on the graph with two recipes producing `t` from one natural
item, `get_crafting_trees` with K = 1 returns 2 solutions: the cap check
runs only before an expansion, so branches that are already complete in
the frontier are all appended past the cap. -/
theorem c1_cap_overshoot :
    fromDataset dataTwoRecipes 100 = some gTwoRecipes ∧
    ((getCraftingTrees gTwoRecipes (.item itemT 3) 1 100).map fun r =>
      r.map List.length) = some (some 2) := by
  refine ⟨by decide, by decide⟩

/-- C5: re-running `adjust_tiers` on the already-tiered single-natural
graph changes the graph: the seeding looks up `Item(natural, 0)`, misses
the node retiered to 1, and adds a duplicate node (which is then itself
retiered to 1). -/
theorem c5_rerun_changes_graph :
    fromDataset dataLoneNatural 100 = some gLoneNatural ∧
    gLoneNatural.nodes = [.item itemA 1] ∧
    adjustTiers gLoneNatural 100 = some ⟨[.item itemA 1, .item itemA 1], [], [itemA]⟩ := by
  refine ⟨by decide, by decide, by decide⟩

/-- C2 counterexample: `dataStaleMin` builds an acyclic, fully reachable
graph, yet the tier recurrence fails after `adjust_tiers`: item `c`
(node 7) holds tier 4 although the minimum tier among its producing
recipes is 4, so the recurrence demands 5 — the pass had read producer
`r2`'s tier before `r2` settled. -/
theorem c2_counterexample :
    fromDataset dataStaleMin 100 = some gStale ∧
    gStale.acyclicB = true ∧ gStale.fullyReachableB = true ∧
    tierRecurrenceB gStale = false ∧
    gStale.node 7 = .item itemC 4 ∧
    (((gStale.inNeighbors 7).dedup).map fun j => (gStale.node j).tier).min? = some 4 := by
  refine ⟨by decide, by decide, by decide, by decide, by decide, by decide⟩

/-- C8 counterexample: recipe `r` of `dataMissingIngredient` lists
ingredients `a` and `b`, but `b` is unreachable and never becomes a
node, so the recipe node's incoming edges are just the one from `a` —
they do not correspond to the full ingredient list. -/
theorem c8_counterexample :
    fromDataset dataMissingIngredient 100 = some gMissing ∧
    recipeEdgesMatchDataB gMissing = false ∧
    gMissing.node 1 = .recipe recR8 2 ∧
    inEdgePairs gMissing 1 = [("a", 1)] := by
  refine ⟨by decide, by decide, by decide, by decide⟩

/-- C3 counterexample: on the cyclic full graph of `dataCyclic`,
enumenation from item `c` returns two solutions and the second contains
a non-natural Item node with no attached producing recipe (the
ancestor-cut duplicate of `c`). -/
theorem c3_counterexample :
    fromDataset dataCyclic 400 = some gCyclic ∧
    ((getCraftingTrees gCyclic (.item itemC3 6) 5 400).map fun r =>
      r.map fun sols => sols.map fun s => oneProducerEachB s) = some (some [true, false]) := by
  refine ⟨by decide, by decide⟩

/-- C4: for a well-formed full graph, whenever the enumerator loop
completes, the Rust result is `None` exactly when the target node value
is absent from the graph; with the target present the result is `Some`
vector of solutions and none of the modelled failure exits is taken. -/
theorem c4_none_iff_target_absent (G : Graph) (hwf : G.WF) (target : Node)
    (K fuel : Nat) (r : Option (List Graph))
    (h : getCraftingTrees G target K fuel = some r) :
    r = none ↔ target ∉ G.nodes := by
  have h1 := (getCraftingTrees_post G hwf target K fuel r h).1
  rw [h1]
  unfold Graph.getNodeIdx
  rw [List.findIdx?_eq_none_iff]
  constructor
  · intro hall hmem
    have := hall target hmem
    simp at this
  · intro hnot x hx
    simp only [decide_eq_false_iff_not]
    intro hxe
    exact hnot (hxe ▸ hx)

/-- Witness for C4: an absent tier-0 query on the mock graph yields the
Rust `None`. -/
theorem c4_witness :
    ((none : Option (List Graph)) = none ↔ Node.item elecCircuit 0 ∉ mockG.nodes) :=
  c4_none_iff_target_absent mockG (by decide) (.item elecCircuit 0) 10 5 none (by decide)

/-- C3 (amended): on a well-formed full graph, every solution the
enumerator returns is acyclic and every Recipe node's attached
ingredient nodes and edge weights exactly match that recipe's ingredient
edges in the full graph; when the full graph is itself acyclic, every
non-natural Item node in a solution additionally has exactly one
attached producing Recipe node.  (On a cyclic full graph the
ancestor-cut leaves duplicate Item nodes with no producer, see the
counterexample.) -/
theorem c3_solution_validity (G : Graph) (hwf : G.WF)
    (target : Node) (K fuel : Nat) (sols : List Graph)
    (h : getCraftingTrees G target K fuel = some (some sols)) :
    ∀ s ∈ sols, s.acyclicB = true ∧ recipeIngredientsMatchB G s = true ∧
      (G.acyclicB = true → oneProducerEachB s = true) := by
  have hpost := (getCraftingTrees_post G hwf target K fuel (some sols) h).2 sols rfl
  obtain ⟨hnd, hr, hbip, hnp⟩ := hwf
  intro s hs
  have hsol : SolPost G s := hpost s hs
  refine ⟨acyclicB_of_desc s (fun e he => (hsol.edgeDesc e he).1), ?_, ?_⟩
  · refine recipeIngredientsMatchB_eq_true G s hnd ?_
    intro i hi r t hv
    exact hsol.recipeStatus i hi r t hv (by simp)
  · intro hacy
    refine oneProducerEachB_eq_true s ?_
    intro i hi it t hv hnat
    rcases hsol.itemStatus i hi it t hv hnat (by simp) with h1 | h1
    · exact h1
    · exact absurd h1 (fun hcut => cut_gives_cycle G s hnd hr hsol.edgeLift hacy i hcut)

/-- Witness for C3 (amended) on the one-natural-item graph: its single
solution is acyclic and ingredient-exact, and producer-complete since
the full graph is acyclic. -/
theorem c3_witness :
    ((⟨[.item itemA 1], [], [itemA]⟩ : Graph).acyclicB = true ∧
      recipeIngredientsMatchB gLoneNatural ⟨[.item itemA 1], [], [itemA]⟩ = true ∧
      (gLoneNatural.acyclicB = true →
        oneProducerEachB ⟨[.item itemA 1], [], [itemA]⟩ = true)) :=
  c3_solution_validity gLoneNatural (by decide) (.item itemA 1) 1 10
    [⟨[.item itemA 1], [], [itemA]⟩] (by decide) _ (List.mem_singleton.mpr rfl)

/-- C10: `get_node_idx` compares whole node values, tier included: if no
node of the graph equals `Item(it, t')` — even though the same item is
present at a different tier `t` — the lookup fails and
`get_crafting_trees` returns `None` for that target. -/
theorem c10_node_identity_includes_tier (g : Graph) (it : Item) (t t' K fuel : Nat)
    (_hpresent : Node.item it t ∈ g.nodes) (_hne : t' ≠ t)
    (habsent : ∀ n ∈ g.nodes, n ≠ Node.item it t') :
    g.getNodeIdx (.item it t') = none ∧
      getCraftingTrees g (.item it t') K fuel = some none := by
  have h1 : g.getNodeIdx (.item it t') = none := by
    unfold Graph.getNodeIdx
    rw [List.findIdx?_eq_none_iff]
    intro x hx
    simpa using habsent x hx
  refine ⟨h1, ?_⟩
  unfold getCraftingTrees
  rw [h1]

/-- Witness for C10 on the one-node graph `Item(a, 1)`: the item name
`a` is present, but the tier-0 query is not found. -/
theorem c10_witness :
    Node.item itemA 1 ∈ gLoneNatural.nodes ∧
    (gLoneNatural.getNodeIdx (.item itemA 0) = none ∧
      getCraftingTrees gLoneNatural (.item itemA 0) 1 5 = some none) :=
  ⟨by decide,
   c10_node_identity_includes_tier gLoneNatural itemA 1 0 1 5 (by decide) (by decide)
     (by decide)⟩

/-- C8 (amended): in every graph `from_dataset` builds from a well-formed
dataset, a Recipe node's outgoing edges list exactly its recipe's result
entries in order (one edge per result, weighted by the result amount and
ending in the item node of that name), and its incoming edges are a
permutation of the recipe's ingredient entries restricted to those whose
item name is present as an Item node in the graph (one edge per such
ingredient, weighted by the ingredient amount).  On the unrestricted
ingredient list the original claim fails: an ingredient never produced
and not natural gets no node and no edge (`c8_counterexample`). -/
theorem c8_recipe_edges (d : Dataset) (hd : WFData d) (fuel : Nat) (g : Graph)
    (h : fromDataset d fuel = some g) :
    ∀ i, i < g.nodes.length → ∀ r t, g.node i = .recipe r t →
      (inEdgePairs g i).Perm
        ((r.ingredients.filter fun p =>
          (g.getItemIdxFromName p.2.name).isSome).map fun p => (p.2.name, p.1)) ∧
      outEdgePairs g i = r.results.map fun p => (p.2.name, p.1) := by
  obtain ⟨hginv, hnats, houts, hins⟩ := fromDataset_post d hd fuel g h
  intro i hi r t hv
  constructor
  · exact recipe_in_edges_perm d hd g hginv hins i hi r t hv
  · exact houts i hi r t hv

/-- Witness for C8 on the repository's literal test dataset: the
copper-plate recipe node of the mock graph. -/
theorem c8_witness :
    (inEdgePairs mockG 2).Perm
      ((recCopperPlate.ingredients.filter fun p =>
        (mockG.getItemIdxFromName p.2.name).isSome).map fun p => (p.2.name, p.1)) ∧
    outEdgePairs mockG 2 = recCopperPlate.results.map fun p => (p.2.name, p.1) :=
  c8_recipe_edges mockData (by decide) 100 mockG (by decide) 2 (by decide)
    recCopperPlate 2 (by decide)

/-- C9: every graph `from_dataset` builds from a well-formed dataset is
bipartite — no edge joins two nodes of the same variant — and so is every
solution graph the enumerator returns on it. -/
theorem c9_bipartite_everywhere (d : Dataset) (hd : WFData d) (fuel : Nat)
    (g : Graph) (h : fromDataset d fuel = some g) :
    g.bipartiteB = true ∧
    ∀ target K fuel2 sols, getCraftingTrees g target K fuel2 = some (some sols) →
      ∀ s ∈ sols, s.bipartiteB = true := by
  obtain ⟨hginv, hnats, houts, hins⟩ := fromDataset_post d hd fuel g h
  have hbip : g.bipartiteB = true := bipartiteB_of_pointwise g hginv.core.bip
  have hwf : g.WF :=
    ⟨nodup_of_uniq g hginv.core.uniq, hginv.core.range, hbip, hginv.core.nopar⟩
  refine ⟨hbip, ?_⟩
  intro target K fuel2 sols hrun s hs
  have hpost := (getCraftingTrees_post g hwf target K fuel2 (some sols) hrun).2
    sols (Eq.refl _) s hs
  exact bipartiteB_of_pointwise s hpost.edgeBip

/-- Witness for C9 on the repository's literal test dataset. -/
theorem c9_witness : mockG.bipartiteB = true :=
  (c9_bipartite_everywhere mockData (by decide) 100 mockG (by decide)).1

/-- C2 (amended): on the graph `from_dataset` builds from a well-formed
dataset — when that graph is acyclic, fully reachable from natural-item
nodes, and every derived item has at most one producing recipe — every
node satisfies the tier recurrence with the code's base tier of 1:
natural items sit at tier 1, a recipe's tier is the sum of its
ingredient item nodes' tiers plus 1, and a derived item's tier is the
minimum of its producing recipes' tiers plus 1.  Without the
single-producer restriction the recurrence fails, because the minimum is
taken over producer tiers read before those producers are finalised
(`c2_counterexample`). -/
theorem c2_tier_recurrence (d : Dataset) (hd : WFData d) (fuel : Nat) (g : Graph)
    (h : fromDataset d fuel = some g)
    (hacy : g.acyclicB = true)
    (hreach : g.fullyReachableB = true)
    (hone : g.atMostOneProducerB = true) :
    tierRecurrenceB g = true := by
  obtain ⟨g0, hb, ha⟩ := fromDataset_parts d fuel g h
  have bp := buildGraph_post d hd fuel g0 hb
  have hnats0 : ∀ n ∈ g0.naturals, Node.item n 0 ∈ g0.nodes :=
    fun n hn => bp.nats n (by rw [← bp.natsEq]; exact hn)
  have hsk : Skel g0 g := adjustTiers_skeleton g0 hnats0 fuel g ha
  have hlen := hsk.2.2.1
  have honeP : ∀ k, k < g0.nodes.length → ∀ it t, g0.node k = .item it t →
      it.natural = false → (g0.inNeighbors k).length ≤ 1 := by
    intro k hk it t hkv hnat
    obtain ⟨t', hkv'⟩ := Skel.item_fwd g0 g hsk k hk it t hkv
    have h2 := oneProd_of_atMostOneProducerB g hone k (by omega) it t' hkv' hnat
    rw [Skel.inNeighborsEq g0 g hsk k] at h2
    exact h2
  have hhasP : ∀ k, k < g0.nodes.length → ∀ it t, g0.node k = .item it t →
      it.natural = false → g0.inNeighbors k ≠ [] := by
    intro k hk it t hkv hnat
    obtain ⟨t', hkv'⟩ := Skel.item_fwd g0 g hsk k hk it t hkv
    have h2 := hasProd_of_fullyReachable g hreach k (by omega) it t' hkv' hnat
    rw [Skel.inNeighborsEq g0 g hsk k] at h2
    exact h2
  have hseedInv := adjustSeed_AInv d g0 bp honeP hhasP
  obtain ⟨vis, hend⟩ := adjustLoop_inv fuel (adjustSeed g0) g ha hseedInv
  have hclosed : ∀ a b, Relation.ReflTransGen g.idxAdj a b → a ∈ vis → b ∈ vis := by
    intro a b hab
    induction hab with
    | refl => exact fun h2 => h2
    | tail hp hstep ih =>
      intro ha2
      have hb2 := ih ha2
      obtain ⟨e, he, hes, het⟩ := hstep
      have hx := hend.visOut _ hb2 _ (by
        rw [Graph.mem_outNeighbors]
        exact ⟨e, he, hes, het⟩)
      rcases hx with h2 | h2
      · cases h2
      · exact h2
  have hvisAll : ∀ k, k < g.nodes.length → k ∈ vis := by
    intro k hk
    obtain ⟨j, hj, hjnat, hreachk⟩ := reach_of_fullyReachableB g hreach k hk
    have hjvis : j ∈ vis := by
      rcases hend.natSeed j hj hjnat with h2 | h2
      · cases h2
      · exact h2
    exact hclosed j k (reachSet_sound g j k hreachk) hjvis
  unfold tierRecurrenceB
  rw [List.all_eq_true]
  intro k hk0
  rw [List.mem_range] at hk0
  have hkvis := hvisAll k hk0
  rcases hkv : g.node k with ⟨it, t⟩ | ⟨r, t⟩
  · dsimp only
    have hvi := hend.visItem k hkvis it t hkv
    cases hnat : it.natural
    · obtain ⟨m, hm, hms⟩ := hvi.2 hnat
      have hndIn : (g.inNeighbors k).Nodup :=
        nodup_of_length_le_one _
          (oneProd_of_atMostOneProducerB g hone k hk0 it t hkv hnat)
      rw [if_neg Bool.false_ne_true]
      rw [List.dedup_eq_self.mpr hndIn, hm]
      exact decide_eq_true hms
    · rw [if_pos (Eq.refl true)]
      exact decide_eq_true (hvi.1 hnat)
  · dsimp only
    have hvr := hend.visRec k hkvis r t hkv
    have hndIn : (g.inNeighbors k).Nodup :=
      inNeighbors_nodup_of_nopar g hend.core.nopar k (by rw [hkv]; rfl)
    rw [List.dedup_eq_self.mpr hndIn]
    exact decide_eq_true hvr

/-- Witness for C2 on the repository's literal test dataset, whose graph
is acyclic, fully reachable from its two natural ores, and single
producer per item. -/
theorem c2_witness : tierRecurrenceB mockG = true :=
  c2_tier_recurrence mockData (by decide) 100 mockG (by decide) (by decide)
    (by decide) (by decide)

end Factory
